import Mathlib

/-!
# The oom cgroup controller (`mm/oomcontrol.c`)

A shallow embedding of the oom priority controller and a verification of its
propagation algorithms.

* Every `struct cgroup` lives in an arena indexed by natural numbers (the
  pointers of the C code); a null pointer is `none`.
* The two intrusive lists of a cgroup (`children`, `sibling`) are kept as the
  two links the traversals follow: `first_child` is `children.next` (absent
  when `list_empty`), `next_sibling` is `sibling.next` (absent when it is the
  list head of the parent, i.e. the cgroup is the last child).
* `atomic_t` is a 32-bit `int`; every `u64` is a natural number below `2^64`.
  Storing a `u64` truncates it to 32 bits, loading converts the `int` back to
  `u64` by sign extension, and all comparisons of the C code are unsigned
  64-bit comparisons.
* The `goto` loops are a step function on the registers of the traversal, run
  with fuel; the mutex is not modelled (the embedding is sequential).
-/

namespace OomControl

/-! ## Machine integers -/

/-- The kernel's `atomic_t`: a 32-bit `int`, kept as its two's complement bit
pattern. -/
structure atomic_t where
  counter : Nat
  isInt : counter < 4294967296
deriving DecidableEq

/-- Store a `u64` into an `atomic_t` (`atomic_set`): the conversion to `int`
keeps the low 32 bits. -/
def atomic_set (i : Nat) : atomic_t := ⟨i % 4294967296, Nat.mod_lt _ (by decide)⟩

/-- Load an `atomic_t` into a `u64` (`atomic_read` followed by the integer
conversion): the `int` is sign-extended to 64 bits. -/
def atomic_read (v : atomic_t) : Nat :=
  if v.counter < 2147483648 then v.counter else v.counter + 18446744069414584320

/-- A `u64` that survives a store into an `atomic_t` followed by a load: the
image of a 32-bit `int`, that is a value below `2^31` or at least
`2^64 - 2^31`. -/
def Fits (val : Nat) : Prop := atomic_read (atomic_set val) = val

instance (val : Nat) : Decidable (Fits val) := by unfold Fits; infer_instance

/-! ## Data model -/

/-- The controller state of one group (`struct oom_cgroup`). -/
structure oom_cgroup where
  priority : atomic_t
  effective_priority : atomic_t
deriving DecidableEq

/-- A `struct cgroup` as far as the controller reads it, together with its oom
subsystem state. -/
structure cgroup where
  parent : Option Nat
  first_child : Option Nat
  next_sibling : Option Nat
  css : oom_cgroup
deriving DecidableEq

/-- The memory the controller works on: the cgroups and the global flag. -/
structure State where
  cgroups : Nat → Option cgroup
  honour_cpuset_constraint : atomic_t

/-- The oom state of a cgroup (`oom_css_from_cgroup`). -/
def oom_css_from_cgroup (s : State) (cgrp : Nat) : Option oom_cgroup :=
  (s.cgroups cgrp).map (fun g => g.css)

/-- The store `atomic_set(&oom_css_from_cgroup(cgrp)->priority, val)`. -/
def set_priority (s : State) (cgrp : Nat) (val : Nat) : State :=
  { s with cgroups := fun i =>
      if i = cgrp then
        (s.cgroups i).map (fun g => { g with css := { g.css with priority := atomic_set val } })
      else s.cgroups i }

/-- The store `atomic_set(&oom_css_from_cgroup(cgrp)->effective_priority, val)`. -/
def set_effective_priority (s : State) (cgrp : Nat) (val : Nat) : State :=
  { s with cgroups := fun i =>
      if i = cgrp then
        (s.cgroups i).map (fun g =>
          { g with css := { g.css with effective_priority := atomic_set val } })
      else s.cgroups i }

/-- The control file read `oom_effective_priority_read`. -/
def oom_effective_priority_read (s : State) (cgrp : Nat) : Option Nat :=
  (oom_css_from_cgroup s cgrp).map (fun o => atomic_read o.effective_priority)

/-- The control file read `oom_priority_read`. -/
def oom_priority_read (s : State) (cgrp : Nat) : Option Nat :=
  (oom_css_from_cgroup s cgrp).map (fun o => atomic_read o.priority)

/-! ## The traversals -/

/-- The three places of the `goto` loops. -/
inductive Label where
  | visit_children
  | visit_siblings
  | out
deriving DecidableEq

/-- Registers of `increase_effective_priority` during its loop. -/
structure IncWalk where
  st : State
  curr : Option Nat
  pc : Label

/-- One jump of the loop of `increase_effective_priority(cgrp, val)`. -/
def increase_step (cgrp val : Nat) (w : IncWalk) : Option IncWalk :=
  match w.pc with
  | .out => some w
  | .visit_children =>
    match w.curr with
    | none => none
    | some c =>
      match w.st.cgroups c with
      | none => none
      | some g =>
        let st1 :=
          if atomic_read g.css.effective_priority < val then
            set_effective_priority w.st c val
          else w.st
        match g.first_child with
        | some k => some ⟨st1, some k, .visit_children⟩
        | none => some ⟨st1, some c, .visit_siblings⟩
  | .visit_siblings =>
    match w.curr with
    | none => some { w with pc := .out }
    | some c =>
      if cgrp = c then some { w with pc := .out }
      else
        match w.st.cgroups c with
        | none => none
        | some g =>
          match g.next_sibling with
          | some n => some ⟨w.st, some n, .visit_children⟩
          | none => some ⟨w.st, g.parent, .visit_siblings⟩

/-- The loop of `increase_effective_priority`, at most `fuel` jumps. -/
def increase_loop (cgrp val : Nat) : Nat → IncWalk → Option State
  | 0, _ => none
  | fuel + 1, w =>
    if w.pc = .out then some w.st
    else (increase_step cgrp val w).bind (increase_loop cgrp val fuel)

/-- The function `increase_effective_priority(cgrp, val)`. -/
def increase_effective_priority (fuel : Nat) (s : State) (cgrp val : Nat) : Option State :=
  match s.cgroups cgrp with
  | none => none
  | some g =>
    let s1 := set_effective_priority s cgrp val
    match g.first_child with
    | none => some s1
    | some c => increase_loop cgrp val fuel ⟨s1, some c, .visit_children⟩

/-- Registers of `decrease_effective_priority` during its loop; the field
`effective_priority` is the local variable of that name. -/
structure DecWalk where
  st : State
  curr : Option Nat
  effective_priority : Nat
  pc : Label

/-- One jump of the loop of `decrease_effective_priority(cgrp, val)`. -/
def decrease_step (cgrp val : Nat) (w : DecWalk) : Option DecWalk :=
  match w.pc with
  | .out => some w
  | .visit_children =>
    match w.curr with
    | none => none
    | some c =>
      match w.st.cgroups c with
      | none => none
      | some g =>
        let priority := atomic_read g.css.priority
        let st1 :=
          if priority > w.effective_priority then set_effective_priority w.st c priority
          else set_effective_priority w.st c w.effective_priority
        let e1 := if priority > w.effective_priority then priority else w.effective_priority
        match g.first_child with
        | some k => some ⟨st1, some k, e1, .visit_children⟩
        | none => some ⟨st1, some c, e1, .visit_siblings⟩
  | .visit_siblings =>
    match w.curr with
    | none => some { w with pc := .out }
    | some c =>
      if cgrp = c then some { w with pc := .out }
      else
        match w.st.cgroups c with
        | none => none
        | some g =>
          let e1 : Option Nat :=
            match g.parent with
            | some p => oom_effective_priority_read w.st p
            | none => some val
          match e1 with
          | none => none
          | some e =>
            match g.next_sibling with
            | some n => some ⟨w.st, some n, e, .visit_children⟩
            | none => some ⟨w.st, g.parent, e, .visit_siblings⟩

/-- The loop of `decrease_effective_priority`, at most `fuel` jumps. -/
def decrease_loop (cgrp val : Nat) : Nat → DecWalk → Option State
  | 0, _ => none
  | fuel + 1, w =>
    if w.pc = .out then some w.st
    else (decrease_step cgrp val w).bind (decrease_loop cgrp val fuel)

/-- The function `decrease_effective_priority(cgrp, val)`. -/
def decrease_effective_priority (fuel : Nat) (s : State) (cgrp val : Nat) : Option State :=
  match s.cgroups cgrp with
  | none => none
  | some g =>
    let s1 := set_effective_priority s cgrp val
    match g.first_child with
    | none => some s1
    | some c => decrease_loop cgrp val fuel ⟨s1, some c, val, .visit_children⟩

/-! ## The course of the traversals -/

/-- The configurations that the loop of `increase_effective_priority` passes
through from `w` on, `w` included, at most `fuel` of them. -/
def increase_trace (cgrp val : Nat) : Nat → IncWalk → List IncWalk
  | 0, _ => []
  | fuel + 1, w =>
    w :: (if w.pc = .out then []
      else
        match increase_step cgrp val w with
        | none => []
        | some w1 => increase_trace cgrp val fuel w1)

/-- The configurations of a call `increase_effective_priority(cgrp, val)`
from the first arrival at `visit_children` on. -/
def increase_walk (fuel : Nat) (s : State) (cgrp val : Nat) : List IncWalk :=
  match s.cgroups cgrp with
  | none => []
  | some g =>
    match g.first_child with
    | none => []
    | some c =>
      increase_trace cgrp val fuel ⟨set_effective_priority s cgrp val, some c, .visit_children⟩

/-- The cgroup visited in a configuration: the cursor at `visit_children`. -/
def IncWalk.visited (w : IncWalk) : Option Nat :=
  if w.pc = .visit_children then w.curr else none

/-- The cgroups that `increase_effective_priority(cgrp, val)` visits, in the
order of the visits. -/
def increase_visits (fuel : Nat) (s : State) (cgrp val : Nat) : List Nat :=
  (increase_walk fuel s cgrp val).filterMap IncWalk.visited

/-- The configurations that the loop of `decrease_effective_priority` passes
through from `w` on, `w` included, at most `fuel` of them. -/
def decrease_trace (cgrp val : Nat) : Nat → DecWalk → List DecWalk
  | 0, _ => []
  | fuel + 1, w =>
    w :: (if w.pc = .out then []
      else
        match decrease_step cgrp val w with
        | none => []
        | some w1 => decrease_trace cgrp val fuel w1)

/-- The configurations of a call `decrease_effective_priority(cgrp, val)`
from the first arrival at `visit_children` on. -/
def decrease_walk (fuel : Nat) (s : State) (cgrp val : Nat) : List DecWalk :=
  match s.cgroups cgrp with
  | none => []
  | some g =>
    match g.first_child with
    | none => []
    | some c =>
      decrease_trace cgrp val fuel
        ⟨set_effective_priority s cgrp val, some c, val, .visit_children⟩

/-- The cgroup visited in a configuration: the cursor at `visit_children`. -/
def DecWalk.visited (w : DecWalk) : Option Nat :=
  if w.pc = .visit_children then w.curr else none

/-- The cgroups that `decrease_effective_priority(cgrp, val)` visits, in the
order of the visits. -/
def decrease_visits (fuel : Nat) (s : State) (cgrp val : Nat) : List Nat :=
  (decrease_walk fuel s cgrp val).filterMap DecWalk.visited

/-- The cursor of a configuration is safe: it is `cgrp` or one of the given
descendants, and where the loop is about to read through the parent of the
cursor (at `visit_siblings`, the cursor not being `cgrp`) that parent is
present. -/
def SafeCursor (st : State) (curr : Option Nat) (pc : Label) (cgrp : Nat)
    (below : List Nat) : Prop :=
  ∃ c, curr = some c ∧ (c = cgrp ∨ c ∈ below) ∧
    (pc = .visit_siblings → c ≠ cgrp →
      ∃ g p gp, st.cgroups c = some g ∧ g.parent = some p ∧ st.cgroups p = some gp)

/-! ## The control files -/

/-- The control file write `oom_priority_write(cgrp, cft, val)`: the return
value and the memory afterwards. -/
def oom_priority_write (fuel : Nat) (s : State) (cgrp val : Nat) : Option (Int × State) :=
  match s.cgroups cgrp with
  | none => none
  | some g =>
    let old_priority := atomic_read g.css.priority
    let s1 := set_priority s cgrp val
    match oom_effective_priority_read s1 cgrp with
    | none => none
    | some effective_priority =>
      if val > effective_priority then
        (increase_effective_priority fuel s1 cgrp val).map (fun s2 => (0, s2))
      else if effective_priority = old_priority ∧ val < effective_priority then
        let parent_effective_priority : Option Nat :=
          match g.parent with
          | some p => oom_effective_priority_read s1 p
          | none => some 0
        match parent_effective_priority with
        | none => none
        | some parent_effective_priority =>
          if g.parent = none ∨ parent_effective_priority < effective_priority then
            let floor :=
              if g.parent = none ∨ effective_priority < val ∨ parent_effective_priority < val
              then val
              else parent_effective_priority
            (decrease_effective_priority fuel s1 cgrp floor).map (fun s2 => (0, s2))
          else some (0, s1)
      else some (0, s1)

/-- Modelled from the spec: the error number of `InvalidArgument`, `EINVAL` of
the kernel headers, which are not among the sources. -/
def EINVAL : Int := 22

/-- The control file write `oom_cpuset_write(cgrp, cft, val)`: the return
value and the memory afterwards. The cgroup is not looked at. -/
def oom_cpuset_write (s : State) (_cgrp : Nat) (val : Nat) : Int × State :=
  if val > 1 then (-EINVAL, s)
  else (0, { s with honour_cpuset_constraint := atomic_set val })

/-- The control file read `oom_cpuset_read(cgrp, cft)`. -/
def oom_cpuset_read (s : State) (_cgrp : Nat) : Nat :=
  atomic_read s.honour_cpuset_constraint

/-- The file table `oom_cgroup_files`, by the names of its entries. -/
def oom_cgroup_files : List String := ["priority", "effective_priority"]

/-- The file table `oom_cgroup_root_only_files`, by the names of its entries. -/
def oom_cgroup_root_only_files : List String := ["cpuset_constraint"]

/-- The function `oom_populate(ss, cont)`. The function `cgroup_add_files` of
the cgroup core is the parameter of that name: it is handed a file table and
answers with its error code. The result is the return value and the file
tables that were handed over for `cont`, in order. -/
def oom_populate (cgroup_add_files : List String → Int) (s : State) (cont : Nat) :
    Option (Int × List (List String)) :=
  match s.cgroups cont with
  | none => none
  | some g =>
    let ret := cgroup_add_files oom_cgroup_files
    if ret = 0 ∧ g.parent = none then
      some (cgroup_add_files oom_cgroup_root_only_files,
        [oom_cgroup_files, oom_cgroup_root_only_files])
    else some (ret, [oom_cgroup_files])

/-- The query `task_oom_priority(p)`: the value returned and the memory
afterwards. The parameter `task_subsys_state` is the map of the cgroup core
from a task to the cgroup whose oom state it uses. The RCU read-side section
is not modelled. -/
def task_oom_priority (task_subsys_state : Nat → Nat) (s : State) (p : Nat) :
    Option (Nat × State) :=
  match oom_css_from_cgroup s (task_subsys_state p) with
  | none => none
  | some css => some (atomic_read css.effective_priority, s)

/-- The function `oom_destroy(ss, cont)`: the storage of the oom state of
`cont` is handed back to the allocator by `kfree`. The structure of the cgroup
and its links stay as they are. What the freed storage holds afterwards is
not fixed by the code; it is the parameter `reuse`. -/
def oom_destroy (reuse : oom_cgroup) (s : State) (cont : Nat) : State :=
  { s with cgroups := fun i =>
      if i = cont then (s.cgroups i).map (fun g => { g with css := reuse }) else s.cgroups i }

/-- Modelled from the spec: the errors of the control surface that no function
of `oomcontrol.c` returns. They come from the file layer of the cgroup core,
which is not among the sources: `NotFound` for an operation that names a node
id that does not exist, `InvalidOperation` for a `cpuset_constraint` write
attempted on a node that is not the root. -/
inductive ControlError where
  | NotFound
  | InvalidOperation
deriving DecidableEq

/-- Modelled from the spec: the removal of a group by the external manager
(the cgroup core, which is not among the sources): destruction releases the
state of the node, through `oom_destroy`, and detaches it from traversal; no
propagation occurs. Afterwards the id is unknown. A node that is removed has
no children left. -/
def destroy_node (reuse : oom_cgroup) (s : State) (id : Nat) : State :=
  match s.cgroups id with
  | none => s
  | some g =>
    let s1 := oom_destroy reuse s id
    { s1 with cgroups := fun i =>
        if i = id then none
        else (s1.cgroups i).map (fun h =>
          { h with
            first_child := if h.first_child = some id then g.next_sibling else h.first_child
            next_sibling := if h.next_sibling = some id then g.next_sibling else h.next_sibling }) }

/-- Modelled from the spec: `write_priority(id, val)` as it arrives through the
control surface (the file layer of the cgroup core, which is not among the
sources): it fails with `NotFound` if `id` is unknown and then changes
nothing; for a known id the handler `oom_priority_write` runs and its return
value is the result. -/
def write_priority (fuel : Nat) (s : State) (id val : Nat) :
    Option (Except ControlError Int × State) :=
  match s.cgroups id with
  | none => some (.error .NotFound, s)
  | some _ => (oom_priority_write fuel s id val).map (fun r => (.ok r.1, r.2))

/-- Modelled from the spec: `write_constraint(val)` as it arrives through the
control entry `cpuset_constraint` of the node `id` (the file layer of the
cgroup core, which is not among the sources). The write is valid only on a
control entry that exists: the node has the entry when `oom_populate` handed a
table with that name to `cgroup_add_files` for it and the call answered `0`.
Then the handler `oom_cpuset_write` runs. On a known node without the entry
the write is an `InvalidOperation` and changes nothing; an unknown id is
`NotFound`. -/
def write_constraint (cgroup_add_files : List String → Int) (s : State) (id val : Nat) :
    Option (Except ControlError Int × State) :=
  match oom_populate cgroup_add_files s id with
  | none => some (.error .NotFound, s)
  | some (_, tables) =>
    if tables.any (fun tb => decide ("cpuset_constraint" ∈ tb) && decide (cgroup_add_files tb = 0))
    then some (.ok (oom_cpuset_write s id val).1, (oom_cpuset_write s id val).2)
    else some (.error .InvalidOperation, s)

/-- The priority write without the guard of the lowering branch, worded as
the unguarded algorithm: whenever the effective priority equals the old
priority and `val` is below it, decrease propagation runs with the floor
`max(val, parent_eff)`, where `parent_eff` is `0` at the root. -/
def oom_priority_write_unguarded (fuel : Nat) (s : State) (cgrp val : Nat) :
    Option (Int × State) :=
  match s.cgroups cgrp with
  | none => none
  | some g =>
    let old_priority := atomic_read g.css.priority
    let s1 := set_priority s cgrp val
    match oom_effective_priority_read s1 cgrp with
    | none => none
    | some effective_priority =>
      if val > effective_priority then
        (increase_effective_priority fuel s1 cgrp val).map (fun s2 => (0, s2))
      else if effective_priority = old_priority ∧ val < effective_priority then
        let parent_effective_priority : Option Nat :=
          match g.parent with
          | some p => oom_effective_priority_read s1 p
          | none => some 0
        match parent_effective_priority with
        | none => none
        | some parent_effective_priority =>
          (decrease_effective_priority fuel s1 cgrp (max val parent_effective_priority)).map
            (fun s2 => (0, s2))
      else some (0, s1)

/-! ## Trees

The shape of the hierarchy is described by a forest in first-child /
next-sibling form, which is how the linked lists of the cgroups store it. -/

/-- A finite ordered forest of cgroup ids: `cons id kids rest` is the tree of
`id` with the children `kids`, followed by the later siblings `rest`. -/
inductive Forest where
  | nil : Forest
  | cons (id : Nat) (kids : Forest) (rest : Forest) : Forest
deriving DecidableEq

/-- The first tree's root, if any. -/
def Forest.head : Forest → Option Nat
  | .nil => none
  | .cons id _ _ => some id

/-- All ids of the forest in pre-order, first child first. -/
def Forest.ids : Forest → List Nat
  | .nil => []
  | .cons id kids rest => id :: (kids.ids ++ rest.ids)

/-- Number of nodes. -/
def Forest.size : Forest → Nat
  | .nil => 0
  | .cons _ kids rest => 1 + kids.size + rest.size

/-- The children forest of the node `n` (empty when `n` does not occur). -/
def Forest.kidsOf (n : Nat) : Forest → Forest
  | .nil => .nil
  | .cons id kids rest =>
    if id = n then kids
    else if n ∈ kids.ids then kids.kidsOf n
    else rest.kidsOf n

/-- The parent of the node `n` in a forest whose roots have parent `top`. -/
def Forest.parentOf (n : Nat) (top : Option Nat) : Forest → Option Nat
  | .nil => none
  | .cons id kids rest =>
    if id = n then top
    else if n ∈ kids.ids then kids.parentOf n (some id)
    else rest.parentOf n top

/-- The strict descendants of `n`, in pre-order. -/
def Forest.descendants (t : Forest) (n : Nat) : List Nat := (t.kidsOf n).ids

/-- The three links of a cgroup: parent, first child, next sibling. -/
def State.links (s : State) (i : Nat) : Option (Option Nat × Option Nat × Option Nat) :=
  (s.cgroups i).map (fun g => (g.parent, g.first_child, g.next_sibling))

/-- The links stored in the cgroups are those of the forest `f`, whose roots
have the parent `parent`: parent links and child lists are consistent. -/
def Shape (s : State) (parent : Option Nat) : Forest → Prop
  | .nil => True
  | .cons id kids rest =>
    s.links id = some (parent, kids.head, rest.head) ∧
      Shape s (some id) kids ∧ Shape s parent rest

/-- Deciding `Shape` by recursion over the forest. -/
def Shape.decide (s : State) : (parent : Option Nat) → (f : Forest) → Decidable (Shape s parent f)
  | _, .nil => isTrue trivial
  | parent, .cons id kids rest =>
    have := Shape.decide s (some id) kids
    have := Shape.decide s parent rest
    show Decidable (s.links id = some (parent, kids.head, rest.head) ∧
      Shape s (some id) kids ∧ Shape s parent rest) from inferInstance

instance (s : State) (parent : Option Nat) (f : Forest) : Decidable (Shape s parent f) :=
  Shape.decide s parent f

/-- The state `s` is a hierarchy of shape `t`: a finite forest of cgroups whose
links agree with `t` and in which no cgroup occurs twice (so it is acyclic). -/
def WellFormed (s : State) (t : Forest) : Prop := Shape s none t ∧ t.ids.Nodup

instance (s : State) (t : Forest) : Decidable (WellFormed s t) := by
  unfold WellFormed; infer_instance

/-- The effective priority of a cgroup as a `u64`, `0` for a dangling id. -/
def eff (s : State) (n : Nat) : Nat := (oom_effective_priority_read s n).getD 0

/-- The priority of a cgroup as a `u64`, `0` for a dangling id. -/
def prio (s : State) (n : Nat) : Nat := (oom_priority_read s n).getD 0

/-! ## The traversals as recursive functions over the forest -/

/-- What increase propagation does at one visited cgroup. -/
def increase_visit (val : Nat) (s : State) (c : Nat) : State :=
  if eff s c < val then set_effective_priority s c val else s

/-- Increase propagation as a recursive pre-order walk. -/
def increase_forest (val : Nat) : State → Forest → State
  | s, .nil => s
  | s, .cons id kids rest =>
    increase_forest val (increase_forest val (increase_visit val s id) kids) rest

/-- The floor that decrease propagation hands down from a visited cgroup. -/
def decrease_floor (s : State) (c floor : Nat) : Nat :=
  if prio s c > floor then prio s c else floor

/-- Decrease propagation as a recursive pre-order walk below the cgroup
`parent`: the first tree is entered with `floor`, every later sibling with
the effective priority stored in `parent` at that time. -/
def decrease_forest : State → Nat → Nat → Forest → State
  | s, _, _, .nil => s
  | s, parent, floor, .cons id kids rest =>
    let s1 := set_effective_priority s id (decrease_floor s id floor)
    let s2 := decrease_forest s1 id (decrease_floor s id floor) kids
    decrease_forest s2 parent (eff s2 parent) rest

/-- The write `oom_priority_write` on a hierarchy of shape `t`, with the two
propagations as recursive walks over the children forest of `cgrp`. -/
def priority_write_forest (t : Forest) (s : State) (cgrp val : Nat) : State :=
  let s1 := set_priority s cgrp val
  if val > eff s cgrp then
    increase_forest val (set_effective_priority s1 cgrp val) (t.kidsOf cgrp)
  else if eff s cgrp = prio s cgrp ∧ val < eff s cgrp then
    match t.parentOf cgrp none with
    | none => decrease_forest (set_effective_priority s1 cgrp val) cgrp val (t.kidsOf cgrp)
    | some p =>
      if eff s p < eff s cgrp then
        let floor := if eff s cgrp < val ∨ eff s p < val then val else eff s p
        decrease_forest (set_effective_priority s1 cgrp floor) cgrp floor (t.kidsOf cgrp)
      else s1
  else s1

/-- The invariant at one cgroup: the root's effective priority is its
priority, any other cgroup's is the maximum of its priority and its parent's
effective priority. -/
def InvAt (s : State) (n : Nat) : Prop :=
  match s.cgroups n with
  | none => False
  | some g =>
    match g.parent with
    | none => atomic_read g.css.effective_priority = atomic_read g.css.priority
    | some p =>
      match s.cgroups p with
      | none => False
      | some gp =>
        atomic_read g.css.effective_priority =
          max (atomic_read g.css.priority) (atomic_read gp.css.effective_priority)

instance (s : State) (n : Nat) : Decidable (InvAt s n) := by
  unfold InvAt; split
  · infer_instance
  · split
    · infer_instance
    · split <;> infer_instance

/-- The invariant of the hierarchy `t`. -/
def Invariant (s : State) (t : Forest) : Prop := ∀ n ∈ t.ids, InvAt s n

instance (s : State) (t : Forest) : Decidable (Invariant s t) := by
  unfold Invariant; infer_instance

/-- Build a state from a list of cgroups, the cgroup at position `i` getting
the id `i`, with the flag cleared. -/
def State.ofList (l : List cgroup) : State := ⟨fun i => l[i]?, atomic_set 0⟩

/-- A cgroup with the given links, priority and effective priority. -/
def cgroup.make (parent first_child next_sibling : Option Nat) (priority effective : Nat) :
    cgroup :=
  ⟨parent, first_child, next_sibling, ⟨atomic_set priority, atomic_set effective⟩⟩

/-! ## Creation of groups -/

/-- Modelled from the spec: the error number of `AllocationFailure`, `ENOMEM`
of the kernel headers, which are not among the sources. -/
def ENOMEM : Int := 12

/-- The function `oom_create(ss, cont)`. The argument `kzalloc` tells whether
the allocation succeeds and `parent` is `cont->parent`; the result is the
error pointer or the new oom state, and the memory afterwards (only the flag
can have changed). -/
def oom_create (kzalloc : Bool) (s : State) (parent : Option Nat) :
    Option (Except Int oom_cgroup × State) :=
  if kzalloc = false then some (.error (-ENOMEM), s)
  else
    match parent with
    | none =>
      some (.ok ⟨atomic_set 1, atomic_set 1⟩, { s with honour_cpuset_constraint := atomic_set 0 })
    | some p =>
      match s.cgroups p with
      | none => none
      | some g =>
        let parent_priority := atomic_read g.css.priority
        let parent_effective_priority := atomic_read g.css.effective_priority
        some (.ok ⟨atomic_set parent_priority, atomic_set parent_effective_priority⟩, s)

/-- Modelled from the spec: the linking done by the external group manager
(the cgroup core is not among the sources) when a group `cont` with the oom
state `css` has been created under `p`, whose cgroup was `gp`: `cont` becomes
the first child of `p`. -/
def link_child (s : State) (cont p : Nat) (gp : cgroup) (css : oom_cgroup) : State :=
  { s with cgroups := fun i =>
      if i = cont then some ⟨some p, none, gp.first_child, css⟩
      else if i = p then some { gp with first_child := some cont }
      else s.cgroups i }

/-- Modelled from the spec: the lifecycle hook of the external group manager
that instantiates the group `cont` (fresh memory) under `parent`: it calls
`oom_create` and, when that succeeds, attaches the new group to the hierarchy.
The result is the error code (`0` on success) and the memory afterwards. -/
def cgroup_create (kzalloc : Bool) (s : State) (cont : Nat) (parent : Option Nat) :
    Option (Int × State) :=
  match s.cgroups cont with
  | some _ => none
  | none =>
    match oom_create kzalloc s parent with
    | none => none
    | some (.error e, s1) => some (e, s1)
    | some (.ok css, s1) =>
      match parent with
      | none =>
        some (0, { s1 with cgroups := fun i =>
          if i = cont then some ⟨none, none, none, css⟩ else s1.cgroups i })
      | some p =>
        match s1.cgroups p with
        | none => none
        | some gp => some (0, link_child s1 cont p gp css)

/-- The memory before any group exists. -/
def State.empty (flag : atomic_t) : State := ⟨fun _ => none, flag⟩

/-- The forest with the new leaf `c` as first child of `p`. -/
def Forest.insert (p c : Nat) : Forest → Forest
  | .nil => .nil
  | .cons id kids rest =>
    if id = p then .cons id (.cons c .nil kids) rest
    else .cons id (kids.insert p c) (rest.insert p c)

/-- The path from the root of its tree down to `n`, both included. -/
def Forest.path (n : Nat) : Forest → List Nat
  | .nil => []
  | .cons id kids rest =>
    if id = n then [id]
    else if n ∈ kids.ids then id :: kids.path n
    else rest.path n

/-- The maximum of the priorities along the path from the root to `n`. -/
def pathMax (s : State) (t : Forest) (n : Nat) : Nat :=
  ((t.path n).map (prio s)).foldr max 0

/-- The states reached from the creation of the root by creating groups and
by priority writes of values that fit a 32-bit `int`, with the shape of their
hierarchy. -/
inductive Reachable : State → Forest → Prop where
  | root (flag : atomic_t) (r : Nat) (s : State) :
      cgroup_create true (State.empty flag) r none = some (0, s) →
      Reachable s (.cons r .nil .nil)
  | create (s : State) (t : Forest) (p c : Nat) (s1 : State) :
      Reachable s t → p ∈ t.ids → cgroup_create true s c (some p) = some (0, s1) →
      Reachable s1 (t.insert p c)
  | create_failed (s : State) (t : Forest) (p c : Nat) (e : Int) (s1 : State) :
      Reachable s t → p ∈ t.ids → cgroup_create false s c (some p) = some (e, s1) →
      Reachable s1 t
  | write (s : State) (t : Forest) (n v fuel : Nat) (r : Int) (s1 : State) :
      Reachable s t → n ∈ t.ids → Fits v → 2 * t.size + 2 ≤ fuel →
      oom_priority_write fuel s n v = some (r, s1) →
      Reachable s1 t

/-! ## Example hierarchies -/

/-- A lone root `0` with priority and effective priority `1`, as
`oom_create` leaves it. -/
def ex_root : State := State.ofList [cgroup.make none none none 1 1]

/-- The shape of `ex_root`. -/
def ex_root_tree : Forest := .cons 0 .nil .nil

/-- The root `0` with one child `1`, both at priority `1`. -/
def ex_pair : State :=
  State.ofList [cgroup.make none (some 1) none 1 1, cgroup.make (some 0) none none 1 1]

/-- The shape of `ex_pair`. -/
def ex_pair_tree : Forest := .cons 0 (.cons 1 .nil .nil) .nil

/-- The chain root `0`, child `1`, grandchild `2`, all at priority `1`. -/
def ex_chain : State :=
  State.ofList [cgroup.make none (some 1) none 1 1, cgroup.make (some 0) (some 2) none 1 1,
    cgroup.make (some 1) none none 1 1]

/-- The shape of `ex_chain`. -/
def ex_chain_tree : Forest := .cons 0 (.cons 1 (.cons 2 .nil .nil) .nil) .nil

/-- A root whose stored priority is `-1` (read as `2^64 - 1`) with a child of
priority `0` that inherits the effective priority of the root. -/
def ex_high : State :=
  State.ofList [cgroup.make none (some 1) none 4294967295 4294967295,
    cgroup.make (some 0) none none 0 4294967295]

/-- The root `0` at priority `1` with a child `1` whose priority `10` is
above its effective priority `5`. -/
def ex_low : State :=
  State.ofList [cgroup.make none (some 1) none 1 1, cgroup.make (some 0) none none 10 5]

/-- A lone root whose stored priority and effective priority are `INT_MIN`,
read as `2^64 - 2^31`. -/
def ex_min : State := State.ofList [cgroup.make none none none 2147483648 2147483648]

/-- The root `0` at priority `10` with a child `1` at priority and effective
priority `5`. -/
def ex_skew : State :=
  State.ofList [cgroup.make none (some 1) none 10 10, cgroup.make (some 0) none none 5 5]

/-- The memory after the creation of the root `0`. -/
def ex_made_root : State :=
  ((cgroup_create true (State.empty (atomic_set 0)) 0 none).map Prod.snd).getD
    (State.empty (atomic_set 0))

/-- The memory after the creation of the child `1` under the root `0`. -/
def ex_made_pair : State :=
  ((cgroup_create true ex_made_root 1 (some 0)).map Prod.snd).getD ex_made_root

/-- The memory after writing the priority `5` to the child `1`. -/
def ex_made : State :=
  ((oom_priority_write 6 ex_made_pair 1 5).map Prod.snd).getD ex_made_pair

/-- The memory after writing the priority `2^32` to the root `0` of
`ex_made_pair`. -/
def ex_made_wrapped : State :=
  ((oom_priority_write 6 ex_made_pair 0 4294967296).map Prod.snd).getD ex_made_pair

/-- A root whose stored priority and effective priority are `INT_MIN` (read
as `2^64 - 2^31`) with a child of priority `0` that inherits the effective
priority of the root. -/
def ex_min_pair : State :=
  State.ofList [cgroup.make none (some 1) none 2147483648 2147483648,
    cgroup.make (some 0) none none 0 2147483648]

/-- The shape of a root `0` with the children `1` and `2`, in that order. -/
def ex_fan_tree : Forest := .cons 0 (.cons 1 .nil (.cons 2 .nil .nil)) .nil

/-- The shape of a root `0` with the children `2` and `1`, in that order. -/
def ex_fan_tree_swapped : Forest := .cons 0 (.cons 2 .nil (.cons 1 .nil .nil)) .nil

/-- A root `0` at priority `1` with the children `1` (priority `1`) and `2`
(stored priority `-2`, read as `2^64 - 2`); the invariant holds. -/
def ex_fan_high : State :=
  State.ofList [cgroup.make none (some 1) none 1 1, cgroup.make (some 0) none (some 2) 1 1,
    cgroup.make (some 0) none none 4294967294 4294967294]

/-- A root `0` at priority `1` with the children `1` and `2`, in that order,
both at priority `10`. -/
def ex_fan : State :=
  State.ofList [cgroup.make none (some 1) none 1 1, cgroup.make (some 0) none (some 2) 10 10,
    cgroup.make (some 0) none none 10 10]

/-- The cgroups of `ex_fan` with the child list of the root in the other
order: `2`, then `1`. -/
def ex_fan_swapped : State :=
  State.ofList [cgroup.make none (some 2) none 1 1, cgroup.make (some 0) none none 10 10,
    cgroup.make (some 0) none (some 1) 10 10]

/-- The chain root `0`, child `1`, grandchild `2`: the root at priority `1`,
the child at priority and effective priority `5`, the grandchild at priority
`1` with the effective priority `5` of its parent; the invariant holds. -/
def ex_mid : State :=
  State.ofList [cgroup.make none (some 1) none 1 1, cgroup.make (some 0) (some 2) none 5 5,
    cgroup.make (some 1) none none 1 5]

/-! ## Basic facts -/

theorem atomic_set_read (v : atomic_t) : atomic_set (atomic_read v) = v := by
  cases v with
  | mk c hc =>
    unfold atomic_set atomic_read
    simp only [atomic_t.mk.injEq]
    split <;> omega

theorem fits_atomic_read (v : atomic_t) : Fits (atomic_read v) := by
  unfold Fits; rw [atomic_set_read]

theorem fits_of_lt {val : Nat} (h : val < 2147483648) : Fits val := by
  unfold Fits atomic_set atomic_read
  simp only
  split <;> omega

theorem cgroups_set_effective_priority (s : State) (c val i : Nat) :
    (set_effective_priority s c val).cgroups i =
      if i = c then
        (s.cgroups i).map (fun g =>
          { g with css := { g.css with effective_priority := atomic_set val } })
      else s.cgroups i := rfl

theorem cgroups_set_priority (s : State) (c val i : Nat) :
    (set_priority s c val).cgroups i =
      if i = c then
        (s.cgroups i).map (fun g => { g with css := { g.css with priority := atomic_set val } })
      else s.cgroups i := rfl

theorem flag_set_effective_priority (s : State) (c val : Nat) :
    (set_effective_priority s c val).honour_cpuset_constraint = s.honour_cpuset_constraint := rfl

theorem flag_set_priority (s : State) (c val : Nat) :
    (set_priority s c val).honour_cpuset_constraint = s.honour_cpuset_constraint := rfl

theorem links_set_effective_priority (s : State) (c val : Nat) :
    (set_effective_priority s c val).links = s.links := by
  funext i
  unfold State.links
  rw [cgroups_set_effective_priority]
  by_cases h : i = c
  · rw [if_pos h]; cases s.cgroups i <;> rfl
  · rw [if_neg h]

theorem links_set_priority (s : State) (c val : Nat) :
    (set_priority s c val).links = s.links := by
  funext i
  unfold State.links
  rw [cgroups_set_priority]
  by_cases h : i = c
  · rw [if_pos h]; cases s.cgroups i <;> rfl
  · rw [if_neg h]

theorem links_some {s : State} {i : Nat} {p fc ns : Option Nat}
    (h : s.links i = some (p, fc, ns)) :
    ∃ g, s.cgroups i = some g ∧ g.parent = p ∧ g.first_child = fc ∧ g.next_sibling = ns := by
  unfold State.links at h
  cases hg : s.cgroups i with
  | none => rw [hg] at h; exact absurd h (by simp)
  | some g =>
    rw [hg] at h
    simp only [Option.map_some', Option.some.injEq, Prod.mk.injEq] at h
    exact ⟨g, rfl, h.1, h.2.1, h.2.2⟩

theorem shape_congr {s s1 : State} (h : s1.links = s.links) (p : Option Nat) (f : Forest) :
    Shape s1 p f ↔ Shape s p f := by
  induction f generalizing p with
  | nil => simp [Shape]
  | cons id kids rest ihk ihr => simp only [Shape, h, ihk, ihr]

/-- Reading a priority field through the `u64` view. -/
theorem prio_eq {s : State} {n : Nat} {g : cgroup} (h : s.cgroups n = some g) :
    prio s n = atomic_read g.css.priority := by
  simp [prio, oom_priority_read, oom_css_from_cgroup, h]

theorem eff_eq {s : State} {n : Nat} {g : cgroup} (h : s.cgroups n = some g) :
    eff s n = atomic_read g.css.effective_priority := by
  simp [eff, oom_effective_priority_read, oom_css_from_cgroup, h]

theorem eff_read_eq {s : State} {n : Nat} {g : cgroup} (h : s.cgroups n = some g) :
    oom_effective_priority_read s n = some (eff s n) := by
  simp [eff, oom_effective_priority_read, oom_css_from_cgroup, h]

theorem prio_read_eq {s : State} {n : Nat} {g : cgroup} (h : s.cgroups n = some g) :
    oom_priority_read s n = some (prio s n) := by
  simp [prio, oom_priority_read, oom_css_from_cgroup, h]

theorem prio_set_effective_priority (s : State) (c val n : Nat) :
    prio (set_effective_priority s c val) n = prio s n := by
  unfold prio oom_priority_read oom_css_from_cgroup
  rw [cgroups_set_effective_priority]
  by_cases h : n = c
  · rw [if_pos h]; cases s.cgroups n <;> rfl
  · rw [if_neg h]

theorem eff_set_effective_priority_ne (s : State) {c n : Nat} (val : Nat) (h : n ≠ c) :
    eff (set_effective_priority s c val) n = eff s n := by
  unfold eff oom_effective_priority_read oom_css_from_cgroup
  rw [cgroups_set_effective_priority, if_neg h]

theorem eff_set_effective_priority_self {s : State} {c : Nat} (val : Nat)
    (h : s.links c ≠ none) :
    eff (set_effective_priority s c val) c = atomic_read (atomic_set val) := by
  unfold eff oom_effective_priority_read oom_css_from_cgroup
  rw [cgroups_set_effective_priority, if_pos rfl]
  unfold State.links at h
  cases hg : s.cgroups c with
  | none => rw [hg] at h; exact absurd rfl h
  | some g => rfl

theorem eff_set_priority (s : State) (c val n : Nat) :
    eff (set_priority s c val) n = eff s n := by
  unfold eff oom_effective_priority_read oom_css_from_cgroup
  rw [cgroups_set_priority]
  by_cases h : n = c
  · rw [if_pos h]; cases s.cgroups n <;> rfl
  · rw [if_neg h]

theorem prio_set_priority_ne (s : State) {c n : Nat} (val : Nat) (h : n ≠ c) :
    prio (set_priority s c val) n = prio s n := by
  unfold prio oom_priority_read oom_css_from_cgroup
  rw [cgroups_set_priority, if_neg h]

theorem prio_set_priority_self {s : State} {c : Nat} (val : Nat) (h : s.links c ≠ none) :
    prio (set_priority s c val) c = atomic_read (atomic_set val) := by
  unfold prio oom_priority_read oom_css_from_cgroup
  rw [cgroups_set_priority, if_pos rfl]
  unfold State.links at h
  cases hg : s.cgroups c with
  | none => rw [hg] at h; exact absurd rfl h
  | some g => rfl

/-! ## The loops walk the forest -/


theorem decrease_loop_succ (cgrp val fuel : Nat) (w : DecWalk) (h : w.pc ≠ .out) :
    decrease_loop cgrp val (fuel + 1) w =
      (decrease_step cgrp val w).bind (decrease_loop cgrp val fuel) := by
  simp [decrease_loop, h]

theorem decrease_step_visit (cgrp val : Nat) {s : State} {c : Nat} (fl : Nat)
    {p fc ns : Option Nat} (h : s.links c = some (p, fc, ns)) :
    decrease_step cgrp val ⟨s, some c, fl, .visit_children⟩ =
      some ⟨set_effective_priority s c (decrease_floor s c fl),
        some (fc.getD c), decrease_floor s c fl,
        if fc = none then .visit_siblings else .visit_children⟩ := by
  obtain ⟨g, hg, -, hfc, -⟩ := links_some h
  have hst : (if atomic_read g.css.priority > fl then
        set_effective_priority s c (atomic_read g.css.priority)
      else set_effective_priority s c fl) =
      set_effective_priority s c (decrease_floor s c fl) := by
    unfold decrease_floor; rw [prio_eq hg]; split <;> rfl
  subst hfc
  simp only [decrease_step, hg, hst]
  cases hk : g.first_child with
  | none => simp [decrease_floor, prio_eq hg]
  | some k => simp [decrease_floor, prio_eq hg]

theorem decrease_step_sibling {cgrp : Nat} (val : Nat) {s : State} {c p : Nat} (fl : Nat)
    {fc ns : Option Nat} (hne : cgrp ≠ c) (h : s.links c = some (some p, fc, ns))
    (hp : s.links p ≠ none) :
    decrease_step cgrp val ⟨s, some c, fl, .visit_siblings⟩ =
      some ⟨s, some (ns.getD p), eff s p,
        if ns = none then .visit_siblings else .visit_children⟩ := by
  obtain ⟨g, hg, hpar, -, hns⟩ := links_some h
  have hgp : ∃ gp, s.cgroups p = some gp := by
    unfold State.links at hp
    cases hq : s.cgroups p with
    | none => rw [hq] at hp; exact absurd rfl hp
    | some gp => exact ⟨gp, rfl⟩
  obtain ⟨gp, hgp⟩ := hgp
  simp only [decrease_step, hne, if_false, hg, hpar, eff_read_eq hgp]
  subst hns
  cases hk : g.next_sibling with
  | none => simp
  | some k => simp

theorem links_decrease_forest (f : Forest) :
    ∀ (s : State) (p fl : Nat), (decrease_forest s p fl f).links = s.links := by
  induction f with
  | nil => intro s p fl; rfl
  | cons id kids rest ihk ihr =>
    intro s p fl
    simp only [decrease_forest]
    rw [ihr, ihk, links_set_effective_priority]

/-- The loop of `decrease_effective_priority`, started at the first tree of a
forest below `p`, walks the whole forest and comes back to `p`. -/
theorem decrease_loop_forest (cgrp val : Nat) (f : Forest) :
    ∀ (s : State) (p fl fuel c : Nat), f.head = some c → Shape s (some p) f →
      cgrp ∉ f.ids → s.links p ≠ none →
      decrease_loop cgrp val (fuel + 2 * f.size) ⟨s, some c, fl, .visit_children⟩ =
        decrease_loop cgrp val fuel
          ⟨decrease_forest s p fl f, some p, eff (decrease_forest s p fl f) p,
            .visit_siblings⟩ := by
  induction f with
  | nil => intro s p fl fuel c h; simp [Forest.head] at h
  | cons id kids rest ihk ihr =>
    intro s p fl fuel c hc hs hn hp
    simp only [Forest.head, Option.some.injEq] at hc
    subst hc
    obtain ⟨hl, hsk, hsr⟩ := hs
    simp only [Forest.ids, List.mem_cons, List.mem_append, not_or] at hn
    obtain ⟨hne, hnk, hnr⟩ := hn
    have hl1 : (set_effective_priority s id (decrease_floor s id fl)).links = s.links :=
      links_set_effective_priority _ _ _
    have hl2 : (decrease_forest (set_effective_priority s id (decrease_floor s id fl)) id
        (decrease_floor s id fl) kids).links = s.links := by
      rw [links_decrease_forest, hl1]
    have vs : ∀ fl1 : Nat,
        decrease_loop cgrp val (fuel + 2 * rest.size + 1)
          ⟨decrease_forest (set_effective_priority s id (decrease_floor s id fl)) id
            (decrease_floor s id fl) kids, some id, fl1, .visit_siblings⟩ =
        decrease_loop cgrp val fuel
          ⟨decrease_forest s p fl (.cons id kids rest), some p,
            eff (decrease_forest s p fl (.cons id kids rest)) p, .visit_siblings⟩ := by
      intro fl1
      rw [decrease_loop_succ _ _ _ _ (by simp),
        decrease_step_sibling val fl1 hne (by rw [hl2]; exact hl) (by rw [hl2]; exact hp),
        Option.some_bind]
      cases rest with
      | nil => simp [Forest.head, Forest.size, decrease_forest]
      | cons r rk rr =>
        simp only [Forest.head, Option.getD_some, reduceCtorEq, if_false]
        exact ihr _ p _ fuel r rfl ((shape_congr hl2 _ _).2 hsr) hnr (by rw [hl2]; exact hp)
    have e1 : fuel + 2 * (Forest.cons id kids rest).size =
        (fuel + 2 * rest.size + 1 + 2 * kids.size) + 1 := by
      simp only [Forest.size]; omega
    rw [e1, decrease_loop_succ _ _ _ _ (by simp), decrease_step_visit cgrp val fl hl,
      Option.some_bind]
    cases kids with
    | nil =>
      simp only [Forest.head, Option.getD_none, if_true, Forest.size, Nat.mul_zero, Nat.add_zero]
      exact vs _
    | cons k kk kr =>
      simp only [Forest.head, Option.getD_some, reduceCtorEq, if_false]
      rw [ihk _ id _ _ k rfl ((shape_congr hl1 _ _).2 hsk) hnk (by rw [hl1]; exact hl ▸ (by simp))]
      exact vs _



theorem decrease_effective_priority_eq {s : State} {cgrp : Nat} (val : Nat) {kids : Forest}
    {p ns : Option Nat} (hl : s.links cgrp = some (p, kids.head, ns))
    (hk : Shape s (some cgrp) kids) (hn : cgrp ∉ kids.ids) {fuel : Nat}
    (hf : 2 * kids.size + 2 ≤ fuel) :
    decrease_effective_priority fuel s cgrp val =
      some (decrease_forest (set_effective_priority s cgrp val) cgrp val kids) := by
  obtain ⟨g, hg, -, hfc, -⟩ := links_some hl
  have hl1 : (set_effective_priority s cgrp val).links = s.links :=
    links_set_effective_priority _ _ _
  unfold decrease_effective_priority
  simp only [hg, hfc]
  cases kids with
  | nil => simp [Forest.head, decrease_forest]
  | cons k kk kr =>
    simp only [Forest.head]
    obtain ⟨n, rfl⟩ : ∃ n, fuel = (n + 2) + 2 * (Forest.cons k kk kr).size :=
      ⟨fuel - (2 * (Forest.cons k kk kr).size + 2), by omega⟩
    rw [decrease_loop_forest cgrp val (.cons k kk kr) _ cgrp val (n + 2) k rfl ((shape_congr hl1 _ _).2 hk) hn
      (by rw [hl1, hl]; simp)]
    simp [decrease_loop, decrease_step]

theorem increase_loop_succ (cgrp val fuel : Nat) (w : IncWalk) (h : w.pc ≠ .out) :
    increase_loop cgrp val (fuel + 1) w =
      (increase_step cgrp val w).bind (increase_loop cgrp val fuel) := by
  simp [increase_loop, h]

theorem increase_step_visit (cgrp val : Nat) {s : State} {c : Nat}
    {p fc ns : Option Nat} (h : s.links c = some (p, fc, ns)) :
    increase_step cgrp val ⟨s, some c, .visit_children⟩ =
      some ⟨increase_visit val s c, some (fc.getD c),
        if fc = none then .visit_siblings else .visit_children⟩ := by
  obtain ⟨g, hg, -, hfc, -⟩ := links_some h
  subst hfc
  simp only [increase_step, hg, increase_visit, eff_eq hg]
  cases hk : g.first_child with
  | none => simp
  | some k => simp

theorem increase_step_sibling {cgrp : Nat} (val : Nat) {s : State} {c p : Nat}
    {fc ns : Option Nat} (hne : cgrp ≠ c) (h : s.links c = some (some p, fc, ns)) :
    increase_step cgrp val ⟨s, some c, .visit_siblings⟩ =
      some ⟨s, some (ns.getD p), if ns = none then .visit_siblings else .visit_children⟩ := by
  obtain ⟨g, hg, hpar, -, hns⟩ := links_some h
  subst hns
  simp only [increase_step, hne, if_false, hg, hpar]
  cases hk : g.next_sibling with
  | none => simp
  | some k => simp

theorem links_increase_visit (val : Nat) (s : State) (c : Nat) :
    (increase_visit val s c).links = s.links := by
  unfold increase_visit
  split
  · exact links_set_effective_priority _ _ _
  · rfl

theorem links_increase_forest (val : Nat) (f : Forest) :
    ∀ s : State, (increase_forest val s f).links = s.links := by
  induction f with
  | nil => intro s; rfl
  | cons id kids rest ihk ihr =>
    intro s
    simp only [increase_forest]
    rw [ihr, ihk, links_increase_visit]

/-- The loop of `increase_effective_priority`, started at the first tree of a
forest below `p`, walks the whole forest and comes back to `p`. -/
theorem increase_loop_forest (cgrp val : Nat) (f : Forest) :
    ∀ (s : State) (p fuel c : Nat), f.head = some c → Shape s (some p) f →
      cgrp ∉ f.ids →
      increase_loop cgrp val (fuel + 2 * f.size) ⟨s, some c, .visit_children⟩ =
        increase_loop cgrp val fuel ⟨increase_forest val s f, some p, .visit_siblings⟩ := by
  induction f with
  | nil => intro s p fuel c h; simp [Forest.head] at h
  | cons id kids rest ihk ihr =>
    intro s p fuel c hc hs hn
    simp only [Forest.head, Option.some.injEq] at hc
    subst hc
    obtain ⟨hl, hsk, hsr⟩ := hs
    simp only [Forest.ids, List.mem_cons, List.mem_append, not_or] at hn
    obtain ⟨hne, hnk, hnr⟩ := hn
    have hl1 : (increase_visit val s id).links = s.links := links_increase_visit _ _ _
    have hl2 : (increase_forest val (increase_visit val s id) kids).links = s.links := by
      rw [links_increase_forest, hl1]
    have vs : increase_loop cgrp val (fuel + 2 * rest.size + 1)
          ⟨increase_forest val (increase_visit val s id) kids, some id, .visit_siblings⟩ =
        increase_loop cgrp val fuel
          ⟨increase_forest val s (.cons id kids rest), some p, .visit_siblings⟩ := by
      rw [increase_loop_succ _ _ _ _ (by simp),
        increase_step_sibling val hne (by rw [hl2]; exact hl), Option.some_bind]
      cases rest with
      | nil => simp [Forest.head, Forest.size, increase_forest]
      | cons r rk rr =>
        simp only [Forest.head, Option.getD_some, reduceCtorEq, if_false]
        exact ihr _ p fuel r rfl ((shape_congr hl2 _ _).2 hsr) hnr
    have e1 : fuel + 2 * (Forest.cons id kids rest).size =
        (fuel + 2 * rest.size + 1 + 2 * kids.size) + 1 := by
      simp only [Forest.size]; omega
    rw [e1, increase_loop_succ _ _ _ _ (by simp), increase_step_visit cgrp val hl,
      Option.some_bind]
    cases kids with
    | nil =>
      simp only [Forest.head, Option.getD_none, if_true, Forest.size, Nat.mul_zero, Nat.add_zero]
      exact vs
    | cons k kk kr =>
      simp only [Forest.head, Option.getD_some, reduceCtorEq, if_false]
      rw [ihk _ id _ k rfl ((shape_congr hl1 _ _).2 hsk) hnk]
      exact vs

theorem increase_effective_priority_eq {s : State} {cgrp : Nat} (val : Nat) {kids : Forest}
    {p ns : Option Nat} (hl : s.links cgrp = some (p, kids.head, ns))
    (hk : Shape s (some cgrp) kids) (hn : cgrp ∉ kids.ids) {fuel : Nat}
    (hf : 2 * kids.size + 2 ≤ fuel) :
    increase_effective_priority fuel s cgrp val =
      some (increase_forest val (set_effective_priority s cgrp val) kids) := by
  obtain ⟨g, hg, -, hfc, -⟩ := links_some hl
  have hl1 : (set_effective_priority s cgrp val).links = s.links :=
    links_set_effective_priority _ _ _
  unfold increase_effective_priority
  simp only [hg, hfc]
  cases kids with
  | nil => simp [Forest.head, increase_forest]
  | cons k kk kr =>
    simp only [Forest.head]
    obtain ⟨n, rfl⟩ : ∃ n, fuel = (n + 2) + 2 * (Forest.cons k kk kr).size :=
      ⟨fuel - (2 * (Forest.cons k kk kr).size + 2), by omega⟩
    rw [increase_loop_forest cgrp val (.cons k kk kr) _ cgrp (n + 2) k rfl ((shape_congr hl1 _ _).2 hk) hn]
    simp [increase_loop, increase_step]



/-! ## Facts about forests -/

theorem nodup_cons_forest {id : Nat} {kids rest : Forest}
    (h : (Forest.cons id kids rest).ids.Nodup) :
    id ∉ kids.ids ∧ id ∉ rest.ids ∧ kids.ids.Nodup ∧ rest.ids.Nodup ∧
      ∀ n, n ∈ kids.ids → n ∉ rest.ids := by
  simp only [Forest.ids, List.nodup_cons, List.mem_append, not_or, List.nodup_append] at h
  obtain ⟨⟨h1, h2⟩, h3, h4, h5⟩ := h
  exact ⟨h1, h2, h3, h4, fun n hn hr => h5 hn hr⟩

theorem kidsOf_size_lt (n : Nat) (f : Forest) : (f.kidsOf n).size + 1 ≤ f.size + 1 := by
  induction f with
  | nil => simp [Forest.kidsOf]
  | cons id kids rest ihk ihr =>
    simp only [Forest.kidsOf, Forest.size]
    split
    · omega
    · split <;> omega

theorem kidsOf_ids_subset {n : Nat} (f : Forest) :
    ∀ m, m ∈ (f.kidsOf n).ids → m ∈ f.ids := by
  induction f with
  | nil => intro m h; simp [Forest.kidsOf, Forest.ids] at h
  | cons id kids rest ihk ihr =>
    intro m h
    simp only [Forest.kidsOf] at h
    simp only [Forest.ids, List.mem_cons, List.mem_append]
    split at h
    · exact Or.inr (Or.inl h)
    · split at h
      · exact Or.inr (Or.inl (ihk m h))
      · exact Or.inr (Or.inr (ihr m h))

theorem kidsOf_nodup {n : Nat} (f : Forest) (h : f.ids.Nodup) : (f.kidsOf n).ids.Nodup := by
  induction f with
  | nil => simp [Forest.kidsOf, Forest.ids]
  | cons id kids rest ihk ihr =>
    obtain ⟨-, -, hk, hr, -⟩ := nodup_cons_forest h
    simp only [Forest.kidsOf]
    split
    · exact hk
    · split
      · exact ihk hk
      · exact ihr hr

/-- No cgroup is its own strict descendant. -/
theorem not_mem_kidsOf_self {n : Nat} (f : Forest) (h : f.ids.Nodup) :
    n ∉ (f.kidsOf n).ids := by
  induction f with
  | nil => simp [Forest.kidsOf, Forest.ids]
  | cons id kids rest ihk ihr =>
    obtain ⟨h1, -, hk, hr, -⟩ := nodup_cons_forest h
    simp only [Forest.kidsOf]
    split
    · next e => subst e; exact h1
    · split
      · exact ihk hk
      · exact ihr hr

/-- The links of a cgroup of the hierarchy, and the shape below it. -/
theorem shape_at {s : State} (f : Forest) :
    ∀ (top : Option Nat) (n : Nat), Shape s top f → n ∈ f.ids →
      (∃ ns, s.links n = some (f.parentOf n top, (f.kidsOf n).head, ns)) ∧
        Shape s (some n) (f.kidsOf n) := by
  induction f with
  | nil => intro top n _ h; simp [Forest.ids] at h
  | cons id kids rest ihk ihr =>
    intro top n hs hn
    obtain ⟨hl, hsk, hsr⟩ := hs
    simp only [Forest.kidsOf, Forest.parentOf]
    by_cases e : id = n
    · subst e
      simp only [if_true]
      exact ⟨⟨_, hl⟩, hsk⟩
    · simp only [if_neg e]
      by_cases hk : n ∈ kids.ids
      · simp only [if_pos hk]
        exact ihk _ n hsk hk
      · simp only [if_neg hk]
        simp only [Forest.ids, List.mem_cons, List.mem_append] at hn
        rcases hn with hn | hn | hn
        · exact absurd hn.symm e
        · exact absurd hn hk
        · exact ihr _ n hsr hn

/-- The parent of a node of a forest is the parent of the roots or a node of
the forest. -/
theorem parentOf_mem (f : Forest) :
    ∀ (top : Option Nat) (n q : Nat), f.parentOf n top = some q → top = some q ∨ q ∈ f.ids := by
  induction f with
  | nil => intro top n q h; simp [Forest.parentOf] at h
  | cons id kids rest ihk ihr =>
    intro top n q h
    simp only [Forest.parentOf] at h
    simp only [Forest.ids, List.mem_cons, List.mem_append]
    split at h
    · exact Or.inl h
    · split at h
      · rcases ihk _ n q h with h1 | h1
        · simp only [Option.some.injEq] at h1
          exact Or.inr (Or.inl h1.symm)
        · exact Or.inr (Or.inr (Or.inl h1))
      · rcases ihr _ n q h with h1 | h1
        · exact Or.inl h1
        · exact Or.inr (Or.inr (Or.inr h1))

/-- Every node of a forest has a parent when the roots have one. -/
theorem parentOf_isSome (f : Forest) :
    ∀ (top n : Nat), n ∈ f.ids → ∃ q, f.parentOf n (some top) = some q := by
  induction f with
  | nil => intro top n h; simp [Forest.ids] at h
  | cons id kids rest ihk ihr =>
    intro top n hn
    simp only [Forest.parentOf]
    by_cases e : id = n
    · exact ⟨top, by simp [e]⟩
    · simp only [if_neg e]
      by_cases hk : n ∈ kids.ids
      · simp only [if_pos hk]; exact ihk _ n hk
      · simp only [if_neg hk]
        simp only [Forest.ids, List.mem_cons, List.mem_append] at hn
        rcases hn with hn | hn | hn
        · exact absurd hn.symm e
        · exact absurd hn hk
        · exact ihr _ n hn

/-- Below a node `m`, children and parents are those of the whole forest. -/
theorem kidsOf_kidsOf (f : Forest) :
    ∀ (top : Option Nat) (m n : Nat), f.ids.Nodup → m ∈ f.ids → n ∈ (f.kidsOf m).ids →
      f.kidsOf n = (f.kidsOf m).kidsOf n ∧
        f.parentOf n top = (f.kidsOf m).parentOf n (some m) := by
  induction f with
  | nil => intro top m n _ h; simp [Forest.ids] at h
  | cons id kids rest ihk ihr =>
    intro top m n hnd hm hn
    obtain ⟨h1, h2, hk, hr, hd⟩ := nodup_cons_forest hnd
    simp only [Forest.kidsOf] at hn
    by_cases e : id = m
    · subst e
      simp only [if_true] at hn
      have hne : id ≠ n := fun e => h1 (e ▸ hn)
      simp only [Forest.kidsOf, Forest.parentOf, if_true, if_neg hne, if_pos hn]
      exact ⟨trivial, trivial⟩
    · simp only [if_neg e] at hn
      by_cases hmk : m ∈ kids.ids
      · simp only [if_pos hmk] at hn
        have hnk : n ∈ kids.ids := kidsOf_ids_subset kids n hn
        have hne : id ≠ n := fun e => h1 (e ▸ hnk)
        simp only [Forest.kidsOf, Forest.parentOf, if_neg e, if_pos hmk, if_neg hne, if_pos hnk]
        exact ihk _ m n hk hmk hn
      · simp only [if_neg hmk] at hn
        have hnr : n ∈ rest.ids := kidsOf_ids_subset rest n hn
        have hne : id ≠ n := fun e => h2 (e ▸ hnr)
        have hnk : n ∉ kids.ids := fun h => hd n h hnr
        have hmr : m ∈ rest.ids := by
          simp only [Forest.ids, List.mem_cons, List.mem_append] at hm
          rcases hm with hm | hm | hm
          · exact absurd hm.symm e
          · exact absurd hm hmk
          · exact hm
        simp only [Forest.kidsOf, Forest.parentOf, if_neg e, if_neg hmk, if_neg hne, if_neg hnk]
        exact ihr _ m n hr hmr hn

theorem kidsOf_of_not_mem {n : Nat} (f : Forest) (h : n ∉ f.ids) : f.kidsOf n = .nil := by
  induction f with
  | nil => rfl
  | cons id kids rest ihk ihr =>
    simp only [Forest.ids, List.mem_cons, List.mem_append, not_or] at h
    obtain ⟨h1, h2, h3⟩ := h
    have e : ¬ id = n := fun e => h1 e.symm
    simp only [Forest.kidsOf, if_neg e, if_neg h2]
    exact ihr h3

theorem mem_of_mem_kidsOf {m n : Nat} (f : Forest) (h : n ∈ (f.kidsOf m).ids) : m ∈ f.ids := by
  by_contra hm
  rw [kidsOf_of_not_mem f hm] at h
  simp [Forest.ids] at h

/-- A node is a strict descendant of its parent. -/
theorem mem_kidsOf_parentOf (f : Forest) :
    ∀ (top : Option Nat) (n q : Nat), f.ids.Nodup → n ∈ f.ids → f.parentOf n top = some q →
      top = some q ∨ n ∈ (f.kidsOf q).ids := by
  induction f with
  | nil => intro top n q _ h; simp [Forest.ids] at h
  | cons id kids rest ihk ihr =>
    intro top n q hnd hn hq
    obtain ⟨h1, h2, hk, hr, hd⟩ := nodup_cons_forest hnd
    simp only [Forest.parentOf] at hq
    by_cases e : id = n
    · simp only [if_pos e] at hq
      exact Or.inl hq
    · simp only [if_neg e] at hq
      by_cases hnk : n ∈ kids.ids
      · simp only [if_pos hnk] at hq
        by_cases eq : id = q
        · right; simp only [Forest.kidsOf, if_pos eq]; exact hnk
        · rcases ihk _ n q hk hnk hq with h | h
          · simp only [Option.some.injEq] at h; exact absurd h eq
          · right
            have hqk : q ∈ kids.ids := mem_of_mem_kidsOf kids h
            simp only [Forest.kidsOf, if_neg eq, if_pos hqk]
            exact h
      · simp only [if_neg hnk] at hq
        simp only [Forest.ids, List.mem_cons, List.mem_append] at hn
        have hnr : n ∈ rest.ids := by
          rcases hn with hn | hn | hn
          · exact absurd hn.symm e
          · exact absurd hn hnk
          · exact hn
        rcases ihr _ n q hr hnr hq with h | h
        · exact Or.inl h
        · right
          have hqr : q ∈ rest.ids := mem_of_mem_kidsOf rest h
          have eq : ¬ id = q := fun e => h2 (e ▸ hqr)
          have hqk : q ∉ kids.ids := fun hh => hd q hh hqr
          simp only [Forest.kidsOf, if_neg eq, if_neg hqk]
          exact h

/-- Descendants of a descendant are descendants. -/
theorem kidsOf_ids_trans {f : Forest} {m n a : Nat} (hnd : f.ids.Nodup)
    (hn : n ∈ (f.kidsOf m).ids) (ha : a ∈ (f.kidsOf n).ids) : a ∈ (f.kidsOf m).ids := by
  have hm : m ∈ f.ids := mem_of_mem_kidsOf f hn
  rw [(kidsOf_kidsOf f none m n hnd hm hn).1] at ha
  exact kidsOf_ids_subset _ a ha

/-- An ancestor of a node is neither the node nor one of its descendants. -/
theorem ancestor_not_below {f : Forest} {a n : Nat} (hnd : f.ids.Nodup)
    (h : n ∈ (f.kidsOf a).ids) : a ≠ n ∧ a ∉ (f.kidsOf n).ids := by
  constructor
  · intro e; subst e; exact not_mem_kidsOf_self f hnd h
  · intro ha
    exact not_mem_kidsOf_self f hnd (kidsOf_ids_trans hnd ha h)



/-! ## What the recursive walks compute -/

theorem priority_read_set_effective_priority (s : State) (c val n : Nat) :
    oom_priority_read (set_effective_priority s c val) n = oom_priority_read s n := by
  unfold oom_priority_read oom_css_from_cgroup
  rw [cgroups_set_effective_priority]
  by_cases h : n = c
  · rw [if_pos h]; cases s.cgroups n <;> rfl
  · rw [if_neg h]

theorem cgroups_increase_visit_ne (val : Nat) (s : State) {c m : Nat} (h : m ≠ c) :
    (increase_visit val s c).cgroups m = s.cgroups m := by
  unfold increase_visit
  split
  · rw [cgroups_set_effective_priority, if_neg h]
  · rfl

theorem priority_read_increase_visit (val : Nat) (s : State) (c n : Nat) :
    oom_priority_read (increase_visit val s c) n = oom_priority_read s n := by
  unfold increase_visit
  split
  · exact priority_read_set_effective_priority _ _ _ _
  · rfl

theorem flag_increase_visit (val : Nat) (s : State) (c : Nat) :
    (increase_visit val s c).honour_cpuset_constraint = s.honour_cpuset_constraint := by
  unfold increase_visit
  split <;> rfl

/-- Increase propagation over a forest touches no cgroup outside it. -/
theorem cgroups_increase_forest (val : Nat) (f : Forest) :
    ∀ (s : State) (m : Nat), m ∉ f.ids → (increase_forest val s f).cgroups m = s.cgroups m := by
  induction f with
  | nil => intro s m _; rfl
  | cons id kids rest ihk ihr =>
    intro s m hm
    simp only [Forest.ids, List.mem_cons, List.mem_append, not_or] at hm
    simp only [increase_forest]
    rw [ihr _ m hm.2.2, ihk _ m hm.2.1, cgroups_increase_visit_ne val s hm.1]

theorem priority_read_increase_forest (val : Nat) (f : Forest) :
    ∀ (s : State) (n : Nat),
      oom_priority_read (increase_forest val s f) n = oom_priority_read s n := by
  induction f with
  | nil => intro s n; rfl
  | cons id kids rest ihk ihr =>
    intro s n
    simp only [increase_forest]
    rw [ihr, ihk, priority_read_increase_visit]

theorem flag_increase_forest (val : Nat) (f : Forest) :
    ∀ s : State, (increase_forest val s f).honour_cpuset_constraint =
      s.honour_cpuset_constraint := by
  induction f with
  | nil => intro s; rfl
  | cons id kids rest ihk ihr =>
    intro s
    simp only [increase_forest]
    rw [ihr, ihk, flag_increase_visit]

theorem eff_congr {s s1 : State} {n : Nat} (h : s1.cgroups n = s.cgroups n) :
    eff s1 n = eff s n := by
  unfold eff oom_effective_priority_read oom_css_from_cgroup; rw [h]

theorem eff_increase_visit_self (val : Nat) {s : State} {c : Nat} (h : s.links c ≠ none) :
    eff (increase_visit val s c) c =
      if eff s c < val then atomic_read (atomic_set val) else eff s c := by
  unfold increase_visit
  split
  · exact eff_set_effective_priority_self val h
  · rfl

theorem links_ne_none {s : State} {n : Nat} {x : Option Nat × Option Nat × Option Nat}
    (h : s.links n = some x) : s.links n ≠ none := by
  rw [h]; simp

/-- Increase propagation raises every cgroup of the forest that is below `val`
to the stored `val` and leaves the others. -/
theorem eff_increase_forest (val : Nat) (f : Forest) :
    ∀ (s : State) (top : Option Nat), Shape s top f → f.ids.Nodup → ∀ n ∈ f.ids,
      eff (increase_forest val s f) n =
        if eff s n < val then atomic_read (atomic_set val) else eff s n := by
  induction f with
  | nil => intro s top _ _ n h; simp [Forest.ids] at h
  | cons id kids rest ihk ihr =>
    intro s top hs hnd n hn
    obtain ⟨hl, hsk, hsr⟩ := hs
    obtain ⟨h1, h2, hk, hr, hd⟩ := nodup_cons_forest hnd
    have hl1 : (increase_visit val s id).links = s.links := links_increase_visit _ _ _
    have hl2 : (increase_forest val (increase_visit val s id) kids).links = s.links := by
      rw [links_increase_forest, hl1]
    simp only [increase_forest]
    simp only [Forest.ids, List.mem_cons, List.mem_append] at hn
    rcases hn with hn | hn | hn
    · subst hn
      rw [eff_congr (cgroups_increase_forest val rest _ n h2),
        eff_congr (cgroups_increase_forest val kids _ n h1)]
      exact eff_increase_visit_self val (links_ne_none hl)
    · have hne : n ≠ id := fun e => h1 (e ▸ hn)
      rw [eff_congr (cgroups_increase_forest val rest _ n (hd n hn)),
        ihk _ _ ((shape_congr hl1 _ _).2 hsk) hk n hn,
        eff_congr (cgroups_increase_visit_ne val s hne)]
    · have hne : n ≠ id := fun e => h2 (e ▸ hn)
      have hnk : n ∉ kids.ids := fun h => hd n h hn
      rw [ihr _ _ ((shape_congr hl2 _ _).2 hsr) hr n hn,
        eff_congr (cgroups_increase_forest val kids _ n hnk),
        eff_congr (cgroups_increase_visit_ne val s hne)]

/-- Decrease propagation over a forest touches no cgroup outside it. -/
theorem cgroups_decrease_forest (f : Forest) :
    ∀ (s : State) (p fl m : Nat), m ∉ f.ids →
      (decrease_forest s p fl f).cgroups m = s.cgroups m := by
  induction f with
  | nil => intro s p fl m _; rfl
  | cons id kids rest ihk ihr =>
    intro s p fl m hm
    simp only [Forest.ids, List.mem_cons, List.mem_append, not_or] at hm
    simp only [decrease_forest]
    rw [ihr _ _ _ m hm.2.2, ihk _ _ _ m hm.2.1, cgroups_set_effective_priority, if_neg hm.1]

theorem priority_read_decrease_forest (f : Forest) :
    ∀ (s : State) (p fl n : Nat),
      oom_priority_read (decrease_forest s p fl f) n = oom_priority_read s n := by
  induction f with
  | nil => intro s p fl n; rfl
  | cons id kids rest ihk ihr =>
    intro s p fl n
    simp only [decrease_forest]
    rw [ihr, ihk, priority_read_set_effective_priority]

theorem flag_decrease_forest (f : Forest) :
    ∀ (s : State) (p fl : Nat), (decrease_forest s p fl f).honour_cpuset_constraint =
      s.honour_cpuset_constraint := by
  induction f with
  | nil => intro s p fl; rfl
  | cons id kids rest ihk ihr =>
    intro s p fl
    simp only [decrease_forest]
    rw [ihr, ihk, flag_set_effective_priority]

theorem prio_congr {s s1 : State} {n : Nat}
    (h : oom_priority_read s1 n = oom_priority_read s n) : prio s1 n = prio s n := by
  unfold prio; rw [h]

theorem fits_eff (s : State) (n : Nat) : Fits (eff s n) := by
  unfold eff oom_effective_priority_read oom_css_from_cgroup
  cases s.cgroups n with
  | none => exact fits_of_lt (by simp)
  | some g => exact fits_atomic_read _

theorem fits_prio (s : State) (n : Nat) : Fits (prio s n) := by
  unfold prio oom_priority_read oom_css_from_cgroup
  cases s.cgroups n with
  | none => exact fits_of_lt (by simp)
  | some g => exact fits_atomic_read _

theorem decrease_floor_eq_max (s : State) (c fl : Nat) :
    decrease_floor s c fl = max (prio s c) fl := by
  unfold decrease_floor
  split <;> omega

theorem fits_decrease_floor (s : State) (c : Nat) {fl : Nat} (h : Fits fl) :
    Fits (decrease_floor s c fl) := by
  unfold decrease_floor
  split
  · exact fits_prio s c
  · exact h

/-- Decrease propagation, entered with the effective priority of the parent as
floor, leaves every cgroup of the forest at the maximum of its priority and
the new effective priority of its parent. -/
theorem eff_decrease_forest (f : Forest) :
    ∀ (s : State) (p fl : Nat), Shape s (some p) f → f.ids.Nodup → p ∉ f.ids →
      fl = eff s p → ∀ n ∈ f.ids, ∃ q, f.parentOf n (some p) = some q ∧
        eff (decrease_forest s p fl f) n =
          max (prio s n) (eff (decrease_forest s p fl f) q) := by
  induction f with
  | nil => intro s p fl _ _ _ _ n h; simp [Forest.ids] at h
  | cons id kids rest ihk ihr =>
    intro s p fl hs hnd hp hfl n hn
    obtain ⟨hl, hsk, hsr⟩ := hs
    obtain ⟨h1, h2, hk, hr, hd⟩ := nodup_cons_forest hnd
    simp only [Forest.ids, List.mem_cons, List.mem_append, not_or] at hp
    obtain ⟨hp0, hp1, hp2⟩ := hp
    have hl1 : (set_effective_priority s id (decrease_floor s id fl)).links = s.links :=
      links_set_effective_priority _ _ _
    have hl2 : (decrease_forest (set_effective_priority s id (decrease_floor s id fl)) id
        (decrease_floor s id fl) kids).links = s.links := by
      rw [links_decrease_forest, hl1]
    have hfit : Fits (decrease_floor s id fl) :=
      fits_decrease_floor s id (hfl ▸ fits_eff s p)
    have he1 : eff (set_effective_priority s id (decrease_floor s id fl)) id =
        decrease_floor s id fl := by
      rw [eff_set_effective_priority_self _ (links_ne_none hl)]; exact hfit
    simp only [decrease_forest, Forest.parentOf]
    simp only [Forest.ids, List.mem_cons, List.mem_append] at hn
    rcases hn with hn | hn | hn
    · subst hn
      refine ⟨p, by simp, ?_⟩
      rw [eff_congr (cgroups_decrease_forest rest _ _ _ n h2),
        eff_congr (cgroups_decrease_forest kids _ _ _ n h1), he1,
        eff_congr (cgroups_decrease_forest rest _ _ _ p hp2),
        eff_congr (cgroups_decrease_forest kids _ _ _ p hp1),
        eff_set_effective_priority_ne s _ hp0, decrease_floor_eq_max, hfl]
    · have hne : ¬ id = n := fun e => h1 (e ▸ hn)
      obtain ⟨q, hq, hv⟩ := ihk _ id _ ((shape_congr hl1 _ _).2 hsk) hk h1 he1.symm n hn
      refine ⟨q, by simp only [if_neg hne, if_pos hn]; exact hq, ?_⟩
      have hqr : q ∉ rest.ids := by
        rcases parentOf_mem kids _ n q hq with h | h
        · simp only [Option.some.injEq] at h; exact h ▸ h2
        · exact hd q h
      rw [eff_congr (cgroups_decrease_forest rest _ _ _ n (hd n hn)),
        eff_congr (cgroups_decrease_forest rest _ _ _ q hqr), hv,
        prio_congr (priority_read_set_effective_priority _ _ _ _)]
    · have hne : ¬ id = n := fun e => h2 (e ▸ hn)
      have hnk : n ∉ kids.ids := fun h => hd n h hn
      obtain ⟨q, hq, hv⟩ := ihr _ p _ ((shape_congr hl2 _ _).2 hsr) hr hp2 rfl n hn
      refine ⟨q, by simp only [if_neg hne, if_neg hnk]; exact hq, ?_⟩
      rw [hv, prio_congr (priority_read_decrease_forest kids _ _ _ _),
        prio_congr (priority_read_set_effective_priority _ _ _ _)]



/-! ## The priority write on a well-formed hierarchy -/

theorem links_mem {s : State} {t : Forest} {n : Nat} (hw : WellFormed s t) (hn : n ∈ t.ids) :
    ∃ ns, s.links n = some (t.parentOf n none, (t.kidsOf n).head, ns) :=
  (shape_at t none n hw.1 hn).1

theorem cgroups_mem {s : State} {t : Forest} {n : Nat} (hw : WellFormed s t) (hn : n ∈ t.ids) :
    ∃ g, s.cgroups n = some g ∧ g.parent = t.parentOf n none := by
  obtain ⟨ns, h⟩ := links_mem hw hn
  obtain ⟨g, hg, hp, -, -⟩ := links_some h
  exact ⟨g, hg, hp⟩

theorem parent_mem {t : Forest} {n p : Nat} (h : t.parentOf n none = some p) : p ∈ t.ids := by
  rcases parentOf_mem t none n p h with h1 | h1
  · exact absurd h1 (by simp)
  · exact h1

/-- On a well-formed hierarchy with enough fuel `oom_priority_write` returns
`0` and leaves the memory that the recursive description computes. -/
theorem oom_priority_write_eq {s : State} {t : Forest} {cgrp : Nat} (val : Nat) {fuel : Nat}
    (hw : WellFormed s t) (hc : cgrp ∈ t.ids) (hf : 2 * t.size + 2 ≤ fuel) :
    oom_priority_write fuel s cgrp val = some (0, priority_write_forest t s cgrp val) := by
  obtain ⟨ns, hl⟩ := links_mem hw hc
  obtain ⟨g, hg, hpar, -, -⟩ := links_some hl
  have hsk : Shape s (some cgrp) (t.kidsOf cgrp) := (shape_at t none cgrp hw.1 hc).2
  have hnk : cgrp ∉ (t.kidsOf cgrp).ids := not_mem_kidsOf_self t hw.2
  have hfk : 2 * (t.kidsOf cgrp).size + 2 ≤ fuel := by
    have := kidsOf_size_lt cgrp t; omega
  have hl1 : (set_priority s cgrp val).links = s.links := links_set_priority _ _ _
  have hg1 : (set_priority s cgrp val).cgroups cgrp =
      some { g with css := { g.css with priority := atomic_set val } } := by
    rw [cgroups_set_priority, if_pos rfl, hg]; rfl
  have he1 : oom_effective_priority_read (set_priority s cgrp val) cgrp = some (eff s cgrp) := by
    rw [eff_read_eq hg1, eff_set_priority]
  unfold oom_priority_write priority_write_forest
  simp only [hg, he1, ← prio_eq hg]
  by_cases h1 : val > eff s cgrp
  · simp only [if_pos h1]
    rw [increase_effective_priority_eq val (hl1 ▸ hl) ((shape_congr hl1 _ _).2 hsk) hnk hfk]
    rfl
  · simp only [if_neg h1]
    by_cases h2 : eff s cgrp = prio s cgrp ∧ val < eff s cgrp
    · simp only [if_pos h2]
      cases hp : t.parentOf cgrp none with
      | none =>
        rw [hp] at hpar
        simp only [hpar, true_or, if_true]
        rw [decrease_effective_priority_eq val (hl1 ▸ hl) ((shape_congr hl1 _ _).2 hsk) hnk hfk]
        rfl
      | some p =>
        rw [hp] at hpar
        obtain ⟨gp, hgp, -⟩ := cgroups_mem hw (parent_mem hp)
        have hne : p ≠ cgrp := by
          intro e
          rcases mem_kidsOf_parentOf t none cgrp p hw.2 hc hp with h | h
          · exact absurd h (by simp)
          · exact hnk (e ▸ h)
        have hgp1 : (set_priority s cgrp val).cgroups p = some gp := by
          rw [cgroups_set_priority, if_neg hne, hgp]
        have hep : oom_effective_priority_read (set_priority s cgrp val) p = some (eff s p) := by
          rw [eff_read_eq hgp1, eff_set_priority]
        simp only [hpar, hep, reduceCtorEq, false_or]
        by_cases h3 : eff s p < eff s cgrp
        · simp only [if_pos h3]
          rw [decrease_effective_priority_eq _ (hl1 ▸ hl) ((shape_congr hl1 _ _).2 hsk) hnk hfk]
          rfl
        · simp only [if_neg h3]
    · simp only [if_neg h2]



theorem links_priority_write_forest (t : Forest) (s : State) (cgrp val : Nat) :
    (priority_write_forest t s cgrp val).links = s.links := by
  unfold priority_write_forest
  simp only
  split
  · rw [links_increase_forest, links_set_effective_priority, links_set_priority]
  · split
    · split
      · rw [links_decrease_forest, links_set_effective_priority, links_set_priority]
      · split
        · rw [links_decrease_forest, links_set_effective_priority, links_set_priority]
        · exact links_set_priority _ _ _
    · exact links_set_priority _ _ _

theorem flag_priority_write_forest (t : Forest) (s : State) (cgrp val : Nat) :
    (priority_write_forest t s cgrp val).honour_cpuset_constraint =
      s.honour_cpuset_constraint := by
  unfold priority_write_forest
  simp only
  split
  · rw [flag_increase_forest]; rfl
  · split
    · split
      · rw [flag_decrease_forest]; rfl
      · split
        · rw [flag_decrease_forest]; rfl
        · rfl
    · rfl

theorem priority_read_priority_write_forest (t : Forest) (s : State) (cgrp val n : Nat) :
    oom_priority_read (priority_write_forest t s cgrp val) n =
      oom_priority_read (set_priority s cgrp val) n := by
  unfold priority_write_forest
  simp only
  split
  · rw [priority_read_increase_forest, priority_read_set_effective_priority]
  · split
    · split
      · rw [priority_read_decrease_forest, priority_read_set_effective_priority]
      · split
        · rw [priority_read_decrease_forest, priority_read_set_effective_priority]
        · rfl
    · rfl

/-- The write touches no cgroup other than `cgrp` and its strict descendants. -/
theorem cgroups_priority_write_forest (t : Forest) (s : State) (cgrp val : Nat) {n : Nat}
    (h1 : n ≠ cgrp) (h2 : n ∉ (t.kidsOf cgrp).ids) :
    (priority_write_forest t s cgrp val).cgroups n = s.cgroups n := by
  have e1 : ∀ v, (set_effective_priority (set_priority s cgrp val) cgrp v).cgroups n =
      s.cgroups n := by
    intro v
    rw [cgroups_set_effective_priority, if_neg h1, cgroups_set_priority, if_neg h1]
  unfold priority_write_forest
  simp only
  split
  · rw [cgroups_increase_forest _ _ _ _ h2, e1]
  · split
    · split
      · rw [cgroups_decrease_forest _ _ _ _ _ h2, e1]
      · split
        · rw [cgroups_decrease_forest _ _ _ _ _ h2, e1]
        · rw [cgroups_set_priority, if_neg h1]
    · rw [cgroups_set_priority, if_neg h1]

theorem wellFormed_congr {s s1 : State} (h : s1.links = s.links) {t : Forest}
    (hw : WellFormed s t) : WellFormed s1 t :=
  ⟨(shape_congr h _ _).2 hw.1, hw.2⟩

theorem effective_read_congr {s s1 : State} {n : Nat} (h : s1.cgroups n = s.cgroups n) :
    oom_effective_priority_read s1 n = oom_effective_priority_read s n := by
  unfold oom_effective_priority_read oom_css_from_cgroup; rw [h]

theorem priority_read_set_priority_ne (s : State) {c n : Nat} (val : Nat) (h : n ≠ c) :
    oom_priority_read (set_priority s c val) n = oom_priority_read s n := by
  unfold oom_priority_read oom_css_from_cgroup
  rw [cgroups_set_priority, if_neg h]

theorem priority_read_set_priority_self {s : State} {c : Nat} (val : Nat)
    (h : s.links c ≠ none) :
    oom_priority_read (set_priority s c val) c = some (atomic_read (atomic_set val)) := by
  unfold oom_priority_read oom_css_from_cgroup
  rw [cgroups_set_priority, if_pos rfl]
  unfold State.links at h
  cases hg : s.cgroups c with
  | none => rw [hg] at h; exact absurd rfl h
  | some g => rfl



/-! ## The claims about `oom_priority_write` -/

/-- C10: on a well-formed hierarchy, for every cgroup `cgrp` and value `val`,
`oom_priority_write` returns and leaves unchanged the priority of every other
cgroup, the effective priority of every cgroup that is neither `cgrp` nor one
of its strict descendants (in particular of every ancestor of `cgrp`), and the
flag `honour_cpuset_constraint`. -/
theorem oom_priority_write_frame (s : State) (t : Forest) (cgrp val fuel : Nat)
    (hw : WellFormed s t) (hc : cgrp ∈ t.ids) (hf : 2 * t.size + 2 ≤ fuel) :
    ∃ s1, oom_priority_write fuel s cgrp val = some (0, s1) ∧
      (∀ n, n ≠ cgrp → oom_priority_read s1 n = oom_priority_read s n) ∧
      (∀ n, n ≠ cgrp → n ∉ t.descendants cgrp →
        oom_effective_priority_read s1 n = oom_effective_priority_read s n) ∧
      (∀ a, cgrp ∈ t.descendants a →
        oom_effective_priority_read s1 a = oom_effective_priority_read s a) ∧
      s1.honour_cpuset_constraint = s.honour_cpuset_constraint := by
  refine ⟨_, oom_priority_write_eq val hw hc hf, ?_, ?_, ?_, ?_⟩
  · intro n hn
    rw [priority_read_priority_write_forest, priority_read_set_priority_ne s val hn]
  · intro n hn hd
    exact effective_read_congr (cgroups_priority_write_forest t s cgrp val hn hd)
  · intro a ha
    obtain ⟨h1, h2⟩ := ancestor_not_below hw.2 ha
    exact effective_read_congr (cgroups_priority_write_forest t s cgrp val h1 h2)
  · exact flag_priority_write_forest t s cgrp val

theorem oom_priority_write_frame_witness :
    WellFormed ex_chain ex_chain_tree ∧ 1 ∈ ex_chain_tree.ids ∧
    ∃ s1, oom_priority_write 8 ex_chain 1 5 = some (0, s1) ∧
      (∀ n, n ≠ 1 → oom_priority_read s1 n = oom_priority_read ex_chain n) ∧
      (∀ n, n ≠ 1 → n ∉ ex_chain_tree.descendants 1 →
        oom_effective_priority_read s1 n = oom_effective_priority_read ex_chain n) ∧
      (∀ a, 1 ∈ ex_chain_tree.descendants a →
        oom_effective_priority_read s1 a = oom_effective_priority_read ex_chain a) ∧
      s1.honour_cpuset_constraint = ex_chain.honour_cpuset_constraint :=
  ⟨by decide, by decide,
    oom_priority_write_frame ex_chain ex_chain_tree 1 5 8 (by decide) (by decide) (by decide)⟩

/-- C6, as the claim states it, fails: writing `2^32` to the priority of the
lone root and reading it back returns `0`. -/
theorem priority_round_trip_counterexample :
    WellFormed ex_root ex_root_tree ∧
    (oom_priority_write 4 ex_root 0 4294967296).bind (fun r => oom_priority_read r.2 0) =
      some 0 ∧
    (oom_priority_write 4 ex_root 0 4294967296).bind (fun r => oom_priority_read r.2 0) ≠
      some 4294967296 := by
  decide

/-- C6, amended: for every cgroup `n` of a well-formed hierarchy and every
value `v` that fits a 32-bit `int` (below `2^31` or at least `2^64 - 2^31`),
`oom_priority_write(n, v)` returns `0` and `oom_priority_read(n)` then
returns `v`. -/
theorem priority_round_trip (s : State) (t : Forest) (n v fuel : Nat)
    (hw : WellFormed s t) (hn : n ∈ t.ids) (hf : 2 * t.size + 2 ≤ fuel) (hv : Fits v) :
    ∃ s1, oom_priority_write fuel s n v = some (0, s1) ∧ oom_priority_read s1 n = some v := by
  refine ⟨_, oom_priority_write_eq v hw hn hf, ?_⟩
  obtain ⟨ns, hl⟩ := links_mem hw hn
  rw [priority_read_priority_write_forest, priority_read_set_priority_self v (links_ne_none hl)]
  exact congrArg some hv

theorem priority_round_trip_witness :
    WellFormed ex_chain ex_chain_tree ∧ 1 ∈ ex_chain_tree.ids ∧ Fits 5 ∧
    ∃ s1, oom_priority_write 8 ex_chain 1 5 = some (0, s1) ∧ oom_priority_read s1 1 = some 5 :=
  ⟨by decide, by decide, by decide,
    priority_round_trip ex_chain ex_chain_tree 1 5 8 (by decide) (by decide) (by decide)
      (by decide)⟩

/-- C9, as the claim states it, fails: in `ex_high` the child `1` has priority
`0` and effective priority `2^64 - 1`; writing `2^32` meets neither
propagation condition, and the priority read back is `0`, not `2^32`. -/
theorem priority_write_no_propagation_counterexample :
    WellFormed ex_high ex_pair_tree ∧ Invariant ex_high ex_pair_tree ∧
    4294967296 ≤ eff ex_high 1 ∧
    ¬ (eff ex_high 1 = prio ex_high 1 ∧ 4294967296 < eff ex_high 1) ∧
    (oom_priority_write 6 ex_high 1 4294967296).bind (fun r => oom_priority_read r.2 1) =
      some 0 := by
  decide

/-- C9, amended: when neither propagation condition holds
(`val <= effective_priority(cgrp)` and not (`effective_priority(cgrp)` equals
the old priority and `val < effective_priority(cgrp)`)), the write returns `0`
and only stores the priority of `cgrp`, which then reads as the 32-bit
truncation of `val` (as `val` itself when `val` fits); every effective
priority, every other priority, all links and the flag are unchanged. -/
theorem priority_write_no_propagation (s : State) (t : Forest) (cgrp val fuel : Nat)
    (hw : WellFormed s t) (hc : cgrp ∈ t.ids) (hf : 2 * t.size + 2 ≤ fuel)
    (h1 : val ≤ eff s cgrp) (h2 : ¬ (eff s cgrp = prio s cgrp ∧ val < eff s cgrp)) :
    oom_priority_write fuel s cgrp val = some (0, set_priority s cgrp val) ∧
      oom_priority_read (set_priority s cgrp val) cgrp = some (atomic_read (atomic_set val)) ∧
      (Fits val → oom_priority_read (set_priority s cgrp val) cgrp = some val) ∧
      (∀ n, oom_effective_priority_read (set_priority s cgrp val) n =
        oom_effective_priority_read s n) ∧
      (∀ n, n ≠ cgrp → oom_priority_read (set_priority s cgrp val) n = oom_priority_read s n) ∧
      (set_priority s cgrp val).links = s.links ∧
      (set_priority s cgrp val).honour_cpuset_constraint = s.honour_cpuset_constraint := by
  obtain ⟨ns, hl⟩ := links_mem hw hc
  have hr := priority_read_set_priority_self (s := s) val (links_ne_none hl)
  refine ⟨?_, hr, fun hv => ?_, fun n => ?_, fun n hn => ?_, links_set_priority _ _ _, rfl⟩
  · rw [oom_priority_write_eq val hw hc hf]
    unfold priority_write_forest
    simp only [if_neg (Nat.not_lt.2 h1), if_neg h2]
  · rw [hr]; exact congrArg some hv
  · unfold oom_effective_priority_read oom_css_from_cgroup
    rw [cgroups_set_priority]
    by_cases h : n = cgrp
    · rw [if_pos h]; cases s.cgroups n <;> rfl
    · rw [if_neg h]
  · exact priority_read_set_priority_ne s val hn

theorem priority_write_no_propagation_witness :
    WellFormed ex_high ex_pair_tree ∧ 1 ∈ ex_pair_tree.ids ∧ 7 ≤ eff ex_high 1 ∧
    ¬ (eff ex_high 1 = prio ex_high 1 ∧ 7 < eff ex_high 1) ∧
    (oom_priority_write 6 ex_high 1 7 = some (0, set_priority ex_high 1 7) ∧
      oom_priority_read (set_priority ex_high 1 7) 1 = some (atomic_read (atomic_set 7)) ∧
      (Fits 7 → oom_priority_read (set_priority ex_high 1 7) 1 = some 7) ∧
      (∀ n, oom_effective_priority_read (set_priority ex_high 1 7) n =
        oom_effective_priority_read ex_high n) ∧
      (∀ n, n ≠ 1 → oom_priority_read (set_priority ex_high 1 7) n =
        oom_priority_read ex_high n) ∧
      (set_priority ex_high 1 7).links = ex_high.links ∧
      (set_priority ex_high 1 7).honour_cpuset_constraint =
        ex_high.honour_cpuset_constraint) :=
  ⟨by decide, by decide, by decide, by decide,
    priority_write_no_propagation ex_high ex_pair_tree 1 7 6 (by decide) (by decide)
      (by decide) (by decide) (by decide)⟩



theorem effective_read_mem {s : State} {t : Forest} {n : Nat} (hw : WellFormed s t)
    (hn : n ∈ t.ids) : oom_effective_priority_read s n = some (eff s n) := by
  obtain ⟨g, hg, -⟩ := cgroups_mem hw hn
  exact eff_read_eq hg

theorem priority_read_mem {s : State} {t : Forest} {n : Nat} (hw : WellFormed s t)
    (hn : n ∈ t.ids) : oom_priority_read s n = some (prio s n) := by
  obtain ⟨g, hg, -⟩ := cgroups_mem hw hn
  exact prio_read_eq hg

/-- The invariant at a cgroup of a well-formed hierarchy, through the `u64`
views of the fields. -/
theorem invAt_iff {s : State} {t : Forest} {n : Nat} (hw : WellFormed s t) (hn : n ∈ t.ids) :
    InvAt s n ↔
      match t.parentOf n none with
      | none => eff s n = prio s n
      | some q => eff s n = max (prio s n) (eff s q) := by
  obtain ⟨g, hg, hpar⟩ := cgroups_mem hw hn
  unfold InvAt
  simp only [hg]
  cases hp : t.parentOf n none with
  | none =>
    rw [hp] at hpar
    simp only [hpar, eff_eq hg, prio_eq hg]
  | some q =>
    rw [hp] at hpar
    obtain ⟨gq, hgq, -⟩ := cgroups_mem hw (parent_mem hp)
    simp only [hpar, hgq, eff_eq hg, prio_eq hg, eff_eq hgq]

/-- The state in which both traversals start: the priority and the effective
priority of `cgrp` stored. -/
theorem eff_start_self {s : State} {t : Forest} {cgrp : Nat} (val fl : Nat)
    (hw : WellFormed s t) (hc : cgrp ∈ t.ids) :
    eff (set_effective_priority (set_priority s cgrp val) cgrp fl) cgrp =
      atomic_read (atomic_set fl) := by
  obtain ⟨ns, hl⟩ := links_mem hw hc
  exact eff_set_effective_priority_self fl
    (by rw [links_set_priority]; exact links_ne_none hl)

theorem eff_start_ne (s : State) {cgrp n : Nat} (val fl : Nat) (h : n ≠ cgrp) :
    eff (set_effective_priority (set_priority s cgrp val) cgrp fl) n = eff s n := by
  rw [eff_set_effective_priority_ne _ _ h, eff_set_priority]

theorem shape_start {s : State} {t : Forest} {cgrp : Nat} (val fl : Nat)
    (hw : WellFormed s t) (hc : cgrp ∈ t.ids) :
    Shape (set_effective_priority (set_priority s cgrp val) cgrp fl) (some cgrp)
      (t.kidsOf cgrp) := by
  refine (shape_congr ?_ _ _).2 (shape_at t none cgrp hw.1 hc).2
  rw [links_set_effective_priority, links_set_priority]

/-- The effective priorities after a raising write. -/
theorem eff_priority_write_raise {s : State} {t : Forest} {cgrp val : Nat}
    (hw : WellFormed s t) (hc : cgrp ∈ t.ids) (hv : Fits val) (h : val > eff s cgrp) :
    eff (priority_write_forest t s cgrp val) cgrp = val ∧
      ∀ n ∈ (t.kidsOf cgrp).ids,
        eff (priority_write_forest t s cgrp val) n = max (eff s n) val := by
  have hnk : cgrp ∉ (t.kidsOf cgrp).ids := not_mem_kidsOf_self t hw.2
  have e : priority_write_forest t s cgrp val =
      increase_forest val (set_effective_priority (set_priority s cgrp val) cgrp val)
        (t.kidsOf cgrp) := by
    unfold priority_write_forest; simp only [if_pos h]
  rw [e]
  constructor
  · rw [eff_congr (cgroups_increase_forest val _ _ cgrp hnk), eff_start_self val val hw hc]
    exact hv
  · intro n hn
    have hne : n ≠ cgrp := fun e => hnk (e ▸ hn)
    rw [eff_increase_forest val _ _ _ (shape_start val val hw hc) (kidsOf_nodup t hw.2) n hn,
      eff_start_ne s val val hne]
    unfold Fits at hv
    rw [hv]
    split <;> omega

/-- C3, as the claim states it, fails: writing `2^32` to the root of `ex_pair`
(effective priority `1`) stores priority `0` and effective priority `0` in the
root, and leaves the child at effective priority `0` instead of
`max(1, 2^32)`. -/
theorem priority_write_raise_counterexample :
    WellFormed ex_pair ex_pair_tree ∧ 4294967296 > eff ex_pair 0 ∧
    (oom_priority_write 6 ex_pair 0 4294967296).map
        (fun r => (oom_priority_read r.2 0, oom_effective_priority_read r.2 0,
          oom_effective_priority_read r.2 1)) =
      some (some 0, some 0, some 0) := by
  decide

/-- C3, amended: for every cgroup `cgrp` and value `val` that fits a 32-bit
`int`, with `val > effective_priority(cgrp)`, the write returns `0` and
afterwards the priority and the effective priority of `cgrp` are `val` and
every strict descendant `n` has effective priority
`max(previous effective_priority(n), val)`. -/
theorem priority_write_raise (s : State) (t : Forest) (cgrp val fuel : Nat)
    (hw : WellFormed s t) (hc : cgrp ∈ t.ids) (hf : 2 * t.size + 2 ≤ fuel)
    (hv : Fits val) (h : val > eff s cgrp) :
    ∃ s1, oom_priority_write fuel s cgrp val = some (0, s1) ∧
      oom_priority_read s1 cgrp = some val ∧
      oom_effective_priority_read s1 cgrp = some val ∧
      ∀ n ∈ t.descendants cgrp,
        oom_effective_priority_read s1 n = some (max (eff s n) val) := by
  have hw1 : WellFormed (priority_write_forest t s cgrp val) t :=
    wellFormed_congr (links_priority_write_forest t s cgrp val) hw
  obtain ⟨h1, h2⟩ := eff_priority_write_raise hw hc hv h
  obtain ⟨ns, hl⟩ := links_mem hw hc
  refine ⟨_, oom_priority_write_eq val hw hc hf, ?_, ?_, ?_⟩
  · rw [priority_read_priority_write_forest,
      priority_read_set_priority_self val (links_ne_none hl)]
    exact congrArg some hv
  · rw [effective_read_mem hw1 hc, h1]
  · intro n hn
    rw [effective_read_mem hw1 (kidsOf_ids_subset t n hn), h2 n hn]

theorem priority_write_raise_witness :
    WellFormed ex_chain ex_chain_tree ∧ 1 ∈ ex_chain_tree.ids ∧ Fits 5 ∧ 5 > eff ex_chain 1 ∧
    ∃ s1, oom_priority_write 8 ex_chain 1 5 = some (0, s1) ∧
      oom_priority_read s1 1 = some 5 ∧
      oom_effective_priority_read s1 1 = some 5 ∧
      ∀ n ∈ ex_chain_tree.descendants 1,
        oom_effective_priority_read s1 n = some (max (eff ex_chain n) 5) :=
  ⟨by decide, by decide, by decide, by decide,
    priority_write_raise ex_chain ex_chain_tree 1 5 8 (by decide) (by decide) (by decide)
      (by decide) (by decide)⟩

/-- C7, as the claim states it, fails: writing `2^32`, which is greater than
the priority `1` of the lone root, lowers the effective priority of the root
from `1` to `0`. -/
theorem priority_raise_monotone_counterexample :
    WellFormed ex_root ex_root_tree ∧ Invariant ex_root ex_root_tree ∧
    4294967296 > prio ex_root 0 ∧
    oom_effective_priority_read ex_root 0 = some 1 ∧
    (oom_priority_write 4 ex_root 0 4294967296).bind
        (fun r => oom_effective_priority_read r.2 0) = some 0 := by
  decide

/-- C7, amended: for every cgroup `n` and every value `v` that fits a 32-bit
`int` and is greater than the current priority of `n`, the write returns `0`
and the effective priority of `n` and of every strict descendant of `n` is
afterwards greater than or equal to its value before. -/
theorem priority_raise_monotone (s : State) (t : Forest) (n v fuel : Nat)
    (hw : WellFormed s t) (hn : n ∈ t.ids) (hf : 2 * t.size + 2 ≤ fuel)
    (hv : Fits v) (h : v > prio s n) :
    ∃ s1, oom_priority_write fuel s n v = some (0, s1) ∧
      eff s n ≤ eff s1 n ∧ ∀ m ∈ t.descendants n, eff s m ≤ eff s1 m := by
  refine ⟨_, oom_priority_write_eq v hw hn hf, ?_⟩
  by_cases h1 : v > eff s n
  · obtain ⟨e1, e2⟩ := eff_priority_write_raise hw hn hv h1
    refine ⟨by rw [e1]; omega, fun m hm => ?_⟩
    rw [e2 m hm]; omega
  · have e : priority_write_forest t s n v = set_priority s n v := by
      unfold priority_write_forest
      have h2 : ¬ (eff s n = prio s n ∧ v < eff s n) := by omega
      simp only [if_neg h1, if_neg h2]
    rw [e]
    refine ⟨by rw [eff_set_priority], fun m _ => by rw [eff_set_priority]⟩

theorem priority_raise_monotone_witness :
    WellFormed ex_chain ex_chain_tree ∧ 1 ∈ ex_chain_tree.ids ∧ Fits 5 ∧ 5 > prio ex_chain 1 ∧
    ∃ s1, oom_priority_write 8 ex_chain 1 5 = some (0, s1) ∧
      eff ex_chain 1 ≤ eff s1 1 ∧
      ∀ m ∈ ex_chain_tree.descendants 1, eff ex_chain m ≤ eff s1 m :=
  ⟨by decide, by decide, by decide, by decide,
    priority_raise_monotone ex_chain ex_chain_tree 1 5 8 (by decide) (by decide) (by decide)
      (by decide) (by decide)⟩



/-- After decrease propagation below `cgrp`, started from a state in which
`cgrp` itself holds the floor, every strict descendant satisfies the
invariant. -/
theorem invAt_decrease_forest {s : State} {t : Forest} {cgrp : Nat}
    (hw : WellFormed s t) (hc : cgrp ∈ t.ids) :
    ∀ n ∈ (t.kidsOf cgrp).ids,
      InvAt (decrease_forest s cgrp (eff s cgrp) (t.kidsOf cgrp)) n := by
  intro n hn
  have hnk : cgrp ∉ (t.kidsOf cgrp).ids := not_mem_kidsOf_self t hw.2
  have hw1 : WellFormed (decrease_forest s cgrp (eff s cgrp) (t.kidsOf cgrp)) t :=
    wellFormed_congr (links_decrease_forest _ _ _ _) hw
  obtain ⟨q, hq, hv⟩ := eff_decrease_forest (t.kidsOf cgrp) s cgrp (eff s cgrp)
    (shape_at t none cgrp hw.1 hc).2 (kidsOf_nodup t hw.2) hnk rfl n hn
  rw [invAt_iff hw1 (kidsOf_ids_subset t n hn), (kidsOf_kidsOf t none cgrp n hw.2 hc hn).2, hq]
  simp only
  rw [hv, prio_congr (priority_read_decrease_forest _ _ _ _ _)]

/-- C5, as the claim states it, fails: decrease propagation from the root of
`ex_pair` with the floor `2^32` leaves the root at effective priority `0`, not
`2^32`, and the child (priority `1`) at `0`, not at `max(1, 0)`. -/
theorem decrease_effective_priority_counterexample :
    WellFormed ex_pair ex_pair_tree ∧
    (decrease_effective_priority 6 ex_pair 0 4294967296).map
        (fun r => (oom_effective_priority_read r 0, oom_effective_priority_read r 1,
          oom_priority_read r 1)) =
      some (some 0, some 0, some 1) := by
  decide

/-- C5, amended: on a well-formed hierarchy, for every cgroup `cgrp` and every
floor that fits a 32-bit `int`, `decrease_effective_priority(cgrp, floor)`
returns; afterwards the effective priority of `cgrp` is `floor`, every strict
descendant satisfies the invariant (its effective priority is the maximum of
its priority and the effective priority of its parent, in the final state),
and no priority has changed. -/
theorem decrease_effective_priority_spec (s : State) (t : Forest) (cgrp floor fuel : Nat)
    (hw : WellFormed s t) (hc : cgrp ∈ t.ids) (hf : 2 * t.size + 2 ≤ fuel)
    (hv : Fits floor) :
    ∃ s1, decrease_effective_priority fuel s cgrp floor = some s1 ∧
      oom_effective_priority_read s1 cgrp = some floor ∧
      (∀ n ∈ t.descendants cgrp, InvAt s1 n) ∧
      ∀ n, oom_priority_read s1 n = oom_priority_read s n := by
  obtain ⟨ns, hl⟩ := links_mem hw hc
  have hnk : cgrp ∉ (t.kidsOf cgrp).ids := not_mem_kidsOf_self t hw.2
  have hfk : 2 * (t.kidsOf cgrp).size + 2 ≤ fuel := by
    have := kidsOf_size_lt cgrp t; omega
  have hw0 : WellFormed (set_effective_priority s cgrp floor) t :=
    wellFormed_congr (links_set_effective_priority _ _ _) hw
  have he : eff (set_effective_priority s cgrp floor) cgrp = floor := by
    rw [eff_set_effective_priority_self floor (links_ne_none hl)]; exact hv
  have hw1 : WellFormed (decrease_forest (set_effective_priority s cgrp floor) cgrp floor
      (t.kidsOf cgrp)) t := wellFormed_congr (links_decrease_forest _ _ _ _) hw0
  refine ⟨_, decrease_effective_priority_eq floor hl (shape_at t none cgrp hw.1 hc).2 hnk hfk,
    ?_, ?_, ?_⟩
  · rw [effective_read_mem hw1 hc, eff_congr (cgroups_decrease_forest _ _ _ _ cgrp hnk), he]
  · intro n hn
    have := invAt_decrease_forest hw0 hc n hn
    rw [he] at this
    exact this
  · intro n
    rw [priority_read_decrease_forest, priority_read_set_effective_priority]

theorem decrease_effective_priority_spec_witness :
    WellFormed ex_chain ex_chain_tree ∧ 0 ∈ ex_chain_tree.ids ∧ Fits 0 ∧
    ∃ s1, decrease_effective_priority 8 ex_chain 0 0 = some s1 ∧
      oom_effective_priority_read s1 0 = some 0 ∧
      (∀ n ∈ ex_chain_tree.descendants 0, InvAt s1 n) ∧
      ∀ n, oom_priority_read s1 n = oom_priority_read ex_chain n :=
  ⟨by decide, by decide, by decide,
    decrease_effective_priority_spec ex_chain ex_chain_tree 0 0 8 (by decide) (by decide)
      (by decide) (by decide)⟩

/-- The effective priority of `cgrp` after decrease propagation from it. -/
theorem eff_decrease_start_self {s : State} {t : Forest} {cgrp : Nat} (val fl : Nat)
    (hw : WellFormed s t) (hc : cgrp ∈ t.ids) :
    eff (decrease_forest (set_effective_priority (set_priority s cgrp val) cgrp fl) cgrp fl
      (t.kidsOf cgrp)) cgrp = atomic_read (atomic_set fl) := by
  rw [eff_congr (cgroups_decrease_forest _ _ _ _ cgrp (not_mem_kidsOf_self t hw.2)),
    eff_start_self val fl hw hc]

/-- C8, as the claim states it, fails. First, on the lone root `ex_min`
(priority and effective priority `2^64 - 2^31`, the invariant holds) writing
the smaller value `2^32 - 1` raises the effective priority to `2^64 - 1`.
Second, in `ex_low` the child has priority `10` above its effective priority
`5`; writing the smaller value `7` raises its effective priority to `7`. -/
theorem priority_lower_monotone_counterexample :
    (WellFormed ex_min ex_root_tree ∧ Invariant ex_min ex_root_tree ∧
      4294967295 < prio ex_min 0 ∧
      oom_effective_priority_read ex_min 0 = some 18446744071562067968 ∧
      (oom_priority_write 4 ex_min 0 4294967295).bind
          (fun r => oom_effective_priority_read r.2 0) = some 18446744073709551615) ∧
    (WellFormed ex_low ex_pair_tree ∧ 7 < prio ex_low 1 ∧
      oom_effective_priority_read ex_low 1 = some 5 ∧
      (oom_priority_write 6 ex_low 1 7).bind
          (fun r => oom_effective_priority_read r.2 1) = some 7) := by
  decide

/-- C8, amended: for every cgroup `n` whose effective priority is at least its
priority (as the invariant gives) and every value `v` that fits a 32-bit `int`
and is less than the current priority of `n`, the write returns `0` and the
effective priority of `n` and of every ancestor of `n` is afterwards less than
or equal to its value before. -/
theorem priority_lower_monotone (s : State) (t : Forest) (n v fuel : Nat)
    (hw : WellFormed s t) (hn : n ∈ t.ids) (hf : 2 * t.size + 2 ≤ fuel)
    (hv : Fits v) (h : v < prio s n) (hi : prio s n ≤ eff s n) :
    ∃ s1, oom_priority_write fuel s n v = some (0, s1) ∧
      eff s1 n ≤ eff s n ∧ ∀ a, n ∈ t.descendants a → eff s1 a ≤ eff s a := by
  refine ⟨_, oom_priority_write_eq v hw hn hf, ?_, ?_⟩
  · have h1 : ¬ v > eff s n := by omega
    unfold priority_write_forest
    simp only [if_neg h1]
    split
    · split
      · rw [eff_decrease_start_self v v hw hn, hv]; omega
      · split
        · next h3 =>
          rw [eff_decrease_start_self v _ hw hn]
          split
          · rw [hv]; omega
          · rw [fits_eff]; omega
        · rw [eff_set_priority]
    · rw [eff_set_priority]
  · intro a ha
    obtain ⟨h1, h2⟩ := ancestor_not_below hw.2 ha
    rw [eff_congr (cgroups_priority_write_forest t s n v h1 h2)]

theorem priority_lower_monotone_witness :
    WellFormed ex_skew ex_pair_tree ∧ 0 ∈ ex_pair_tree.ids ∧ Fits 3 ∧ 3 < prio ex_skew 0 ∧
    prio ex_skew 0 ≤ eff ex_skew 0 ∧
    ∃ s1, oom_priority_write 6 ex_skew 0 3 = some (0, s1) ∧
      eff s1 0 ≤ eff ex_skew 0 ∧
      ∀ a, 0 ∈ ex_pair_tree.descendants a → eff s1 a ≤ eff ex_skew a :=
  ⟨by decide, by decide, by decide, by decide, by decide,
    priority_lower_monotone ex_skew ex_pair_tree 0 3 6 (by decide) (by decide) (by decide)
      (by decide) (by decide) (by decide)⟩



/-- The parent of a cgroup outside the subtree of `cgrp` is outside it too. -/
theorem parent_outside {t : Forest} {cgrp n q : Nat} (hnd : t.ids.Nodup) (hn : n ∈ t.ids)
    (h1 : n ≠ cgrp) (h2 : n ∉ (t.kidsOf cgrp).ids) (hq : t.parentOf n none = some q) :
    q ≠ cgrp ∧ q ∉ (t.kidsOf cgrp).ids := by
  have hm : n ∈ (t.kidsOf q).ids := by
    rcases mem_kidsOf_parentOf t none n q hnd hn hq with h | h
    · exact absurd h (by simp)
    · exact h
  constructor
  · intro e; subst e; exact h2 hm
  · intro hqk; exact h2 (kidsOf_ids_trans hnd hqk hm)

/-- The parent of a strict descendant of `cgrp` is `cgrp` or a strict
descendant of `cgrp`. -/
theorem parent_inside {t : Forest} {cgrp n : Nat} (hnd : t.ids.Nodup) (hc : cgrp ∈ t.ids)
    (hn : n ∈ (t.kidsOf cgrp).ids) :
    ∃ q, t.parentOf n none = some q ∧ (q = cgrp ∨ q ∈ (t.kidsOf cgrp).ids) := by
  obtain ⟨q, hq⟩ := parentOf_isSome (t.kidsOf cgrp) cgrp n hn
  refine ⟨q, by rw [(kidsOf_kidsOf t none cgrp n hnd hc hn).2]; exact hq, ?_⟩
  rcases parentOf_mem _ _ n q hq with h | h
  · simp only [Option.some.injEq] at h; exact Or.inl h.symm
  · exact Or.inr h

theorem prio_set_priority (s : State) {t : Forest} {cgrp : Nat} (val m : Nat)
    (hw : WellFormed s t) (hc : cgrp ∈ t.ids) :
    prio (set_priority s cgrp val) m =
      if m = cgrp then atomic_read (atomic_set val) else prio s m := by
  obtain ⟨ns, hl⟩ := links_mem hw hc
  by_cases h : m = cgrp
  · subst h; rw [if_pos rfl, prio_set_priority_self val (links_ne_none hl)]
  · rw [if_neg h, prio_set_priority_ne s val h]

/-- The invariant after a write, from what the write does at `cgrp` and below
it: outside the subtree nothing that the invariant reads has changed. -/
theorem invariant_of_write {s s1 : State} {t : Forest} {cgrp val : Nat}
    (hw : WellFormed s t) (hi : Invariant s t) (hc : cgrp ∈ t.ids) (hv : Fits val)
    (H0 : s1.links = s.links)
    (H1 : ∀ m, prio s1 m = prio (set_priority s cgrp val) m)
    (H2 : ∀ m, m ≠ cgrp → m ∉ (t.kidsOf cgrp).ids → eff s1 m = eff s m)
    (Hc : match t.parentOf cgrp none with
      | none => eff s1 cgrp = val
      | some p => eff s1 cgrp = max val (eff s p))
    (Hk : ∀ n ∈ (t.kidsOf cgrp).ids, InvAt s1 n) : Invariant s1 t := by
  have hw1 : WellFormed s1 t := wellFormed_congr H0 hw
  have hnk : cgrp ∉ (t.kidsOf cgrp).ids := not_mem_kidsOf_self t hw.2
  intro n hn
  by_cases hnc : n = cgrp
  · subst hnc
    rw [invAt_iff hw1 hn]
    rw [H1, prio_set_priority s val n hw hn, if_pos rfl, hv]
    cases hp : t.parentOf n none with
    | none => rw [hp] at Hc; exact Hc
    | some p =>
      rw [hp] at Hc
      simp only at Hc ⊢
      have hpn : n ∈ (t.kidsOf p).ids := by
        rcases mem_kidsOf_parentOf t none n p hw.2 hn hp with h | h
        · exact absurd h (by simp)
        · exact h
      obtain ⟨h1, h2⟩ := ancestor_not_below hw.2 hpn
      rw [Hc, H2 p h1 h2]
  · by_cases hnd : n ∈ (t.kidsOf cgrp).ids
    · exact Hk n hnd
    · have old := (invAt_iff hw hn).1 (hi n hn)
      rw [invAt_iff hw1 hn]
      rw [H1, prio_set_priority s val n hw hc, if_neg hnc, H2 n hnc hnd]
      cases hp : t.parentOf n none with
      | none => rw [hp] at old; exact old
      | some q =>
        rw [hp] at old
        simp only at old ⊢
        obtain ⟨h1, h2⟩ := parent_outside hw.2 hn hnc hnd hp
        rw [H2 q h1 h2]
        exact old



/-- The recursive description of the write keeps the invariant when the
written value fits. -/
theorem invariant_priority_write_forest {s : State} {t : Forest} {cgrp val : Nat}
    (hw : WellFormed s t) (hi : Invariant s t) (hc : cgrp ∈ t.ids) (hv : Fits val) :
    Invariant (priority_write_forest t s cgrp val) t := by
  have hnk : cgrp ∉ (t.kidsOf cgrp).ids := not_mem_kidsOf_self t hw.2
  have hw1 : WellFormed (priority_write_forest t s cgrp val) t :=
    wellFormed_congr (links_priority_write_forest t s cgrp val) hw
  have oldc := (invAt_iff hw hc).1 (hi cgrp hc)
  have H1 : ∀ m, prio (priority_write_forest t s cgrp val) m =
      prio (set_priority s cgrp val) m :=
    fun m => prio_congr (priority_read_priority_write_forest t s cgrp val m)
  have H2 : ∀ m, m ≠ cgrp → m ∉ (t.kidsOf cgrp).ids →
      eff (priority_write_forest t s cgrp val) m = eff s m :=
    fun m h1 h2 => eff_congr (cgroups_priority_write_forest t s cgrp val h1 h2)
  refine invariant_of_write hw hi hc hv (links_priority_write_forest t s cgrp val) H1 H2 ?_ ?_
  · -- the cgroup written to
    by_cases h1 : val > eff s cgrp
    · rw [(eff_priority_write_raise hw hc hv h1).1]
      cases hp : t.parentOf cgrp none with
      | none => rfl
      | some p =>
        rw [hp] at oldc
        simp only at oldc ⊢
        omega
    · unfold priority_write_forest
      simp only [if_neg h1]
      by_cases h2 : eff s cgrp = prio s cgrp ∧ val < eff s cgrp
      · simp only [if_pos h2]
        cases hp : t.parentOf cgrp none with
        | none =>
          simp only
          rw [eff_decrease_start_self val val hw hc]; exact hv
        | some p =>
          simp only
          by_cases h3 : eff s p < eff s cgrp
          · simp only [if_pos h3]
            rw [eff_decrease_start_self val _ hw hc]
            split
            · rw [hv]; omega
            · rw [fits_eff]; omega
          · simp only [if_neg h3]
            rw [hp] at oldc
            simp only at oldc
            rw [eff_set_priority]; omega
      · simp only [if_neg h2]
        rw [eff_set_priority]
        cases hp : t.parentOf cgrp none with
        | none =>
          rw [hp] at oldc
          simp only at oldc ⊢
          omega
        | some p =>
          rw [hp] at oldc
          simp only at oldc ⊢
          omega
  · -- the strict descendants
    intro n hn
    have hnt : n ∈ t.ids := kidsOf_ids_subset t n hn
    have hne : n ≠ cgrp := fun e => hnk (e ▸ hn)
    have oldn := (invAt_iff hw hnt).1 (hi n hnt)
    obtain ⟨q, hq, hqc⟩ := parent_inside hw.2 hc hn
    rw [hq] at oldn
    simp only at oldn
    have unchanged : InvAt (set_priority s cgrp val) n := by
      rw [invAt_iff (wellFormed_congr (links_set_priority _ _ _) hw) hnt, hq]
      simp only
      rw [eff_set_priority, eff_set_priority, prio_set_priority_ne s val hne]
      exact oldn
    by_cases h1 : val > eff s cgrp
    · obtain ⟨e1, e2⟩ := eff_priority_write_raise hw hc hv h1
      rw [invAt_iff hw1 hnt, hq]
      simp only
      rw [e2 n hn, H1, prio_set_priority_ne s val hne]
      rcases hqc with hqc | hqc
      · subst hqc
        rw [e1]; omega
      · rw [e2 q hqc]; omega
    · unfold priority_write_forest
      simp only [if_neg h1]
      have hdec : ∀ fl, Fits fl →
          InvAt (decrease_forest (set_effective_priority (set_priority s cgrp val) cgrp fl)
            cgrp fl (t.kidsOf cgrp)) n := by
        intro fl hfl
        have hwB : WellFormed (set_effective_priority (set_priority s cgrp val) cgrp fl) t :=
          wellFormed_congr (by rw [links_set_effective_priority, links_set_priority]) hw
        have := invAt_decrease_forest hwB hc n hn
        rw [eff_start_self val fl hw hc, hfl] at this
        exact this
      split
      · split
        · exact hdec val hv
        · split
          · apply hdec
            split
            · exact hv
            · exact fits_eff _ _
          · exact unchanged
      · exact unchanged



/-! ## Creation keeps the hierarchy well formed and consistent -/

theorem head_insert (p c : Nat) (f : Forest) : (f.insert p c).head = f.head := by
  cases f with
  | nil => rfl
  | cons id kids rest =>
    simp only [Forest.insert]
    split <;> rfl

theorem mem_insert (p c n : Nat) (f : Forest) :
    n ∈ (f.insert p c).ids ↔ n ∈ f.ids ∨ (n = c ∧ p ∈ f.ids) := by
  induction f with
  | nil => simp [Forest.insert, Forest.ids]
  | cons id kids rest ihk ihr =>
    simp only [Forest.insert]
    by_cases e : id = p
    · subst e
      simp only [if_true, Forest.ids, List.mem_cons, List.mem_append, List.nil_append,
        true_or, and_true]
      tauto
    · simp only [if_neg e, Forest.ids, List.mem_cons, List.mem_append, ihk, ihr]
      have e1 : ¬ p = id := fun h => e h.symm
      simp only [e1, false_or]
      tauto

theorem insert_of_not_mem (p c : Nat) (f : Forest) (h : p ∉ f.ids) : f.insert p c = f := by
  induction f with
  | nil => rfl
  | cons id kids rest ihk ihr =>
    simp only [Forest.ids, List.mem_cons, List.mem_append, not_or] at h
    have e : ¬ id = p := fun e => h.1 e.symm
    simp only [Forest.insert, if_neg e, ihk h.2.1, ihr h.2.2]

theorem nodup_forest_cons {id : Nat} {kids rest : Forest}
    (h1 : id ∉ kids.ids) (h2 : id ∉ rest.ids) (hk : kids.ids.Nodup) (hr : rest.ids.Nodup)
    (hd : ∀ n, n ∈ kids.ids → n ∉ rest.ids) : (Forest.cons id kids rest).ids.Nodup := by
  simp only [Forest.ids, List.nodup_cons, List.mem_append, not_or, List.nodup_append]
  exact ⟨⟨h1, h2⟩, hk, hr, fun {a} ha har => hd a ha har⟩

theorem nodup_insert (p c : Nat) (f : Forest) (hnd : f.ids.Nodup) (hc : c ∉ f.ids) :
    (f.insert p c).ids.Nodup := by
  induction f with
  | nil => simp [Forest.insert, Forest.ids]
  | cons id kids rest ihk ihr =>
    obtain ⟨h1, h2, hk, hr, hd⟩ := nodup_cons_forest hnd
    simp only [Forest.ids, List.mem_cons, List.mem_append, not_or] at hc
    obtain ⟨hc0, hc1, hc2⟩ := hc
    simp only [Forest.insert]
    by_cases e : id = p
    · simp only [if_pos e]
      refine nodup_forest_cons ?_ h2 ?_ hr ?_
      · simp only [Forest.ids, List.nil_append, List.mem_cons, not_or]
        exact ⟨fun h => hc0 h.symm, h1⟩
      · exact nodup_forest_cons (by simp [Forest.ids]) hc1 (by simp [Forest.ids]) hk
          (by simp [Forest.ids])
      · intro a ha
        simp only [Forest.ids, List.nil_append, List.mem_cons] at ha
        rcases ha with ha | ha
        · rw [ha]; exact hc2
        · exact hd a ha
    · simp only [if_neg e]
      refine nodup_forest_cons ?_ ?_ (ihk hk hc1) (ihr hr hc2) ?_
      · rw [mem_insert]
        rintro (h | ⟨h, -⟩)
        · exact h1 h
        · exact hc0 h.symm
      · rw [mem_insert]
        rintro (h | ⟨h, -⟩)
        · exact h2 h
        · exact hc0 h.symm
      · intro a ha har
        rw [mem_insert] at ha har
        rcases ha with ha | ⟨ha, hpk⟩
        · rcases har with har | ⟨har, -⟩
          · exact hd a ha har
          · exact hc1 (har ▸ ha)
        · rcases har with har | ⟨-, hpr⟩
          · exact hc2 (ha ▸ har)
          · exact hd p hpk hpr

theorem shape_congr_on {s s1 : State} (f : Forest) :
    ∀ top : Option Nat, (∀ n ∈ f.ids, s1.links n = s.links n) → Shape s top f →
      Shape s1 top f := by
  induction f with
  | nil => intro top _ _; trivial
  | cons id kids rest ihk ihr =>
    intro top h hs
    obtain ⟨hl, hsk, hsr⟩ := hs
    refine ⟨?_, ihk _ (fun n hn => h n ?_) hsk, ihr _ (fun n hn => h n ?_) hsr⟩
    · rw [h id (by simp [Forest.ids])]; exact hl
    · simp [Forest.ids, hn]
    · simp [Forest.ids, hn]

/-- Linking a fresh cgroup `c` as first child of `p` gives the hierarchy with
`c` inserted. -/
theorem shape_insert {s s1 : State} {p c : Nat}
    (hc1 : ∀ par fc ns, s.links p = some (par, fc, ns) →
      s1.links c = some (some p, none, fc) ∧ s1.links p = some (par, some c, ns))
    (ho : ∀ i, i ≠ c → i ≠ p → s1.links i = s.links i) (f : Forest) :
    ∀ top : Option Nat, Shape s top f → f.ids.Nodup → c ∉ f.ids →
      Shape s1 top (f.insert p c) := by
  induction f with
  | nil => intro top _ _ _; trivial
  | cons id kids rest ihk ihr =>
    intro top hs hnd hc
    obtain ⟨hl, hsk, hsr⟩ := hs
    obtain ⟨h1, h2, hk, hr, hd⟩ := nodup_cons_forest hnd
    simp only [Forest.ids, List.mem_cons, List.mem_append, not_or] at hc
    obtain ⟨hc0, hck, hcr⟩ := hc
    simp only [Forest.insert]
    by_cases e : id = p
    · subst e
      simp only [if_true]
      obtain ⟨hlc, hlp⟩ := hc1 _ _ _ hl
      have hkeep : ∀ g : Forest, id ∉ g.ids → c ∉ g.ids → ∀ top, Shape s top g →
          Shape s1 top g := by
        intro g hg1 hg2 top hsg
        refine shape_congr_on g top (fun n hn => ho n ?_ ?_) hsg
        · intro e; exact hg2 (e ▸ hn)
        · intro e; exact hg1 (e ▸ hn)
      exact ⟨hlp, ⟨hlc, trivial, hkeep kids h1 hck _ hsk⟩, hkeep rest h2 hcr _ hsr⟩
    · simp only [if_neg e]
      refine ⟨?_, ihk _ hsk hk hck, ihr _ hsr hr hcr⟩
      rw [ho id (fun h => hc0 h.symm) e, head_insert, head_insert]
      exact hl

theorem links_link_child (s : State) (c p : Nat) (gp : cgroup) (css : oom_cgroup) (i : Nat) :
    (link_child s c p gp css).links i =
      if i = c then some (some p, none, gp.first_child)
      else if i = p then some (gp.parent, some c, gp.next_sibling)
      else s.links i := by
  unfold link_child State.links
  simp only
  split
  · rfl
  · split <;> rfl

/-- The new cgroup copies its parent, so the invariant carries over. -/
theorem invAt_link_child {s : State} {c p : Nat} {gp : cgroup}
    (hc : s.cgroups c = none) (hp : s.cgroups p = some gp) (hip : InvAt s p) (n : Nat)
    (hn : n = c ∨ InvAt s n) :
    InvAt (link_child s c p gp
      ⟨atomic_set (atomic_read gp.css.priority),
        atomic_set (atomic_read gp.css.effective_priority)⟩) n := by
  have hpc : p ≠ c := by intro e; rw [e, hc] at hp; exact absurd hp (by simp)
  have hle : atomic_read gp.css.priority ≤ atomic_read gp.css.effective_priority := by
    unfold InvAt at hip
    simp only [hp] at hip
    split at hip
    · omega
    · split at hip
      · exact absurd hip id
      · omega
  by_cases hnc : n = c
  · subst hnc
    unfold InvAt link_child
    simp only [if_true, if_neg hpc, atomic_set_read]
    omega
  · have hin : InvAt s n := by
      rcases hn with h | h
      · exact absurd h hnc
      · exact h
    unfold InvAt at hin
    unfold InvAt link_child
    simp only [if_neg hnc]
    by_cases hnp : n = p
    · subst hnp
      simp only [if_true]
      simp only [hp] at hin
      cases hpar : gp.parent with
      | none => rw [hpar] at hin; exact hin
      | some q =>
        rw [hpar] at hin
        simp only at hin ⊢
        by_cases hqc : q = c
        · rw [hqc, hc] at hin; exact absurd hin id
        · simp only [if_neg hqc]
          by_cases hqn : q = n
          · simp only [if_pos hqn]
            rw [hqn, hp] at hin
            exact hin
          · simp only [if_neg hqn]
            exact hin
    · simp only [if_neg hnp]
      cases hg : s.cgroups n with
      | none => rw [hg] at hin; exact absurd hin id
      | some g =>
        rw [hg] at hin
        simp only at hin ⊢
        cases hpar : g.parent with
        | none => rw [hpar] at hin; exact hin
        | some q =>
          rw [hpar] at hin
          simp only at hin ⊢
          by_cases hqc : q = c
          · rw [hqc, hc] at hin; exact absurd hin id
          · simp only [if_neg hqc]
            by_cases hqp : q = p
            · simp only [if_pos hqp]
              rw [hqp, hp] at hin
              exact hin
            · simp only [if_neg hqp]
              exact hin



/-- What a successful creation of a child does. -/
theorem cgroup_create_child {s s1 : State} {c p : Nat}
    (h : cgroup_create true s c (some p) = some (0, s1)) :
    s.cgroups c = none ∧ ∃ gp, s.cgroups p = some gp ∧
      s1 = link_child s c p gp
        ⟨atomic_set (atomic_read gp.css.priority),
          atomic_set (atomic_read gp.css.effective_priority)⟩ := by
  unfold cgroup_create oom_create at h
  cases hc : s.cgroups c with
  | some g => rw [hc] at h; exact absurd h (by simp)
  | none =>
    rw [hc] at h
    simp only [Bool.true_eq_false, if_false] at h
    cases hp : s.cgroups p with
    | none => rw [hp] at h; simp at h
    | some gp =>
      rw [hp] at h
      simp only [hp, Option.some.injEq, Prod.mk.injEq, true_and] at h
      exact ⟨rfl, gp, rfl, h.symm⟩

/-- A creation whose allocation fails leaves the memory as it was. -/
theorem cgroup_create_failed {s s1 : State} {c : Nat} {parent : Option Nat} {e : Int}
    (h : cgroup_create false s c parent = some (e, s1)) : e = -ENOMEM ∧ s1 = s := by
  unfold cgroup_create oom_create at h
  cases hc : s.cgroups c with
  | some g => rw [hc] at h; exact absurd h (by simp)
  | none =>
    rw [hc] at h
    simp only [if_true, Option.some.injEq, Prod.mk.injEq] at h
    exact ⟨h.1.symm, h.2.symm⟩

theorem wellFormed_link_child {s : State} {t : Forest} {c p : Nat} {gp : cgroup}
    (css : oom_cgroup) (hw : WellFormed s t) (hc : s.cgroups c = none)
    (hp : s.cgroups p = some gp) :
    WellFormed (link_child s c p gp css) (t.insert p c) := by
  have hpc : p ≠ c := by intro e; rw [e, hc] at hp; exact absurd hp (by simp)
  have hct : c ∉ t.ids := by
    intro h
    obtain ⟨g, hg, -⟩ := cgroups_mem hw h
    rw [hc] at hg; exact absurd hg (by simp)
  refine ⟨shape_insert ?_ ?_ t none hw.1 hw.2 hct, nodup_insert p c t hw.2 hct⟩
  · intro par fc ns hl
    obtain ⟨g, hg, h1, h2, h3⟩ := links_some hl
    rw [hp] at hg
    simp only [Option.some.injEq] at hg
    subst hg
    rw [links_link_child, links_link_child, if_pos rfl, if_neg hpc, if_pos rfl, h1, h2, h3]
    exact ⟨rfl, rfl⟩
  · intro i h1 h2
    rw [links_link_child, if_neg h1, if_neg h2]

/-- Every reachable state is a well-formed hierarchy that satisfies the
invariant. -/
theorem reachable_invariant {s : State} {t : Forest} (h : Reachable s t) :
    WellFormed s t ∧ Invariant s t := by
  induction h with
  | root flag r s h =>
    unfold cgroup_create oom_create State.empty at h
    simp only [Bool.true_eq_false, if_false, Option.some.injEq, Prod.mk.injEq, true_and] at h
    subst h
    refine ⟨⟨⟨?_, trivial, trivial⟩, by simp [Forest.ids]⟩, ?_⟩
    · simp [State.links, Forest.head]
    · intro n hn
      simp only [Forest.ids, List.append_nil, List.mem_singleton] at hn
      subst hn
      simp [InvAt]
  | create s t p c s1 _ hp h ih =>
    obtain ⟨hw, hi⟩ := ih
    obtain ⟨hc, gp, hgp, rfl⟩ := cgroup_create_child h
    refine ⟨wellFormed_link_child _ hw hc hgp, ?_⟩
    intro n hn
    rw [mem_insert] at hn
    refine invAt_link_child hc hgp (hi p hp) n ?_
    rcases hn with hn | ⟨hn, -⟩
    · exact Or.inr (hi n hn)
    · exact Or.inl hn
  | create_failed s t p c e s1 _ _ h ih =>
    rw [(cgroup_create_failed h).2]
    exact ih
  | write s t n v fuel r s1 _ hn hv hf h ih =>
    obtain ⟨hw, hi⟩ := ih
    rw [oom_priority_write_eq v hw hn hf] at h
    simp only [Option.some.injEq, Prod.mk.injEq] at h
    rw [← h.2]
    exact ⟨wellFormed_congr (links_priority_write_forest t s n v) hw,
      invariant_priority_write_forest hw hi hn hv⟩

/-- Under the invariant the effective priority is the maximum of the
priorities on the path from the root: the general statement for a forest
whose roots hang below a cgroup of effective priority `E`. -/
theorem eff_eq_path_max (s : State) (f : Forest) :
    ∀ (top : Option Nat) (E : Nat), f.ids.Nodup →
      (∀ n ∈ f.ids, match f.parentOf n top with
        | none => eff s n = prio s n
        | some q => eff s n = max (prio s n) (eff s q)) →
      (match top with
        | none => E = 0
        | some p => eff s p = E) →
      ∀ n ∈ f.ids, eff s n = max E (((f.path n).map (prio s)).foldr max 0) := by
  induction f with
  | nil => intro top E _ _ _ n hn; simp [Forest.ids] at hn
  | cons id kids rest ihk ihr =>
    intro top E hnd hinv hE n hn
    obtain ⟨h1, h2, hk, hr, hd⟩ := nodup_cons_forest hnd
    have hid : eff s id = max E (prio s id) := by
      have := hinv id (by simp [Forest.ids])
      simp only [Forest.parentOf, if_true] at this
      cases top with
      | none => simp only at this hE; omega
      | some p => simp only at this hE; omega
    simp only [Forest.ids, List.mem_cons, List.mem_append] at hn
    by_cases e : id = n
    · subst e
      simp only [Forest.path, if_true, List.map_cons, List.map_nil, List.foldr_cons,
        List.foldr_nil]
      omega
    · rcases hn with hn | hn | hn
      · exact absurd hn.symm e
      · simp only [Forest.path, if_neg e, if_pos hn, List.map_cons, List.foldr_cons]
        have := ihk (some id) (eff s id) hk (fun m hm => by
          have hme : ¬ id = m := fun e => h1 (e ▸ hm)
          have := hinv m (by simp [Forest.ids, hm])
          simp only [Forest.parentOf, if_neg hme, if_pos hm] at this
          exact this) rfl n hn
        omega
      · have hnk : n ∉ kids.ids := fun h => hd n h hn
        simp only [Forest.path, if_neg e, if_neg hnk]
        exact ihr top E hr (fun m hm => by
          have hme : ¬ id = m := fun e => h2 (e ▸ hm)
          have hmk : m ∉ kids.ids := fun h => hd m h hm
          have := hinv m (by simp [Forest.ids, hm])
          simp only [Forest.parentOf, if_neg hme, if_neg hmk] at this
          exact this) hE n hn



/-! ## The invariant -/

/-- C1: the write does not keep the invariant for every value. `ex_pair`
satisfies the invariant, and after writing `2^32` to its root the child has
priority `1` but effective priority `0`, below its own priority, with the root
at effective priority `0`: the stores keep the low 32 bits of `val` while the
comparisons use all 64. -/
theorem oom_priority_write_invariant_counterexample :
    WellFormed ex_pair ex_pair_tree ∧ Invariant ex_pair ex_pair_tree ∧
    (oom_priority_write 6 ex_pair 0 4294967296).map
        (fun r => (decide (Invariant r.2 ex_pair_tree), oom_priority_read r.2 1,
          oom_effective_priority_read r.2 1, oom_effective_priority_read r.2 0)) =
      some (false, some 1, some 0, some 0) := by
  decide

/-- The part of C1 that the code meets: for every well-formed hierarchy that
satisfies the invariant, every cgroup `cgrp` and every value `val` that fits a
32-bit `int` (below `2^31` or at least `2^64 - 2^31`),
`oom_priority_write(cgrp, val)` returns `0` and the state afterwards is the
same hierarchy and satisfies the invariant at all cgroups. -/
theorem oom_priority_write_invariant (s : State) (t : Forest) (cgrp val fuel : Nat)
    (hw : WellFormed s t) (hi : Invariant s t) (hc : cgrp ∈ t.ids)
    (hf : 2 * t.size + 2 ≤ fuel) (hv : Fits val) :
    ∃ s1, oom_priority_write fuel s cgrp val = some (0, s1) ∧
      WellFormed s1 t ∧ Invariant s1 t :=
  ⟨_, oom_priority_write_eq val hw hc hf,
    wellFormed_congr (links_priority_write_forest t s cgrp val) hw,
    invariant_priority_write_forest hw hi hc hv⟩

theorem oom_priority_write_invariant_witness :
    WellFormed ex_chain ex_chain_tree ∧ Invariant ex_chain ex_chain_tree ∧
    1 ∈ ex_chain_tree.ids ∧ Fits 5 ∧
    ∃ s1, oom_priority_write 8 ex_chain 1 5 = some (0, s1) ∧
      WellFormed s1 ex_chain_tree ∧ Invariant s1 ex_chain_tree :=
  ⟨by decide, by decide, by decide, by decide,
    oom_priority_write_invariant ex_chain ex_chain_tree 1 5 8 (by decide) (by decide)
      (by decide) (by decide) (by decide)⟩

/-- C2: a reachable state in which the effective priority is not the maximum
along the path. Create the root `0`, create the child `1` under it and write
`2^32` to the root. In the state reached the child has priority `1` and
effective priority `0`: below its own priority, and not the maximum `1` of the
priorities on its path. -/
theorem reachable_effective_priority_counterexample :
    cgroup_create true (State.empty (atomic_set 0)) 0 none = some (0, ex_made_root) ∧
    cgroup_create true ex_made_root 1 (some 0) = some (0, ex_made_pair) ∧
    oom_priority_write 6 ex_made_pair 0 4294967296 = some (0, ex_made_wrapped) ∧
    WellFormed ex_made_wrapped ex_pair_tree ∧
    oom_priority_read ex_made_wrapped 1 = some 1 ∧
    oom_effective_priority_read ex_made_wrapped 1 = some 0 ∧
    pathMax ex_made_wrapped ex_pair_tree 1 = 1 :=
  ⟨rfl, rfl, rfl, by decide, by decide, by decide, by decide⟩

/-- The part of C2 that the code meets: in every state reachable from the
creation of the root by creating groups and by priority writes of values that
fit a 32-bit `int`, the
cgroups form a well-formed hierarchy in which the effective priority of each
cgroup is the maximum of the priorities along the path from the root to it; in
particular it is at least its own priority and at least the effective priority
of its parent. -/
theorem reachable_effective_priority (s : State) (t : Forest) (n : Nat)
    (h : Reachable s t) (hn : n ∈ t.ids) :
    WellFormed s t ∧
      oom_effective_priority_read s n = some (pathMax s t n) ∧
      prio s n ≤ eff s n ∧
      ∀ g p, s.cgroups n = some g → g.parent = some p → eff s p ≤ eff s n := by
  obtain ⟨hw, hi⟩ := reachable_invariant h
  have hinv : ∀ m ∈ t.ids, match t.parentOf m none with
      | none => eff s m = prio s m
      | some q => eff s m = max (prio s m) (eff s q) :=
    fun m hm => (invAt_iff hw hm).1 (hi m hm)
  have hpath := eff_eq_path_max s t none 0 hw.2 hinv rfl n hn
  have hnn := hinv n hn
  refine ⟨hw, ?_, ?_, ?_⟩
  · rw [effective_read_mem hw hn, hpath]
    unfold pathMax
    rw [Nat.zero_max]
  · cases hp : t.parentOf n none with
    | none => rw [hp] at hnn; simp only at hnn; omega
    | some q => rw [hp] at hnn; simp only at hnn; omega
  · intro g p hg hpar
    obtain ⟨g1, hg1, hpar1⟩ := cgroups_mem hw hn
    rw [hg] at hg1
    simp only [Option.some.injEq] at hg1
    subst hg1
    rw [hpar] at hpar1
    rw [← hpar1] at hnn
    simp only at hnn
    omega

theorem reachable_effective_priority_witness :
    Reachable ex_made ex_pair_tree ∧ 1 ∈ ex_pair_tree.ids ∧
    (WellFormed ex_made ex_pair_tree ∧
      oom_effective_priority_read ex_made 1 = some (pathMax ex_made ex_pair_tree 1) ∧
      prio ex_made 1 ≤ eff ex_made 1 ∧
      ∀ g p, ex_made.cgroups 1 = some g → g.parent = some p → eff ex_made p ≤ eff ex_made 1) :=
  have hr : Reachable ex_made ex_pair_tree :=
    Reachable.write ex_made_pair ex_pair_tree 1 5 6 0 ex_made
      (Reachable.create ex_made_root (.cons 0 .nil .nil) 0 1 ex_made_pair
        (Reachable.root (atomic_set 0) 0 ex_made_root rfl) (by decide) rfl)
      (by decide) (by decide) (by decide) rfl
  ⟨hr, by decide, reachable_effective_priority ex_made ex_pair_tree 1 hr (by decide)⟩



/-! ## Creation and destruction of groups -/

/-- C11: creating the root (`oom_create` for a group without parent, the
allocation succeeding) gives an oom state with priority `1` and effective
priority `1` and clears the flag `honour_cpuset_constraint`, whatever it was
before; no existing cgroup changes. Linked into fresh memory `cont`, the new
group reads priority `1`, effective priority `1`, and the flag reads `0`. -/
theorem oom_create_root (s : State) (cont : Nat) (hc : s.cgroups cont = none) :
    (∃ css s1, oom_create true s none = some (.ok css, s1) ∧
      atomic_read css.priority = 1 ∧ atomic_read css.effective_priority = 1 ∧
      atomic_read s1.honour_cpuset_constraint = 0 ∧ s1.cgroups = s.cgroups) ∧
    ∃ s2, cgroup_create true s cont none = some (0, s2) ∧
      oom_priority_read s2 cont = some 1 ∧ oom_effective_priority_read s2 cont = some 1 ∧
      oom_cpuset_read s2 cont = 0 := by
  constructor
  · exact ⟨_, _, rfl, by decide, by decide, rfl, rfl⟩
  · unfold cgroup_create oom_create
    simp only [hc, Bool.true_eq_false, if_false]
    refine ⟨_, rfl, ?_, ?_, ?_⟩
    · simp only [oom_priority_read, oom_css_from_cgroup, if_true, Option.map_some']
      decide
    · simp only [oom_effective_priority_read, oom_css_from_cgroup, if_true, Option.map_some']
      decide
    · simp only [oom_cpuset_read]
      decide

theorem oom_create_root_witness :
    (State.empty (atomic_set 1)).cgroups 0 = none ∧
    ((∃ css s1, oom_create true (State.empty (atomic_set 1)) none = some (.ok css, s1) ∧
      atomic_read css.priority = 1 ∧ atomic_read css.effective_priority = 1 ∧
      atomic_read s1.honour_cpuset_constraint = 0 ∧
      s1.cgroups = (State.empty (atomic_set 1)).cgroups) ∧
    ∃ s2, cgroup_create true (State.empty (atomic_set 1)) 0 none = some (0, s2) ∧
      oom_priority_read s2 0 = some 1 ∧ oom_effective_priority_read s2 0 = some 1 ∧
      oom_cpuset_read s2 0 = 0) :=
  ⟨rfl, oom_create_root (State.empty (atomic_set 1)) 0 rfl⟩

/-- C12: creating a group under an existing parent `p` (`oom_create`, the
allocation succeeding) gives an oom state whose priority and effective
priority are those of `p` at that instant and leaves the memory as it was.
Linked into fresh memory `cont`, the new group reads the priority and the
effective priority of `p`, while the priority and the effective priority of
every other cgroup, `p` included, and the flag are unchanged. -/
theorem oom_create_child (s : State) (cont p : Nat) (gp : cgroup)
    (hc : s.cgroups cont = none) (hp : s.cgroups p = some gp) :
    oom_create true s (some p) = some (.ok gp.css, s) ∧
    ∃ s1, cgroup_create true s cont (some p) = some (0, s1) ∧
      oom_priority_read s1 cont = oom_priority_read s p ∧
      oom_effective_priority_read s1 cont = oom_effective_priority_read s p ∧
      (∀ n, n ≠ cont → oom_priority_read s1 n = oom_priority_read s n) ∧
      (∀ n, n ≠ cont →
        oom_effective_priority_read s1 n = oom_effective_priority_read s n) ∧
      s1.honour_cpuset_constraint = s.honour_cpuset_constraint := by
  have hpc : p ≠ cont := by intro e; rw [e, hc] at hp; exact absurd hp (by simp)
  have hcreate : oom_create true s (some p) = some (.ok gp.css, s) := by
    unfold oom_create
    simp only [Bool.true_eq_false, if_false, hp, atomic_set_read]
  refine ⟨hcreate, ?_⟩
  unfold cgroup_create
  simp only [hc, hcreate, hp]
  refine ⟨_, rfl, ?_, ?_, ?_, ?_, rfl⟩
  · simp [oom_priority_read, oom_css_from_cgroup, link_child, hp]
  · simp [oom_effective_priority_read, oom_css_from_cgroup, link_child, hp]
  · intro n hn
    unfold oom_priority_read oom_css_from_cgroup link_child
    simp only [if_neg hn]
    by_cases h : n = p
    · subst h; simp [hp]
    · simp [h]
  · intro n hn
    unfold oom_effective_priority_read oom_css_from_cgroup link_child
    simp only [if_neg hn]
    by_cases h : n = p
    · subst h; simp [hp]
    · simp [h]

theorem oom_create_child_witness :
    ex_skew.cgroups 2 = none ∧
    ex_skew.cgroups 1 = some (cgroup.make (some 0) none none 5 5) ∧
    (oom_create true ex_skew (some 1) = some (.ok (cgroup.make (some 0) none none 5 5).css,
      ex_skew) ∧
    ∃ s1, cgroup_create true ex_skew 2 (some 1) = some (0, s1) ∧
      oom_priority_read s1 2 = oom_priority_read ex_skew 1 ∧
      oom_effective_priority_read s1 2 = oom_effective_priority_read ex_skew 1 ∧
      (∀ n, n ≠ 2 → oom_priority_read s1 n = oom_priority_read ex_skew n) ∧
      (∀ n, n ≠ 2 →
        oom_effective_priority_read s1 n = oom_effective_priority_read ex_skew n) ∧
      s1.honour_cpuset_constraint = ex_skew.honour_cpuset_constraint) :=
  ⟨rfl, rfl, oom_create_child ex_skew 2 1 (cgroup.make (some 0) none none 5 5) rfl rfl⟩

/-- C20: when the allocation fails, `oom_create` returns the error pointer of
`-ENOMEM` and the memory is unchanged: no priority or effective priority
changes and the flag is not reset, also for the creation of a root (no
parent). -/
theorem oom_create_enomem (s : State) (parent : Option Nat) :
    ∃ s1, oom_create false s parent = some (.error (-ENOMEM), s1) ∧
      (∀ n, oom_priority_read s1 n = oom_priority_read s n) ∧
      (∀ n, oom_effective_priority_read s1 n = oom_effective_priority_read s n) ∧
      s1.cgroups = s.cgroups ∧
      s1.honour_cpuset_constraint = s.honour_cpuset_constraint :=
  ⟨s, by simp [oom_create], fun _ => rfl, fun _ => rfl, rfl, rfl⟩



/-! ## The flag `honour_cpuset_constraint` -/

/-- C13: for every value `val` other than `0` and `1`, `oom_cpuset_write`
returns `-EINVAL` and leaves the memory, the flag included, unchanged. -/
theorem oom_cpuset_write_invalid (s : State) (cgrp val : Nat) (h0 : val ≠ 0) (h1 : val ≠ 1) :
    oom_cpuset_write s cgrp val = (-EINVAL, s) ∧
      oom_cpuset_read (oom_cpuset_write s cgrp val).2 cgrp = oom_cpuset_read s cgrp := by
  have h : val > 1 := by omega
  have e : oom_cpuset_write s cgrp val = (-EINVAL, s) := by
    unfold oom_cpuset_write; rw [if_pos h]
  exact ⟨e, by rw [e]⟩

theorem oom_cpuset_write_invalid_witness :
    (2 : Nat) ≠ 0 ∧ (2 : Nat) ≠ 1 ∧
    (oom_cpuset_write ex_pair 0 2 = (-EINVAL, ex_pair) ∧
      oom_cpuset_read (oom_cpuset_write ex_pair 0 2).2 0 = oom_cpuset_read ex_pair 0) :=
  ⟨by decide, by decide, oom_cpuset_write_invalid ex_pair 0 2 (by decide) (by decide)⟩

/-- C14: for `val` equal to `0` or `1`, `oom_cpuset_write` on the root (on any
cgroup) returns `0` and `oom_cpuset_read` then returns `val`. -/
theorem oom_cpuset_write_read (s : State) (cgrp val : Nat) (h : val = 0 ∨ val = 1) :
    (oom_cpuset_write s cgrp val).1 = 0 ∧
      oom_cpuset_read (oom_cpuset_write s cgrp val).2 cgrp = val := by
  have hv : ¬ val > 1 := by omega
  unfold oom_cpuset_write oom_cpuset_read
  rw [if_neg hv]
  refine ⟨rfl, ?_⟩
  rcases h with h | h <;> subst h <;> rfl

theorem oom_cpuset_write_read_witness :
    ((1 : Nat) = 0 ∨ (1 : Nat) = 1) ∧
    ((oom_cpuset_write ex_pair 0 1).1 = 0 ∧
      oom_cpuset_read (oom_cpuset_write ex_pair 0 1).2 0 = 1) :=
  ⟨by decide, oom_cpuset_write_read ex_pair 0 1 (by decide)⟩

/-- C15: a write to `cpuset_constraint` attempted on a cgroup that is not the
root fails with `InvalidOperation` and leaves the memory, the flag included,
unchanged: for a cgroup with a parent `oom_populate` never hands the table
with `cpuset_constraint` to the cgroup core, whatever `cgroup_add_files`
answers, so the node has no such entry. The write is valid on the entry of
the root: when `cgroup_add_files` accepts the tables, the write arrives at
`oom_cpuset_write`. -/
theorem write_constraint_root_only (s : State) (root child p : Nat) (gr gc : cgroup)
    (hr : s.cgroups root = some gr) (hrp : gr.parent = none)
    (hcg : s.cgroups child = some gc) (hcp : gc.parent = some p) :
    (∀ cgroup_add_files val,
      write_constraint cgroup_add_files s child val = some (.error .InvalidOperation, s) ∧
      (∀ r s1, write_constraint cgroup_add_files s child val = some (r, s1) →
        oom_cpuset_read s1 child = oom_cpuset_read s child)) ∧
    (∀ cgroup_add_files val, (∀ tb, cgroup_add_files tb = 0) →
      write_constraint cgroup_add_files s root val =
        some (.ok (oom_cpuset_write s root val).1, (oom_cpuset_write s root val).2)) := by
  have hchild : ∀ cgroup_add_files val,
      write_constraint cgroup_add_files s child val = some (.error .InvalidOperation, s) := by
    intro add val
    unfold write_constraint oom_populate
    simp only [hcg, hcp, reduceCtorEq, and_false, if_false]
    rfl
  refine ⟨fun add val => ⟨hchild add val, ?_⟩, ?_⟩
  · intro r s1 h
    rw [hchild add val] at h
    simp only [Option.some.injEq, Prod.mk.injEq] at h
    rw [← h.2]
  · intro add val hadd
    unfold write_constraint oom_populate
    simp only [hr, hrp, hadd, and_self, if_true]
    rfl

theorem write_constraint_root_only_witness :
    ex_pair.cgroups 0 = some (cgroup.make none (some 1) none 1 1) ∧
    (cgroup.make none (some 1) none 1 1).parent = none ∧
    ex_pair.cgroups 1 = some (cgroup.make (some 0) none none 1 1) ∧
    (cgroup.make (some 0) none none 1 1).parent = some 0 ∧
    write_constraint (fun _ => 0) ex_pair 0 1 =
      some (.ok 0, { ex_pair with honour_cpuset_constraint := atomic_set 1 }) ∧
    ((∀ cgroup_add_files val,
      write_constraint cgroup_add_files ex_pair 1 val =
        some (.error .InvalidOperation, ex_pair) ∧
      (∀ r s1, write_constraint cgroup_add_files ex_pair 1 val = some (r, s1) →
        oom_cpuset_read s1 1 = oom_cpuset_read ex_pair 1)) ∧
    (∀ cgroup_add_files val, (∀ tb, cgroup_add_files tb = 0) →
      write_constraint cgroup_add_files ex_pair 0 val =
        some (.ok (oom_cpuset_write ex_pair 0 val).1, (oom_cpuset_write ex_pair 0 val).2))) :=
  ⟨rfl, rfl, rfl, rfl, rfl,
    write_constraint_root_only ex_pair 0 1 0 (cgroup.make none (some 1) none 1 1)
      (cgroup.make (some 0) none none 1 1) rfl rfl rfl rfl⟩

/-- C16: `oom_cpuset_write`, for any value and whether it succeeds or fails,
changes no cgroup: every priority and every effective priority reads as
before. -/
theorem oom_cpuset_write_frame (s : State) (cgrp val : Nat) :
    (oom_cpuset_write s cgrp val).2.cgroups = s.cgroups ∧
      (∀ n, oom_priority_read (oom_cpuset_write s cgrp val).2 n = oom_priority_read s n) ∧
      ∀ n, oom_effective_priority_read (oom_cpuset_write s cgrp val).2 n =
        oom_effective_priority_read s n := by
  have e : (oom_cpuset_write s cgrp val).2.cgroups = s.cgroups := by
    unfold oom_cpuset_write
    split <;> rfl
  refine ⟨e, fun n => ?_, fun n => ?_⟩
  · unfold oom_priority_read oom_css_from_cgroup; rw [e]
  · unfold oom_effective_priority_read oom_css_from_cgroup; rw [e]



/-! ## Results of the write and of the query -/

/-- Whenever `oom_priority_write` returns, it returns `0`. -/
theorem oom_priority_write_ret {fuel : Nat} {s : State} {cgrp val : Nat} {r : Int} {s1 : State}
    (h : oom_priority_write fuel s cgrp val = some (r, s1)) : r = 0 := by
  have hmap : ∀ x : Option State, x.map (fun s2 => ((0 : Int), s2)) = some (r, s1) → r = 0 := by
    intro x hx
    cases x with
    | none => exact absurd hx (by simp)
    | some y =>
      simp only [Option.map_some', Option.some.injEq, Prod.mk.injEq] at hx
      exact hx.1.symm
  have hsome : ∀ y : State, some ((0 : Int), y) = some (r, s1) → r = 0 := by
    intro y hy
    simp only [Option.some.injEq, Prod.mk.injEq] at hy
    exact hy.1.symm
  unfold oom_priority_write at h
  cases hg : s.cgroups cgrp with
  | none => rw [hg] at h; exact Option.noConfusion h
  | some g =>
    rw [hg] at h
    dsimp only at h
    repeat' split at h
    all_goals first
      | exact hmap _ h
      | exact hsome _ h
      | exact Option.noConfusion h

/-- C17: for every cgroup `cgrp` of a well-formed hierarchy and every value
`val`, `oom_priority_write(cgrp, val)` returns, and returns `0`; no run of it
returns anything else. -/
theorem oom_priority_write_succeeds (s : State) (t : Forest) (cgrp val fuel : Nat)
    (hw : WellFormed s t) (hc : cgrp ∈ t.ids) (hf : 2 * t.size + 2 ≤ fuel) :
    (∃ s1, oom_priority_write fuel s cgrp val = some (0, s1)) ∧
      ∀ fuel1 r s1, oom_priority_write fuel1 s cgrp val = some (r, s1) → r = 0 :=
  ⟨⟨_, oom_priority_write_eq val hw hc hf⟩, fun _ _ _ h => oom_priority_write_ret h⟩

theorem oom_priority_write_succeeds_witness :
    WellFormed ex_chain ex_chain_tree ∧ 1 ∈ ex_chain_tree.ids ∧
    ((∃ s1, oom_priority_write 8 ex_chain 1 4294967296 = some (0, s1)) ∧
      ∀ fuel1 r s1, oom_priority_write fuel1 ex_chain 1 4294967296 = some (r, s1) → r = 0) :=
  ⟨by decide, by decide,
    oom_priority_write_succeeds ex_chain ex_chain_tree 1 4294967296 8 (by decide) (by decide)
      (by decide)⟩

/-- C18: after the removal of the cgroup `B`, which runs `oom_destroy(B)`, a
priority write addressed to `B` fails with `NotFound` and changes no state.
The removal itself runs no propagation: every other cgroup keeps its priority
and effective priority, and the flag keeps its value. The `NotFound` comes
from the control surface alone: whenever the handler `oom_priority_write`
returns, on any memory, it returns `0`. -/
theorem write_priority_destroyed (reuse : oom_cgroup) (s : State) (B : Nat) :
    (∀ fuel val,
      write_priority fuel (destroy_node reuse s B) B val =
        some (.error .NotFound, destroy_node reuse s B)) ∧
    (∀ n, n ≠ B → oom_priority_read (destroy_node reuse s B) n = oom_priority_read s n) ∧
    (∀ n, n ≠ B → oom_effective_priority_read (destroy_node reuse s B) n =
      oom_effective_priority_read s n) ∧
    (destroy_node reuse s B).honour_cpuset_constraint = s.honour_cpuset_constraint ∧
    ∀ fuel s0 cgrp val r s1, oom_priority_write fuel s0 cgrp val = some (r, s1) → r = 0 := by
  have hB : (destroy_node reuse s B).cgroups B = none := by
    unfold destroy_node
    cases hg : s.cgroups B with
    | none => simp only [hg]
    | some g => simp only [if_pos]
  have hcss : ∀ n, n ≠ B →
      oom_css_from_cgroup (destroy_node reuse s B) n = oom_css_from_cgroup s n := by
    intro n hn
    unfold oom_css_from_cgroup destroy_node
    cases hg : s.cgroups B with
    | none => rfl
    | some g =>
      simp only [if_neg hn, oom_destroy]
      cases s.cgroups n <;> rfl
  refine ⟨?_, ?_, ?_, ?_, fun _ _ _ _ _ _ h => oom_priority_write_ret h⟩
  · intro fuel val
    unfold write_priority
    rw [hB]
  · intro n hn
    unfold oom_priority_read
    rw [hcss n hn]
  · intro n hn
    unfold oom_effective_priority_read
    rw [hcss n hn]
  · unfold destroy_node
    cases s.cgroups B <;> rfl

/-- C19: `task_oom_priority(p)` returns the effective priority stored in the
cgroup of the task, the value that `oom_effective_priority_read` returns for
that cgroup, and leaves the memory (every cgroup and the flag) as it was. -/
theorem task_oom_priority_eq (task_subsys_state : Nat → Nat) (s : State) (p : Nat) :
    task_oom_priority task_subsys_state s p =
      (oom_effective_priority_read s (task_subsys_state p)).map (fun v => (v, s)) := by
  unfold task_oom_priority oom_effective_priority_read
  cases oom_css_from_cgroup s (task_subsys_state p) <;> rfl



/-! ## Termination, creation and truncation -/

/-- C21: on a well-formed hierarchy (finite, acyclic, child lists consistent
with the parent links) `increase_effective_priority` and
`decrease_effective_priority` terminate for every start cgroup and every
value: `2 * size + 2` jumps are enough, and more fuel gives the same result. -/
theorem traversals_terminate (s : State) (t : Forest) (cgrp val fuel : Nat)
    (hw : WellFormed s t) (hc : cgrp ∈ t.ids) (hf : 2 * t.size + 2 ≤ fuel) :
    (∃ s1, increase_effective_priority fuel s cgrp val = some s1 ∧
      ∀ fuel1, fuel ≤ fuel1 → increase_effective_priority fuel1 s cgrp val = some s1) ∧
    (∃ s2, decrease_effective_priority fuel s cgrp val = some s2 ∧
      ∀ fuel1, fuel ≤ fuel1 → decrease_effective_priority fuel1 s cgrp val = some s2) := by
  obtain ⟨ns, hl⟩ := links_mem hw hc
  have hsk : Shape s (some cgrp) (t.kidsOf cgrp) := (shape_at t none cgrp hw.1 hc).2
  have hnk : cgrp ∉ (t.kidsOf cgrp).ids := not_mem_kidsOf_self t hw.2
  have hfk : 2 * (t.kidsOf cgrp).size + 2 ≤ fuel := by
    have := kidsOf_size_lt cgrp t; omega
  constructor
  · exact ⟨_, increase_effective_priority_eq val hl hsk hnk hfk,
      fun fuel1 h1 => increase_effective_priority_eq val hl hsk hnk (Nat.le_trans hfk h1)⟩
  · exact ⟨_, decrease_effective_priority_eq val hl hsk hnk hfk,
      fun fuel1 h1 => decrease_effective_priority_eq val hl hsk hnk (Nat.le_trans hfk h1)⟩

theorem traversals_terminate_witness :
    WellFormed ex_chain ex_chain_tree ∧ 0 ∈ ex_chain_tree.ids ∧
    ((∃ s1, increase_effective_priority 8 ex_chain 0 4294967296 = some s1 ∧
      ∀ fuel1, 8 ≤ fuel1 → increase_effective_priority fuel1 ex_chain 0 4294967296 = some s1) ∧
    (∃ s2, decrease_effective_priority 8 ex_chain 0 4294967296 = some s2 ∧
      ∀ fuel1, 8 ≤ fuel1 →
        decrease_effective_priority fuel1 ex_chain 0 4294967296 = some s2)) :=
  ⟨by decide, by decide,
    traversals_terminate ex_chain ex_chain_tree 0 4294967296 8 (by decide) (by decide)
      (by decide)⟩

/-- What a creation under an existing parent returns. -/
theorem cgroup_create_eq {s : State} {c p : Nat} {gp : cgroup}
    (hc : s.cgroups c = none) (hp : s.cgroups p = some gp) :
    cgroup_create true s c (some p) =
      some (0, link_child s c p gp
        ⟨atomic_set (atomic_read gp.css.priority),
          atomic_set (atomic_read gp.css.effective_priority)⟩) := by
  unfold cgroup_create oom_create
  simp only [hc, Bool.true_eq_false, if_false, hp]

/-- C24: creation keeps the invariant. For every well-formed hierarchy that
satisfies the invariant, creating a group in fresh memory `c` under an
existing cgroup `p` (`oom_create`, then the linking as first child of `p`)
succeeds and gives the hierarchy with `c` inserted, which satisfies the
invariant at every cgroup, the new one included. -/
theorem oom_create_invariant (s : State) (t : Forest) (p c : Nat)
    (hw : WellFormed s t) (hi : Invariant s t) (hp : p ∈ t.ids) (hc : s.cgroups c = none) :
    ∃ s1, cgroup_create true s c (some p) = some (0, s1) ∧
      WellFormed s1 (t.insert p c) ∧ Invariant s1 (t.insert p c) ∧ c ∈ (t.insert p c).ids := by
  obtain ⟨gp, hgp, -⟩ := cgroups_mem hw hp
  refine ⟨_, cgroup_create_eq hc hgp, wellFormed_link_child _ hw hc hgp, ?_, ?_⟩
  · intro n hn
    rw [mem_insert] at hn
    refine invAt_link_child hc hgp (hi p hp) n ?_
    rcases hn with hn | ⟨hn, -⟩
    · exact Or.inr (hi n hn)
    · exact Or.inl hn
  · rw [mem_insert]; exact Or.inr ⟨rfl, hp⟩

theorem oom_create_invariant_witness :
    WellFormed ex_chain ex_chain_tree ∧ Invariant ex_chain ex_chain_tree ∧
    1 ∈ ex_chain_tree.ids ∧ ex_chain.cgroups 3 = none ∧
    ∃ s1, cgroup_create true ex_chain 3 (some 1) = some (0, s1) ∧
      WellFormed s1 (ex_chain_tree.insert 1 3) ∧ Invariant s1 (ex_chain_tree.insert 1 3) ∧
      3 ∈ (ex_chain_tree.insert 1 3).ids :=
  ⟨by decide, by decide, by decide, rfl,
    oom_create_invariant ex_chain ex_chain_tree 1 3 (by decide) (by decide) (by decide) rfl⟩

/-- C29: the fields are 32-bit while the written value and the comparisons are
`u64`. After `oom_priority_write(n, v)` the priority reads as the sign
extension of the low 32 bits of `v`; it reads as `v` for every `v < 2^31`; and
when `v > effective_priority(n)` the effective priority of `n` is stored
truncated in the same way. -/
theorem priority_write_truncates (s : State) (t : Forest) (n v fuel : Nat)
    (hw : WellFormed s t) (hn : n ∈ t.ids) (hf : 2 * t.size + 2 ≤ fuel) :
    ∃ s1, oom_priority_write fuel s n v = some (0, s1) ∧
      oom_priority_read s1 n = some (atomic_read (atomic_set v)) ∧
      atomic_read (atomic_set v) =
        (if v % 4294967296 < 2147483648 then v % 4294967296
          else v % 4294967296 + 18446744069414584320) ∧
      (v < 2147483648 → oom_priority_read s1 n = some v) ∧
      (v > eff s n → oom_effective_priority_read s1 n = some (atomic_read (atomic_set v))) := by
  obtain ⟨ns, hl⟩ := links_mem hw hn
  have hw1 : WellFormed (priority_write_forest t s n v) t :=
    wellFormed_congr (links_priority_write_forest t s n v) hw
  have hr : oom_priority_read (priority_write_forest t s n v) n =
      some (atomic_read (atomic_set v)) := by
    rw [priority_read_priority_write_forest,
      priority_read_set_priority_self v (links_ne_none hl)]
  refine ⟨_, oom_priority_write_eq v hw hn hf, hr, rfl, fun hv => ?_, fun hv => ?_⟩
  · rw [hr]; exact congrArg some (fits_of_lt hv)
  · rw [effective_read_mem hw1 hn]
    have e : priority_write_forest t s n v =
        increase_forest v (set_effective_priority (set_priority s n v) n v) (t.kidsOf n) := by
      unfold priority_write_forest; simp only [if_pos hv]
    rw [e, eff_congr (cgroups_increase_forest v _ _ n (not_mem_kidsOf_self t hw.2)),
      eff_start_self v v hw hn]

theorem priority_write_truncates_witness :
    WellFormed ex_pair ex_pair_tree ∧ 0 ∈ ex_pair_tree.ids ∧
    ∃ s1, oom_priority_write 6 ex_pair 0 4294967301 = some (0, s1) ∧
      oom_priority_read s1 0 = some (atomic_read (atomic_set 4294967301)) ∧
      atomic_read (atomic_set 4294967301) =
        (if 4294967301 % 4294967296 < 2147483648 then 4294967301 % 4294967296
          else 4294967301 % 4294967296 + 18446744069414584320) ∧
      (4294967301 < 2147483648 → oom_priority_read s1 0 = some 4294967301) ∧
      (4294967301 > eff ex_pair 0 →
        oom_effective_priority_read s1 0 = some (atomic_read (atomic_set 4294967301))) :=
  ⟨by decide, by decide,
    priority_write_truncates ex_pair ex_pair_tree 0 4294967301 6 (by decide) (by decide)
      (by decide)⟩



/-! ## Lowering writes on consistent states -/

/-- Storing the effective priority that is already stored changes nothing. -/
theorem set_effective_priority_self (s : State) (c : Nat) :
    set_effective_priority s c (eff s c) = s := by
  cases s with
  | mk cg fl =>
    unfold set_effective_priority
    simp only [State.mk.injEq, and_true]
    funext i
    by_cases h : i = c
    · subst h
      simp only [if_true]
      cases hg : cg i with
      | none => rfl
      | some g =>
        have e : eff ⟨cg, fl⟩ i = atomic_read g.css.effective_priority := eff_eq hg
        rw [e, atomic_set_read]
        rfl
    · simp only [if_neg h]

/-- Induction along the parent links of a forest: a property that holds at a
node as soon as it holds at its parent (nothing being asked at the parent of
the roots) holds at every node. -/
theorem forest_parent_induction (P : Nat → Prop) (f : Forest) :
    ∀ top : Option Nat, f.ids.Nodup →
      (∀ n ∈ f.ids, (∀ q, f.parentOf n top = some q → top = some q ∨ P q) → P n) →
      ∀ n ∈ f.ids, P n := by
  induction f with
  | nil => intro top _ _ n hn; simp [Forest.ids] at hn
  | cons id kids rest ihk ihr =>
    intro top hnd h n hn
    obtain ⟨h1, h2, hk, hr, hd⟩ := nodup_cons_forest hnd
    have hid : P id := by
      refine h id (by simp [Forest.ids]) (fun q hq => Or.inl ?_)
      simp only [Forest.parentOf, if_true] at hq
      exact hq
    simp only [Forest.ids, List.mem_cons, List.mem_append] at hn
    rcases hn with hn | hn | hn
    · rw [hn]; exact hid
    · refine ihk (some id) hk (fun m hm hpar => ?_) n hn
      have hme : ¬ id = m := fun e => h1 (e ▸ hm)
      refine h m (by simp [Forest.ids, hm]) (fun q hq => ?_)
      simp only [Forest.parentOf, if_neg hme, if_pos hm] at hq
      rcases hpar q hq with hq1 | hq1
      · simp only [Option.some.injEq] at hq1
        exact Or.inr (hq1 ▸ hid)
      · exact Or.inr hq1
    · refine ihr top hr (fun m hm hpar => ?_) n hn
      have hme : ¬ id = m := fun e => h2 (e ▸ hm)
      have hmk : m ∉ kids.ids := fun hh => hd m hh hm
      refine h m (by simp [Forest.ids, hm]) (fun q hq => ?_)
      simp only [Forest.parentOf, if_neg hme, if_neg hmk] at hq
      exact hpar q hq

/-- Decrease propagation over a forest that already satisfies the invariant
below a parent holding the floor changes nothing. -/
theorem decrease_forest_fixed (f : Forest) :
    ∀ (s : State) (p fl : Nat), f.ids.Nodup → fl = eff s p →
      (∀ n ∈ f.ids, ∀ q, f.parentOf n (some p) = some q →
        eff s n = max (prio s n) (eff s q)) →
      decrease_forest s p fl f = s := by
  induction f with
  | nil => intro s p fl _ _ _; rfl
  | cons id kids rest ihk ihr =>
    intro s p fl hnd hfl hinv
    obtain ⟨h1, h2, hk, hr, hd⟩ := nodup_cons_forest hnd
    have hid : decrease_floor s id fl = eff s id := by
      rw [decrease_floor_eq_max, hfl]
      exact (hinv id (by simp [Forest.ids]) p (by simp [Forest.parentOf])).symm
    simp only [decrease_forest]
    rw [hid, set_effective_priority_self]
    rw [ihk s id (eff s id) hk rfl (fun m hm q hq => by
      have hme : ¬ id = m := fun e => h1 (e ▸ hm)
      refine hinv m (by simp [Forest.ids, hm]) q ?_
      simp only [Forest.parentOf, if_neg hme, if_pos hm]
      exact hq)]
    exact ihr s p (eff s p) hr rfl (fun m hm q hq => by
      have hme : ¬ id = m := fun e => h2 (e ▸ hm)
      have hmk : m ∉ kids.ids := fun hh => hd m hh hm
      refine hinv m (by simp [Forest.ids, hm]) q ?_
      simp only [Forest.parentOf, if_neg hme, if_neg hmk]
      exact hq)

/-- The invariant below a cgroup, along the parent links of its children
forest. -/
theorem invariant_below {s : State} {t : Forest} {cgrp : Nat}
    (hw : WellFormed s t) (hi : Invariant s t) (hc : cgrp ∈ t.ids) :
    ∀ n ∈ (t.kidsOf cgrp).ids, ∀ q, (t.kidsOf cgrp).parentOf n (some cgrp) = some q →
      eff s n = max (prio s n) (eff s q) := by
  intro n hn q hq
  have hnt : n ∈ t.ids := kidsOf_ids_subset t n hn
  have old := (invAt_iff hw hnt).1 (hi n hnt)
  rw [(kidsOf_kidsOf t none cgrp n hw.2 hc hn).2, hq] at old
  exact old

/-- The unguarded write on a well-formed hierarchy, through the recursive
walks. -/
theorem oom_priority_write_unguarded_eq {s : State} {t : Forest} {cgrp : Nat} (val : Nat)
    {fuel : Nat} (hw : WellFormed s t) (hc : cgrp ∈ t.ids) (hf : 2 * t.size + 2 ≤ fuel) :
    oom_priority_write_unguarded fuel s cgrp val =
      some ((0 : Int),
        if val > eff s cgrp then
          increase_forest val (set_effective_priority (set_priority s cgrp val) cgrp val)
            (t.kidsOf cgrp)
        else if eff s cgrp = prio s cgrp ∧ val < eff s cgrp then
          decrease_forest
            (set_effective_priority (set_priority s cgrp val) cgrp
              (max val (match t.parentOf cgrp none with
                | none => 0
                | some p => eff s p)))
            cgrp
            (max val (match t.parentOf cgrp none with
              | none => 0
              | some p => eff s p))
            (t.kidsOf cgrp)
        else set_priority s cgrp val) := by
  obtain ⟨ns, hl⟩ := links_mem hw hc
  obtain ⟨g, hg, hpar, -, -⟩ := links_some hl
  have hsk : Shape s (some cgrp) (t.kidsOf cgrp) := (shape_at t none cgrp hw.1 hc).2
  have hnk : cgrp ∉ (t.kidsOf cgrp).ids := not_mem_kidsOf_self t hw.2
  have hfk : 2 * (t.kidsOf cgrp).size + 2 ≤ fuel := by
    have := kidsOf_size_lt cgrp t; omega
  have hl1 : (set_priority s cgrp val).links = s.links := links_set_priority _ _ _
  have hg1 : (set_priority s cgrp val).cgroups cgrp =
      some { g with css := { g.css with priority := atomic_set val } } := by
    rw [cgroups_set_priority, if_pos rfl, hg]; rfl
  have he1 : oom_effective_priority_read (set_priority s cgrp val) cgrp = some (eff s cgrp) := by
    rw [eff_read_eq hg1, eff_set_priority]
  unfold oom_priority_write_unguarded
  simp only [hg, he1, ← prio_eq hg]
  by_cases h1 : val > eff s cgrp
  · simp only [if_pos h1]
    rw [increase_effective_priority_eq val (hl1 ▸ hl) ((shape_congr hl1 _ _).2 hsk) hnk hfk]
    rfl
  · simp only [if_neg h1]
    by_cases h2 : eff s cgrp = prio s cgrp ∧ val < eff s cgrp
    · simp only [if_pos h2]
      cases hp : t.parentOf cgrp none with
      | none =>
        rw [hp] at hpar
        simp only [hpar]
        rw [decrease_effective_priority_eq _ (hl1 ▸ hl) ((shape_congr hl1 _ _).2 hsk) hnk hfk]
        rfl
      | some p =>
        rw [hp] at hpar
        obtain ⟨gp, hgp, -⟩ := cgroups_mem hw (parent_mem hp)
        have hne : p ≠ cgrp := by
          intro e
          rcases mem_kidsOf_parentOf t none cgrp p hw.2 hc hp with h | h
          · exact absurd h (by simp)
          · exact hnk (e ▸ h)
        have hgp1 : (set_priority s cgrp val).cgroups p = some gp := by
          rw [cgroups_set_priority, if_neg hne, hgp]
        have hep : oom_effective_priority_read (set_priority s cgrp val) p = some (eff s p) := by
          rw [eff_read_eq hgp1, eff_set_priority]
        simp only [hpar, hep]
        rw [decrease_effective_priority_eq _ (hl1 ▸ hl) ((shape_congr hl1 _ _).2 hsk) hnk hfk]
        rfl
    · simp only [if_neg h2]



/-- C25: the guard of the lowering branch changes nothing on consistent
states. For every well-formed hierarchy that satisfies the invariant, every
cgroup and every value, `oom_priority_write` returns `0` and leaves the same
state as the unguarded algorithm, which runs decrease propagation with the
floor `max(val, parent_eff)` whenever the effective priority equals the old
priority and `val` is below it. -/
theorem lowering_guard_redundant (s : State) (t : Forest) (cgrp val fuel : Nat)
    (hw : WellFormed s t) (hi : Invariant s t) (hc : cgrp ∈ t.ids)
    (hf : 2 * t.size + 2 ≤ fuel) :
    oom_priority_write fuel s cgrp val = oom_priority_write_unguarded fuel s cgrp val ∧
      ∃ s1, oom_priority_write fuel s cgrp val = some (0, s1) := by
  refine ⟨?_, _, oom_priority_write_eq val hw hc hf⟩
  rw [oom_priority_write_eq val hw hc hf, oom_priority_write_unguarded_eq val hw hc hf]
  have hnk : cgrp ∉ (t.kidsOf cgrp).ids := not_mem_kidsOf_self t hw.2
  have oldc := (invAt_iff hw hc).1 (hi cgrp hc)
  congr 2
  unfold priority_write_forest
  by_cases h1 : val > eff s cgrp
  · simp only [if_pos h1]
  · simp only [if_neg h1]
    by_cases h2 : eff s cgrp = prio s cgrp ∧ val < eff s cgrp
    · simp only [if_pos h2]
      cases hp : t.parentOf cgrp none with
      | none => simp only [Nat.max_zero]
      | some p =>
        rw [hp] at oldc
        simp only at oldc ⊢
        by_cases h3 : eff s p < eff s cgrp
        · have e : (if eff s cgrp < val ∨ eff s p < val then val else eff s p) =
              max val (eff s p) := by
            split <;> omega
          simp only [if_pos h3, e]
        · have e : max val (eff s p) = eff (set_priority s cgrp val) cgrp := by
            rw [eff_set_priority]; omega
          simp only [if_neg h3]
          rw [e, set_effective_priority_self]
          symm
          refine decrease_forest_fixed _ _ cgrp _ (kidsOf_nodup t hw.2) rfl ?_
          intro n hn q hq
          have hne : n ≠ cgrp := fun e => hnk (e ▸ hn)
          rw [eff_set_priority, eff_set_priority, prio_set_priority_ne s val hne]
          exact invariant_below hw hi hc n hn q hq
    · simp only [if_neg h2]

theorem lowering_guard_redundant_witness :
    WellFormed ex_chain ex_chain_tree ∧ Invariant ex_chain ex_chain_tree ∧
    1 ∈ ex_chain_tree.ids ∧
    (oom_priority_write 8 ex_chain 1 0 = oom_priority_write_unguarded 8 ex_chain 1 0 ∧
      ∃ s1, oom_priority_write 8 ex_chain 1 0 = some (0, s1)) :=
  ⟨by decide, by decide, by decide,
    lowering_guard_redundant ex_chain ex_chain_tree 1 0 8 (by decide) (by decide) (by decide)
      (by decide)⟩

/-- C4: on a well-formed hierarchy that satisfies the invariant, for every
cgroup `cgrp` and value `val` with `effective_priority(cgrp)` equal to the old
priority and `val < effective_priority(cgrp)`, `oom_priority_write(cgrp, val)`
returns `0` and leaves the state obtained by storing `priority(cgrp) = val`
and running decrease propagation from `cgrp` with the floor `val` when `cgrp`
is the root or `parent_eff < val`, and the floor `parent_eff` otherwise. -/
theorem priority_write_lower (s : State) (t : Forest) (cgrp val fuel : Nat)
    (hw : WellFormed s t) (hi : Invariant s t) (hc : cgrp ∈ t.ids)
    (hf : 2 * t.size + 2 ≤ fuel)
    (h1 : eff s cgrp = prio s cgrp) (h2 : val < eff s cgrp) :
    (∃ s1, oom_priority_write fuel s cgrp val = some (0, s1)) ∧
      oom_priority_write fuel s cgrp val =
        (decrease_effective_priority fuel (set_priority s cgrp val) cgrp
          (match t.parentOf cgrp none with
            | none => val
            | some p => if eff s p < val then val else eff s p)).map
          (fun s2 => ((0 : Int), s2)) := by
  refine ⟨⟨_, oom_priority_write_eq val hw hc hf⟩, ?_⟩
  obtain ⟨ns, hl⟩ := links_mem hw hc
  have hl1 : (set_priority s cgrp val).links = s.links := links_set_priority _ _ _
  have hsk : Shape (set_priority s cgrp val) (some cgrp) (t.kidsOf cgrp) :=
    (shape_congr hl1 _ _).2 (shape_at t none cgrp hw.1 hc).2
  have hnk : cgrp ∉ (t.kidsOf cgrp).ids := not_mem_kidsOf_self t hw.2
  have hfk : 2 * (t.kidsOf cgrp).size + 2 ≤ fuel := by
    have := kidsOf_size_lt cgrp t; omega
  have h3 : ¬ val > eff s cgrp := by omega
  have oldc := (invAt_iff hw hc).1 (hi cgrp hc)
  rw [oom_priority_write_eq val hw hc hf,
    decrease_effective_priority_eq _ (hl1 ▸ hl) hsk hnk hfk]
  simp only [Option.map_some', Option.some.injEq, Prod.mk.injEq, true_and]
  unfold priority_write_forest
  simp only [if_neg h3, if_pos (And.intro h1 h2)]
  cases hp : t.parentOf cgrp none with
  | none => rfl
  | some p =>
    rw [hp] at oldc
    simp only at oldc ⊢
    by_cases h4 : eff s p < eff s cgrp
    · have h5 : ¬ eff s cgrp < val := by omega
      simp only [if_pos h4, h5, false_or]
    · have h6 : ¬ eff s p < val := by omega
      have e : eff s p = eff (set_priority s cgrp val) cgrp := by
        rw [eff_set_priority]; omega
      simp only [if_neg h4, if_neg h6]
      rw [e, set_effective_priority_self]
      symm
      refine decrease_forest_fixed _ _ cgrp _ (kidsOf_nodup t hw.2) rfl ?_
      intro n hn q hq
      have hne : n ≠ cgrp := fun e => hnk (e ▸ hn)
      rw [eff_set_priority, eff_set_priority, prio_set_priority_ne s val hne]
      exact invariant_below hw hi hc n hn q hq

theorem priority_write_lower_witness :
    WellFormed ex_mid ex_chain_tree ∧ Invariant ex_mid ex_chain_tree ∧
    1 ∈ ex_chain_tree.ids ∧ eff ex_mid 1 = prio ex_mid 1 ∧ 0 < eff ex_mid 1 ∧
    ex_chain_tree.parentOf 1 none = some 0 ∧ ¬ (eff ex_mid 0 < 0) ∧
    (oom_priority_write 8 ex_mid 1 0).bind (fun r => oom_effective_priority_read r.2 1) =
      some 1 ∧
    (oom_priority_write 8 ex_mid 1 0).bind (fun r => oom_effective_priority_read r.2 2) =
      some 1 ∧
    ((∃ s1, oom_priority_write 8 ex_mid 1 0 = some (0, s1)) ∧
      oom_priority_write 8 ex_mid 1 0 =
        (decrease_effective_priority 8 (set_priority ex_mid 1 0) 1
          (match ex_chain_tree.parentOf 1 none with
            | none => 0
            | some p => if eff ex_mid p < 0 then 0 else eff ex_mid p)).map
          (fun s2 => ((0 : Int), s2))) :=
  ⟨by decide, by decide, by decide, by decide, by decide, by decide, by decide, by decide,
    by decide,
    priority_write_lower ex_mid ex_chain_tree 1 0 8 (by decide) (by decide) (by decide)
      (by decide) (by decide) (by decide)⟩

/-- Decrease propagation with a floor that is not above the old effective
priority of the start cgroup raises no strict descendant, on a state that
satisfied the invariant. -/
theorem eff_decrease_forest_le {s : State} {t : Forest} {cgrp : Nat} (val : Nat) {fl : Nat}
    (hw : WellFormed s t) (hi : Invariant s t) (hc : cgrp ∈ t.ids) (hfl : Fits fl)
    (hle : fl ≤ eff s cgrp) :
    ∀ n ∈ (t.kidsOf cgrp).ids,
      eff (decrease_forest (set_effective_priority (set_priority s cgrp val) cgrp fl) cgrp fl
        (t.kidsOf cgrp)) n ≤ eff s n := by
  have hnk : cgrp ∉ (t.kidsOf cgrp).ids := not_mem_kidsOf_self t hw.2
  have he : eff (set_effective_priority (set_priority s cgrp val) cgrp fl) cgrp = fl := by
    rw [eff_start_self val fl hw hc]; exact hfl
  have hrec := eff_decrease_forest (t.kidsOf cgrp) _ cgrp fl (shape_start val fl hw hc)
    (kidsOf_nodup t hw.2) hnk he.symm
  refine forest_parent_induction _ (t.kidsOf cgrp) (some cgrp) (kidsOf_nodup t hw.2) ?_
  intro n hn hpar
  obtain ⟨q, hq, hv⟩ := hrec n hn
  have hne : n ≠ cgrp := fun e => hnk (e ▸ hn)
  have old := invariant_below hw hi hc n hn q hq
  rw [hv, prio_set_effective_priority, prio_set_priority_ne s val hne, old]
  rcases hpar q hq with h | h
  · simp only [Option.some.injEq] at h
    subst h
    rw [eff_congr (cgroups_decrease_forest _ _ _ _ cgrp hnk), he]
    omega
  · omega

/-- C26, as the claim states it, fails: `ex_min_pair` satisfies the invariant,
its root has priority `2^64 - 2^31`, and writing the smaller value `2^32 - 1`
to the root raises the effective priority of the child from `2^64 - 2^31` to
`2^64 - 1`. -/
theorem priority_lower_descendants_counterexample :
    WellFormed ex_min_pair ex_pair_tree ∧ Invariant ex_min_pair ex_pair_tree ∧
    4294967295 < prio ex_min_pair 0 ∧ 1 ∈ ex_pair_tree.descendants 0 ∧
    oom_effective_priority_read ex_min_pair 1 = some 18446744071562067968 ∧
    (oom_priority_write 6 ex_min_pair 0 4294967295).bind
        (fun r => oom_effective_priority_read r.2 1) = some 18446744073709551615 := by
  decide

/-- C26, amended: for every well-formed hierarchy that satisfies the
invariant, every cgroup `n` and every value `v` that fits a 32-bit `int` and
is less than the current priority of `n`, the write returns `0` and does not
increase the effective priority of any strict descendant of `n`. -/
theorem priority_lower_descendants (s : State) (t : Forest) (n v fuel : Nat)
    (hw : WellFormed s t) (hi : Invariant s t) (hn : n ∈ t.ids)
    (hf : 2 * t.size + 2 ≤ fuel) (hv : Fits v) (h : v < prio s n) :
    ∃ s1, oom_priority_write fuel s n v = some (0, s1) ∧
      ∀ m ∈ t.descendants n, eff s1 m ≤ eff s m := by
  refine ⟨_, oom_priority_write_eq v hw hn hf, ?_⟩
  have oldn := (invAt_iff hw hn).1 (hi n hn)
  have hpe : prio s n ≤ eff s n := by
    cases hp : t.parentOf n none with
    | none => rw [hp] at oldn; simp only at oldn; omega
    | some q => rw [hp] at oldn; simp only at oldn; omega
  have h1 : ¬ v > eff s n := by omega
  have hkeep : ∀ m ∈ t.descendants n, eff (set_priority s n v) m ≤ eff s m := by
    intro m _; rw [eff_set_priority]
  unfold priority_write_forest
  simp only [if_neg h1]
  split
  · split
    · exact eff_decrease_forest_le v hw hi hn hv (by omega)
    · split
      · refine eff_decrease_forest_le v hw hi hn ?_ ?_
        · split
          · exact hv
          · exact fits_eff _ _
        · split <;> omega
      · exact hkeep
  · exact hkeep

theorem priority_lower_descendants_witness :
    WellFormed ex_pair ex_pair_tree ∧ Invariant ex_pair ex_pair_tree ∧
    0 ∈ ex_pair_tree.ids ∧ Fits 0 ∧ 0 < prio ex_pair 0 ∧
    ∃ s1, oom_priority_write 6 ex_pair 0 0 = some (0, s1) ∧
      ∀ m ∈ ex_pair_tree.descendants 0, eff s1 m ≤ eff ex_pair m :=
  ⟨by decide, by decide, by decide, by decide, by decide,
    priority_lower_descendants ex_pair ex_pair_tree 0 0 6 (by decide) (by decide) (by decide)
      (by decide) (by decide) (by decide)⟩



/-! ## The course of the loops -/

theorem increase_trace_succ (cgrp val fuel : Nat) {w w1 : IncWalk} (h : w.pc ≠ .out)
    (hs : increase_step cgrp val w = some w1) :
    increase_trace cgrp val (fuel + 1) w = w :: increase_trace cgrp val fuel w1 := by
  simp [increase_trace, h, hs]

/-- The loop of `increase_effective_priority`, started at the first tree of a
forest below `p`, visits the cgroups of the forest in pre-order, each once,
with the cursor inside the forest, and comes back to `p`. -/
theorem increase_trace_forest (cgrp val : Nat) (f : Forest) :
    ∀ (s : State) (p fuel c : Nat), f.head = some c → Shape s (some p) f →
      cgrp ∉ f.ids →
      ∃ l, increase_trace cgrp val (fuel + 2 * f.size) ⟨s, some c, .visit_children⟩ =
          l ++ increase_trace cgrp val fuel
            ⟨increase_forest val s f, some p, .visit_siblings⟩ ∧
        l.filterMap IncWalk.visited = f.ids ∧
        ∀ w ∈ l, w.st.links = s.links ∧ ∃ c1, w.curr = some c1 ∧ c1 ∈ f.ids := by
  induction f with
  | nil => intro s p fuel c h; simp [Forest.head] at h
  | cons id kids rest ihk ihr =>
    intro s p fuel c hc hs hn
    simp only [Forest.head, Option.some.injEq] at hc
    subst hc
    obtain ⟨hl, hsk, hsr⟩ := hs
    simp only [Forest.ids, List.mem_cons, List.mem_append, not_or] at hn
    obtain ⟨hne, hnk, hnr⟩ := hn
    have hl1 : (increase_visit val s id).links = s.links := links_increase_visit _ _ _
    have hl2 : (increase_forest val (increase_visit val s id) kids).links = s.links := by
      rw [links_increase_forest, hl1]
    have vs : ∃ l2, increase_trace cgrp val (fuel + 2 * rest.size + 1)
          ⟨increase_forest val (increase_visit val s id) kids, some id, .visit_siblings⟩ =
          l2 ++ increase_trace cgrp val fuel
            ⟨increase_forest val s (.cons id kids rest), some p, .visit_siblings⟩ ∧
        l2.filterMap IncWalk.visited = rest.ids ∧
        ∀ w ∈ l2, w.st.links = s.links ∧
          ∃ c1, w.curr = some c1 ∧ c1 ∈ (Forest.cons id kids rest).ids := by
      rw [increase_trace_succ cgrp val _ (by simp)
        (increase_step_sibling val hne (by rw [hl2]; exact hl))]
      cases rest with
      | nil =>
        refine ⟨[(⟨increase_forest val (increase_visit val s id) kids, some id, .visit_siblings⟩ : IncWalk)], by simp [Forest.head, Forest.size, increase_forest], ?_, ?_⟩
        · simp [IncWalk.visited, Forest.ids]
        · intro w hw
          simp only [List.mem_singleton] at hw
          subst hw
          exact ⟨hl2, id, rfl, by simp [Forest.ids]⟩
      | cons r rk rr =>
        simp only [Forest.head, Option.getD_some, reduceCtorEq, if_false]
        obtain ⟨l3, h3, hv3, hs3⟩ := ihr _ p fuel r rfl ((shape_congr hl2 _ _).2 hsr) hnr
        refine ⟨(⟨increase_forest val (increase_visit val s id) kids, some id, .visit_siblings⟩ : IncWalk) :: l3, by rw [h3]; rfl, ?_, ?_⟩
        · simp only [List.filterMap_cons, IncWalk.visited, reduceCtorEq, if_false]
          exact hv3
        · intro w hw
          simp only [List.mem_cons] at hw
          rcases hw with hw | hw
          · subst hw
            exact ⟨hl2, id, rfl, by simp [Forest.ids]⟩
          · obtain ⟨h4, c1, h5, h6⟩ := hs3 w hw
            refine ⟨by rw [h4, hl2], c1, h5, ?_⟩
            simp only [Forest.ids, List.mem_cons, List.mem_append] at h6 ⊢
            exact Or.inr (Or.inr h6)
    have e1 : fuel + 2 * (Forest.cons id kids rest).size =
        (fuel + 2 * rest.size + 1 + 2 * kids.size) + 1 := by
      simp only [Forest.size]; omega
    rw [e1, increase_trace_succ cgrp val _ (by simp) (increase_step_visit cgrp val hl)]
    obtain ⟨l2, h2, hv2, hs2⟩ := vs
    cases kids with
    | nil =>
      simp only [Forest.head, Option.getD_none, if_true, Forest.size, Nat.mul_zero,
        Nat.add_zero]
      simp only [increase_forest] at h2
      refine ⟨(⟨s, some id, .visit_children⟩ : IncWalk) :: l2, by rw [h2]; rfl, ?_, ?_⟩
      · simp only [List.filterMap_cons, IncWalk.visited, if_true, Forest.ids, List.nil_append]
        rw [hv2]
      · intro w hw
        simp only [List.mem_cons] at hw
        rcases hw with hw | hw
        · subst hw
          exact ⟨rfl, id, rfl, by simp [Forest.ids]⟩
        · exact hs2 w hw
    | cons k kk kr =>
      simp only [Forest.head, Option.getD_some, reduceCtorEq, if_false]
      obtain ⟨l1, h1, hv1, hs1⟩ := ihk _ id (fuel + 2 * rest.size + 1) k rfl
        ((shape_congr hl1 _ _).2 hsk) hnk
      refine ⟨(⟨s, some id, .visit_children⟩ : IncWalk) :: (l1 ++ l2), by rw [h1, h2]; simp, ?_, ?_⟩
      · simp only [List.filterMap_cons, IncWalk.visited, if_true, List.filterMap_append]
        rw [hv1, hv2]
        simp [Forest.ids]
      · intro w hw
        simp only [List.mem_cons, List.mem_append] at hw
        rcases hw with hw | hw | hw
        · subst hw
          exact ⟨rfl, id, rfl, by simp [Forest.ids]⟩
        · obtain ⟨h4, c1, h5, h6⟩ := hs1 w hw
          refine ⟨by rw [h4, hl1], c1, h5, ?_⟩
          simp only [Forest.ids, List.mem_cons, List.mem_append] at h6 ⊢
          exact Or.inr (Or.inl h6)
        · exact hs2 w hw



theorem decrease_trace_succ (cgrp val fuel : Nat) {w w1 : DecWalk} (h : w.pc ≠ .out)
    (hs : decrease_step cgrp val w = some w1) :
    decrease_trace cgrp val (fuel + 1) w = w :: decrease_trace cgrp val fuel w1 := by
  simp [decrease_trace, h, hs]

/-- The loop of `decrease_effective_priority`, started at the first tree of a
forest below `p`, visits the cgroups of the forest in pre-order, each once,
with the cursor inside the forest, and comes back to `p`. -/
theorem decrease_trace_forest (cgrp val : Nat) (f : Forest) :
    ∀ (s : State) (p fl fuel c : Nat), f.head = some c → Shape s (some p) f →
      cgrp ∉ f.ids → s.links p ≠ none →
      ∃ l, decrease_trace cgrp val (fuel + 2 * f.size) ⟨s, some c, fl, .visit_children⟩ =
          l ++ decrease_trace cgrp val fuel
            ⟨decrease_forest s p fl f, some p, eff (decrease_forest s p fl f) p,
              .visit_siblings⟩ ∧
        l.filterMap DecWalk.visited = f.ids ∧
        ∀ w ∈ l, w.st.links = s.links ∧ ∃ c1, w.curr = some c1 ∧ c1 ∈ f.ids := by
  induction f with
  | nil => intro s p fl fuel c h; simp [Forest.head] at h
  | cons id kids rest ihk ihr =>
    intro s p fl fuel c hc hs hn hp
    simp only [Forest.head, Option.some.injEq] at hc
    subst hc
    obtain ⟨hl, hsk, hsr⟩ := hs
    simp only [Forest.ids, List.mem_cons, List.mem_append, not_or] at hn
    obtain ⟨hne, hnk, hnr⟩ := hn
    have hl1 : (set_effective_priority s id (decrease_floor s id fl)).links = s.links :=
      links_set_effective_priority _ _ _
    have hl2 : (decrease_forest (set_effective_priority s id (decrease_floor s id fl)) id
        (decrease_floor s id fl) kids).links = s.links := by
      rw [links_decrease_forest, hl1]
    have vs : ∀ fl1 : Nat, ∃ l2, decrease_trace cgrp val (fuel + 2 * rest.size + 1)
          ⟨decrease_forest (set_effective_priority s id (decrease_floor s id fl)) id
            (decrease_floor s id fl) kids, some id, fl1, .visit_siblings⟩ =
          l2 ++ decrease_trace cgrp val fuel
            ⟨decrease_forest s p fl (.cons id kids rest), some p,
              eff (decrease_forest s p fl (.cons id kids rest)) p, .visit_siblings⟩ ∧
        l2.filterMap DecWalk.visited = rest.ids ∧
        ∀ w ∈ l2, w.st.links = s.links ∧
          ∃ c1, w.curr = some c1 ∧ c1 ∈ (Forest.cons id kids rest).ids := by
      intro fl1
      rw [decrease_trace_succ cgrp val _ (by simp)
        (decrease_step_sibling val fl1 hne (by rw [hl2]; exact hl) (by rw [hl2]; exact hp))]
      cases rest with
      | nil =>
        refine ⟨[(⟨decrease_forest (set_effective_priority s id (decrease_floor s id fl)) id
            (decrease_floor s id fl) kids, some id, fl1, .visit_siblings⟩ : DecWalk)],
          by simp [Forest.head, Forest.size, decrease_forest], ?_, ?_⟩
        · simp [DecWalk.visited, Forest.ids]
        · intro w hw
          simp only [List.mem_singleton] at hw
          subst hw
          exact ⟨hl2, id, rfl, by simp [Forest.ids]⟩
      | cons r rk rr =>
        simp only [Forest.head, Option.getD_some, reduceCtorEq, if_false]
        obtain ⟨l3, h3, hv3, hs3⟩ := ihr _ p
          (eff (decrease_forest (set_effective_priority s id (decrease_floor s id fl)) id
            (decrease_floor s id fl) kids) p) fuel r rfl
          ((shape_congr hl2 _ _).2 hsr) hnr (by rw [hl2]; exact hp)
        refine ⟨(⟨decrease_forest (set_effective_priority s id (decrease_floor s id fl)) id
            (decrease_floor s id fl) kids, some id, fl1, .visit_siblings⟩ : DecWalk) :: l3,
          by rw [h3]; rfl, ?_, ?_⟩
        · simp only [List.filterMap_cons, DecWalk.visited, reduceCtorEq, if_false]
          exact hv3
        · intro w hw
          simp only [List.mem_cons] at hw
          rcases hw with hw | hw
          · subst hw
            exact ⟨hl2, id, rfl, by simp [Forest.ids]⟩
          · obtain ⟨h4, c1, h5, h6⟩ := hs3 w hw
            refine ⟨by rw [h4, hl2], c1, h5, ?_⟩
            simp only [Forest.ids, List.mem_cons, List.mem_append] at h6 ⊢
            exact Or.inr (Or.inr h6)
    have e1 : fuel + 2 * (Forest.cons id kids rest).size =
        (fuel + 2 * rest.size + 1 + 2 * kids.size) + 1 := by
      simp only [Forest.size]; omega
    rw [e1, decrease_trace_succ cgrp val _ (by simp) (decrease_step_visit cgrp val fl hl)]
    cases kids with
    | nil =>
      simp only [Forest.head, Option.getD_none, if_true, Forest.size, Nat.mul_zero,
        Nat.add_zero]
      obtain ⟨l2, h2, hv2, hs2⟩ := vs (decrease_floor s id fl)
      simp only [decrease_forest] at h2
      refine ⟨(⟨s, some id, fl, .visit_children⟩ : DecWalk) :: l2, by rw [h2]; rfl, ?_, ?_⟩
      · simp only [List.filterMap_cons, DecWalk.visited, if_true, Forest.ids, List.nil_append]
        rw [hv2]
      · intro w hw
        simp only [List.mem_cons] at hw
        rcases hw with hw | hw
        · subst hw
          exact ⟨rfl, id, rfl, by simp [Forest.ids]⟩
        · exact hs2 w hw
    | cons k kk kr =>
      simp only [Forest.head, Option.getD_some, reduceCtorEq, if_false]
      obtain ⟨l1, h1, hv1, hs1⟩ := ihk _ id (decrease_floor s id fl)
        (fuel + 2 * rest.size + 1) k rfl ((shape_congr hl1 _ _).2 hsk) hnk
        (by rw [hl1]; exact links_ne_none hl)
      obtain ⟨l2, h2, hv2, hs2⟩ := vs (eff (decrease_forest
        (set_effective_priority s id (decrease_floor s id fl)) id (decrease_floor s id fl)
        (.cons k kk kr)) id)
      refine ⟨(⟨s, some id, fl, .visit_children⟩ : DecWalk) :: (l1 ++ l2),
        by rw [h1, h2]; simp, ?_, ?_⟩
      · simp only [List.filterMap_cons, DecWalk.visited, if_true, List.filterMap_append]
        rw [hv1, hv2]
        simp [Forest.ids]
      · intro w hw
        simp only [List.mem_cons, List.mem_append] at hw
        rcases hw with hw | hw | hw
        · subst hw
          exact ⟨rfl, id, rfl, by simp [Forest.ids]⟩
        · obtain ⟨h4, c1, h5, h6⟩ := hs1 w hw
          refine ⟨by rw [h4, hl1], c1, h5, ?_⟩
          simp only [Forest.ids, List.mem_cons, List.mem_append] at h6 ⊢
          exact Or.inr (Or.inl h6)
        · exact hs2 w hw



/-- The whole course of `increase_effective_priority` on a well-formed
hierarchy. -/
theorem increase_walk_spec {s : State} {t : Forest} {cgrp : Nat} (val : Nat) {fuel : Nat}
    (hw : WellFormed s t) (hc : cgrp ∈ t.ids) (hf : 2 * t.size + 2 ≤ fuel) :
    increase_visits fuel s cgrp val = (t.kidsOf cgrp).ids ∧
      (∀ w ∈ increase_walk fuel s cgrp val, w.st.links = s.links ∧
        ∃ c1, w.curr = some c1 ∧ (c1 = cgrp ∨ c1 ∈ (t.kidsOf cgrp).ids)) ∧
      (increase_walk fuel s cgrp val = [] ∨
        ∃ l w, increase_walk fuel s cgrp val = l ++ [w] ∧ w.pc = .out) := by
  obtain ⟨ns, hl⟩ := links_mem hw hc
  obtain ⟨g, hg, -, hfc, -⟩ := links_some hl
  have hsk : Shape s (some cgrp) (t.kidsOf cgrp) := (shape_at t none cgrp hw.1 hc).2
  have hnk : cgrp ∉ (t.kidsOf cgrp).ids := not_mem_kidsOf_self t hw.2
  have hfk : 2 * (t.kidsOf cgrp).size + 2 ≤ fuel := by
    have := kidsOf_size_lt cgrp t; omega
  have hl1 : (set_effective_priority s cgrp val).links = s.links :=
    links_set_effective_priority _ _ _
  unfold increase_visits increase_walk
  simp only [hg, hfc]
  cases hk : t.kidsOf cgrp with
  | nil => simp [Forest.head, Forest.ids]
  | cons k kk kr =>
    rw [hk] at hsk hnk hfk
    simp only [Forest.head]
    obtain ⟨n, rfl⟩ : ∃ n, fuel = (n + 2) + 2 * (Forest.cons k kk kr).size :=
      ⟨fuel - (2 * (Forest.cons k kk kr).size + 2), by omega⟩
    obtain ⟨l, h1, hv, hs⟩ := increase_trace_forest cgrp val (.cons k kk kr) _ cgrp (n + 2) k
      rfl ((shape_congr hl1 _ _).2 hsk) hnk
    have htail : increase_trace cgrp val (n + 2)
        ⟨increase_forest val (set_effective_priority s cgrp val) (.cons k kk kr), some cgrp,
          .visit_siblings⟩ =
        [⟨increase_forest val (set_effective_priority s cgrp val) (.cons k kk kr), some cgrp,
            .visit_siblings⟩,
          ⟨increase_forest val (set_effective_priority s cgrp val) (.cons k kk kr), some cgrp,
            .out⟩] := by
      simp [increase_trace, increase_step]
    rw [h1, htail]
    refine ⟨?_, ?_, Or.inr ⟨l ++ [
      (⟨increase_forest val (set_effective_priority s cgrp val) (.cons k kk kr), some cgrp, .visit_siblings⟩ : IncWalk)],
      (⟨increase_forest val (set_effective_priority s cgrp val) (.cons k kk kr), some cgrp, .out⟩ : IncWalk),
      by simp, rfl⟩⟩
    · simp only [List.filterMap_append, hv]
      simp [IncWalk.visited]
    · intro w hw1
      simp only [List.mem_append, List.mem_cons, List.mem_singleton, List.not_mem_nil,
        or_false] at hw1
      rcases hw1 with hw1 | hw1 | hw1
      · obtain ⟨h4, c1, h5, h6⟩ := hs w hw1
        exact ⟨by rw [h4, hl1], c1, h5, Or.inr h6⟩
      · subst hw1
        exact ⟨by rw [links_increase_forest, hl1], cgrp, rfl, Or.inl rfl⟩
      · subst hw1
        exact ⟨by rw [links_increase_forest, hl1], cgrp, rfl, Or.inl rfl⟩

/-- The whole course of `decrease_effective_priority` on a well-formed
hierarchy. -/
theorem decrease_walk_spec {s : State} {t : Forest} {cgrp : Nat} (val : Nat) {fuel : Nat}
    (hw : WellFormed s t) (hc : cgrp ∈ t.ids) (hf : 2 * t.size + 2 ≤ fuel) :
    decrease_visits fuel s cgrp val = (t.kidsOf cgrp).ids ∧
      (∀ w ∈ decrease_walk fuel s cgrp val, w.st.links = s.links ∧
        ∃ c1, w.curr = some c1 ∧ (c1 = cgrp ∨ c1 ∈ (t.kidsOf cgrp).ids)) ∧
      (decrease_walk fuel s cgrp val = [] ∨
        ∃ l w, decrease_walk fuel s cgrp val = l ++ [w] ∧ w.pc = .out) := by
  obtain ⟨ns, hl⟩ := links_mem hw hc
  obtain ⟨g, hg, -, hfc, -⟩ := links_some hl
  have hsk : Shape s (some cgrp) (t.kidsOf cgrp) := (shape_at t none cgrp hw.1 hc).2
  have hnk : cgrp ∉ (t.kidsOf cgrp).ids := not_mem_kidsOf_self t hw.2
  have hfk : 2 * (t.kidsOf cgrp).size + 2 ≤ fuel := by
    have := kidsOf_size_lt cgrp t; omega
  have hl1 : (set_effective_priority s cgrp val).links = s.links :=
    links_set_effective_priority _ _ _
  unfold decrease_visits decrease_walk
  simp only [hg, hfc]
  cases hk : t.kidsOf cgrp with
  | nil => simp [Forest.head, Forest.ids]
  | cons k kk kr =>
    rw [hk] at hsk hnk hfk
    simp only [Forest.head]
    obtain ⟨n, rfl⟩ : ∃ n, fuel = (n + 2) + 2 * (Forest.cons k kk kr).size :=
      ⟨fuel - (2 * (Forest.cons k kk kr).size + 2), by omega⟩
    obtain ⟨l, h1, hv, hs⟩ := decrease_trace_forest cgrp val (.cons k kk kr) _ cgrp val
      (n + 2) k rfl ((shape_congr hl1 _ _).2 hsk) hnk (by rw [hl1]; exact links_ne_none hl)
    have htail : ∀ e : Nat, decrease_trace cgrp val (n + 2)
        ⟨decrease_forest (set_effective_priority s cgrp val) cgrp val (.cons k kk kr),
          some cgrp, e, .visit_siblings⟩ =
        [⟨decrease_forest (set_effective_priority s cgrp val) cgrp val (.cons k kk kr),
            some cgrp, e, .visit_siblings⟩,
          ⟨decrease_forest (set_effective_priority s cgrp val) cgrp val (.cons k kk kr),
            some cgrp, e, .out⟩] := by
      intro e
      simp [decrease_trace, decrease_step]
    rw [h1, htail]
    refine ⟨?_, ?_, Or.inr ⟨l ++ [
      (⟨decrease_forest (set_effective_priority s cgrp val) cgrp val (.cons k kk kr), some cgrp, eff (decrease_forest (set_effective_priority s cgrp val) cgrp val (.cons k kk kr)) cgrp, .visit_siblings⟩ : DecWalk)],
      (⟨decrease_forest (set_effective_priority s cgrp val) cgrp val (.cons k kk kr), some cgrp, eff (decrease_forest (set_effective_priority s cgrp val) cgrp val (.cons k kk kr)) cgrp, .out⟩ : DecWalk),
      by simp, rfl⟩⟩
    · simp only [List.filterMap_append, hv]
      simp [DecWalk.visited]
    · intro w hw1
      simp only [List.mem_append, List.mem_cons, List.mem_singleton, List.not_mem_nil,
        or_false] at hw1
      rcases hw1 with hw1 | hw1 | hw1
      · obtain ⟨h4, c1, h5, h6⟩ := hs w hw1
        exact ⟨by rw [h4, hl1], c1, h5, Or.inr h6⟩
      · subst hw1
        exact ⟨by rw [links_decrease_forest, hl1], cgrp, rfl, Or.inl rfl⟩
      · subst hw1
        exact ⟨by rw [links_decrease_forest, hl1], cgrp, rfl, Or.inl rfl⟩

/-- On a well-formed hierarchy a cursor inside the subtree of `cgrp`, in a
state with the links of the hierarchy, is safe. -/
theorem safeCursor_of_links {s st : State} {t : Forest} {cgrp : Nat} {curr : Option Nat}
    (pc : Label) (hw : WellFormed s t) (hc : cgrp ∈ t.ids) (hl : st.links = s.links)
    (h : ∃ c1, curr = some c1 ∧ (c1 = cgrp ∨ c1 ∈ (t.kidsOf cgrp).ids)) :
    SafeCursor st curr pc cgrp (t.descendants cgrp) := by
  obtain ⟨c1, h1, h2⟩ := h
  refine ⟨c1, h1, h2, fun _ hne => ?_⟩
  have hk : c1 ∈ (t.kidsOf cgrp).ids := by
    rcases h2 with h2 | h2
    · exact absurd h2 hne
    · exact h2
  obtain ⟨q, hq, hqc⟩ := parent_inside hw.2 hc hk
  have hw1 : WellFormed st t := wellFormed_congr hl hw
  obtain ⟨g, hg, hpar⟩ := cgroups_mem hw1 (kidsOf_ids_subset t c1 hk)
  obtain ⟨gq, hgq, -⟩ := cgroups_mem hw1 (parent_mem hq)
  exact ⟨g, q, gq, hg, by rw [hpar, hq], hgq⟩

/-- C23: on a well-formed hierarchy the `goto` loops of
`increase_effective_priority` and `decrease_effective_priority` are recursive
pre-order, first-child-first walks over the strict descendants of the start
cgroup: they leave the state that the recursive walk computes, and the
cgroups they visit are, in the order of the visits, the strict descendants in
pre-order; that list has no repetition and does not contain the start cgroup,
so every strict descendant is visited exactly once and nothing else is. -/
theorem traversals_are_preorder (s : State) (t : Forest) (cgrp val fuel : Nat)
    (hw : WellFormed s t) (hc : cgrp ∈ t.ids) (hf : 2 * t.size + 2 ≤ fuel) :
    increase_effective_priority fuel s cgrp val =
        some (increase_forest val (set_effective_priority s cgrp val) (t.kidsOf cgrp)) ∧
      increase_visits fuel s cgrp val = t.descendants cgrp ∧
      decrease_effective_priority fuel s cgrp val =
        some (decrease_forest (set_effective_priority s cgrp val) cgrp val (t.kidsOf cgrp)) ∧
      decrease_visits fuel s cgrp val = t.descendants cgrp ∧
      (t.descendants cgrp).Nodup ∧ cgrp ∉ t.descendants cgrp ∧
      ∀ n ∈ t.descendants cgrp, n ∈ t.ids := by
  obtain ⟨ns, hl⟩ := links_mem hw hc
  have hsk : Shape s (some cgrp) (t.kidsOf cgrp) := (shape_at t none cgrp hw.1 hc).2
  have hnk : cgrp ∉ (t.kidsOf cgrp).ids := not_mem_kidsOf_self t hw.2
  have hfk : 2 * (t.kidsOf cgrp).size + 2 ≤ fuel := by
    have := kidsOf_size_lt cgrp t; omega
  exact ⟨increase_effective_priority_eq val hl hsk hnk hfk,
    (increase_walk_spec val hw hc hf).1,
    decrease_effective_priority_eq val hl hsk hnk hfk,
    (decrease_walk_spec val hw hc hf).1,
    kidsOf_nodup t hw.2, hnk, kidsOf_ids_subset t⟩

theorem traversals_are_preorder_witness :
    WellFormed ex_chain ex_chain_tree ∧ 0 ∈ ex_chain_tree.ids ∧
    (increase_effective_priority 8 ex_chain 0 5 =
        some (increase_forest 5 (set_effective_priority ex_chain 0 5)
          (ex_chain_tree.kidsOf 0)) ∧
      increase_visits 8 ex_chain 0 5 = ex_chain_tree.descendants 0 ∧
      decrease_effective_priority 8 ex_chain 0 5 =
        some (decrease_forest (set_effective_priority ex_chain 0 5) 0 5
          (ex_chain_tree.kidsOf 0)) ∧
      decrease_visits 8 ex_chain 0 5 = ex_chain_tree.descendants 0 ∧
      (ex_chain_tree.descendants 0).Nodup ∧ 0 ∉ ex_chain_tree.descendants 0 ∧
      ∀ n ∈ ex_chain_tree.descendants 0, n ∈ ex_chain_tree.ids) :=
  ⟨by decide, by decide,
    traversals_are_preorder ex_chain ex_chain_tree 0 5 8 (by decide) (by decide) (by decide)⟩

/-- C30: on a well-formed hierarchy, in every configuration that the loops of
`increase_effective_priority` and `decrease_effective_priority` pass through,
the cursor is the start cgroup or one of its strict descendants, hence never
null, and whenever the loop is about to read through the parent of the cursor
(at `visit_siblings`, the cursor not being the start cgroup) that parent is
present: the test `curr == 0` never succeeds and the fallback
`effective_priority = val` is never taken. Each course ends at `out`. -/
theorem traversal_cursor_safe (s : State) (t : Forest) (cgrp val fuel : Nat)
    (hw : WellFormed s t) (hc : cgrp ∈ t.ids) (hf : 2 * t.size + 2 ≤ fuel) :
    (∀ w ∈ increase_walk fuel s cgrp val,
      SafeCursor w.st w.curr w.pc cgrp (t.descendants cgrp)) ∧
    (increase_walk fuel s cgrp val = [] ∨
      ∃ l w, increase_walk fuel s cgrp val = l ++ [w] ∧ w.pc = .out) ∧
    (∀ w ∈ decrease_walk fuel s cgrp val,
      SafeCursor w.st w.curr w.pc cgrp (t.descendants cgrp)) ∧
    (decrease_walk fuel s cgrp val = [] ∨
      ∃ l w, decrease_walk fuel s cgrp val = l ++ [w] ∧ w.pc = .out) := by
  obtain ⟨-, hi, hie⟩ := increase_walk_spec val hw hc hf
  obtain ⟨-, hd, hde⟩ := decrease_walk_spec val hw hc hf
  exact ⟨fun w hw1 => safeCursor_of_links w.pc hw hc (hi w hw1).1 (hi w hw1).2, hie,
    fun w hw1 => safeCursor_of_links w.pc hw hc (hd w hw1).1 (hd w hw1).2, hde⟩

theorem traversal_cursor_safe_witness :
    WellFormed ex_chain ex_chain_tree ∧ 0 ∈ ex_chain_tree.ids ∧
    ((∀ w ∈ increase_walk 8 ex_chain 0 5,
      SafeCursor w.st w.curr w.pc 0 (ex_chain_tree.descendants 0)) ∧
    (increase_walk 8 ex_chain 0 5 = [] ∨
      ∃ l w, increase_walk 8 ex_chain 0 5 = l ++ [w] ∧ w.pc = .out) ∧
    (∀ w ∈ decrease_walk 8 ex_chain 0 5,
      SafeCursor w.st w.curr w.pc 0 (ex_chain_tree.descendants 0)) ∧
    (decrease_walk 8 ex_chain 0 5 = [] ∨
      ∃ l w, decrease_walk 8 ex_chain 0 5 = l ++ [w] ∧ w.pc = .out)) :=
  ⟨by decide, by decide,
    traversal_cursor_safe ex_chain ex_chain_tree 0 5 8 (by decide) (by decide) (by decide)⟩



/-! ## Repeated and exchanged writes -/

theorem atomic_read_inj {a b : atomic_t} (h : atomic_read a = atomic_read b) : a = b := by
  rw [← atomic_set_read a, ← atomic_set_read b, h]

/-- Storing the priority that is already stored changes nothing. -/
theorem set_priority_self (s : State) (c : Nat) : set_priority s c (prio s c) = s := by
  cases s with
  | mk cg fl =>
    unfold set_priority
    simp only [State.mk.injEq, and_true]
    funext i
    by_cases h : i = c
    · subst h
      simp only [if_true]
      cases hg : cg i with
      | none => rfl
      | some g =>
        have e : prio ⟨cg, fl⟩ i = atomic_read g.css.priority := prio_eq hg
        rw [e, atomic_set_read]
        rfl
    · simp only [if_neg h]

theorem prio_priority_write_forest {s : State} {t : Forest} {cgrp : Nat} (val m : Nat)
    (hw : WellFormed s t) (hc : cgrp ∈ t.ids) :
    prio (priority_write_forest t s cgrp val) m =
      if m = cgrp then atomic_read (atomic_set val) else prio s m := by
  rw [prio_congr (priority_read_priority_write_forest t s cgrp val m),
    prio_set_priority s val m hw hc]

/-- After a write of a value that fits, the effective priority of the cgroup
written to is at least that value. -/
theorem le_eff_priority_write_forest {s : State} {t : Forest} {cgrp val : Nat}
    (hw : WellFormed s t) (hc : cgrp ∈ t.ids) (hv : Fits val) :
    val ≤ eff (priority_write_forest t s cgrp val) cgrp := by
  by_cases h1 : val > eff s cgrp
  · rw [(eff_priority_write_raise hw hc hv h1).1]
  · unfold priority_write_forest
    simp only [if_neg h1]
    split
    · split
      · rw [eff_decrease_start_self val val hw hc, hv]
      · split
        · rw [eff_decrease_start_self val _ hw hc]
          split
          · rw [hv]
          · rw [fits_eff]; omega
        · rw [eff_set_priority]; omega
    · rw [eff_set_priority]; omega

/-- The part of C27 that the code meets: for every cgroup of a well-formed
hierarchy (the invariant is not needed) and every value that fits a 32-bit
`int`, performing the write twice leaves the state of performing it once. -/
theorem priority_write_idempotent_fits (s : State) (t : Forest) (n v fuel : Nat)
    (hw : WellFormed s t) (hn : n ∈ t.ids) (hf : 2 * t.size + 2 ≤ fuel) (hv : Fits v) :
    ∃ s1, oom_priority_write fuel s n v = some (0, s1) ∧
      oom_priority_write fuel s1 n v = some (0, s1) := by
  have hw1 : WellFormed (priority_write_forest t s n v) t :=
    wellFormed_congr (links_priority_write_forest t s n v) hw
  refine ⟨_, oom_priority_write_eq v hw hn hf, ?_⟩
  rw [oom_priority_write_eq v hw1 hn hf]
  have hp : prio (priority_write_forest t s n v) n = v := by
    rw [prio_priority_write_forest v n hw hn, if_pos rfl]; exact hv
  have hge := le_eff_priority_write_forest hw hn hv
  have h1 : ¬ v > eff (priority_write_forest t s n v) n := by omega
  have h2 : ¬ (eff (priority_write_forest t s n v) n = prio (priority_write_forest t s n v) n ∧
      v < eff (priority_write_forest t s n v) n) := by omega
  have e : priority_write_forest t (priority_write_forest t s n v) n v =
      set_priority (priority_write_forest t s n v) n v := by
    generalize priority_write_forest t s n v = s1 at h1 h2
    unfold priority_write_forest
    simp only [if_neg h1, if_neg h2]
  rw [e]
  have := set_priority_self (priority_write_forest t s n v) n
  rw [hp] at this
  rw [this]

theorem priority_write_idempotent_fits_witness :
    WellFormed ex_fan_high ex_fan_tree ∧ 0 ∈ ex_fan_tree.ids ∧ Fits 7 ∧
    ∃ s1, oom_priority_write 8 ex_fan_high 0 7 = some (0, s1) ∧
      oom_priority_write 8 s1 0 7 = some (0, s1) :=
  ⟨by decide, by decide, by decide,
    priority_write_idempotent_fits ex_fan_high ex_fan_tree 0 7 8 (by decide) (by decide)
      (by decide) (by decide)⟩

/-- C27: the write is not idempotent for every value. `ex_fan_high` satisfies
the invariant; after one write of `2^32 - 1` to its root the child `2` still
has effective priority `2^64 - 2`, after the same write once more it has
`2^64 - 1`: the first write takes the increase branch and compares with the
value as written, the second finds the truncated value stored and takes the
decrease branch. -/
theorem priority_write_idempotent_counterexample :
    WellFormed ex_fan_high ex_fan_tree ∧ Invariant ex_fan_high ex_fan_tree ∧
    (oom_priority_write 8 ex_fan_high 0 4294967295).bind
        (fun r => oom_effective_priority_read r.2 2) = some 18446744073709551614 ∧
    ((oom_priority_write 8 ex_fan_high 0 4294967295).bind
        (fun r => oom_priority_write 8 r.2 0 4294967295)).bind
        (fun r => oom_effective_priority_read r.2 2) = some 18446744073709551615 := by
  decide

/-- Two states of the same hierarchy that satisfy the invariant and have the
same priorities are equal, if they agree on the links, on the flag and
outside the hierarchy. -/
theorem state_eq_of_invariant {s1 s2 : State} {t : Forest} (hw1 : WellFormed s1 t)
    (hl : s1.links = s2.links) (hi1 : Invariant s1 t) (hi2 : Invariant s2 t)
    (hp : ∀ n, oom_priority_read s1 n = oom_priority_read s2 n)
    (ho : ∀ n, n ∉ t.ids → s1.cgroups n = s2.cgroups n)
    (hfl : s1.honour_cpuset_constraint = s2.honour_cpuset_constraint) : s1 = s2 := by
  have hw2 : WellFormed s2 t := wellFormed_congr hl.symm hw1
  have hprio : prio s1 = prio s2 := funext (fun n => prio_congr (hp n))
  have heff : ∀ n ∈ t.ids, eff s1 n = eff s2 n := by
    intro n hn
    rw [eff_eq_path_max s1 t none 0 hw1.2 (fun m hm => (invAt_iff hw1 hm).1 (hi1 m hm)) rfl n hn,
      eff_eq_path_max s2 t none 0 hw2.2 (fun m hm => (invAt_iff hw2 hm).1 (hi2 m hm)) rfl n hn,
      hprio]
  have hcg : ∀ n, s1.cgroups n = s2.cgroups n := by
    intro n
    by_cases hn : n ∈ t.ids
    · obtain ⟨g1, hg1, -⟩ := cgroups_mem hw1 hn
      obtain ⟨g2, hg2, -⟩ := cgroups_mem hw2 hn
      have hln := congrFun hl n
      unfold State.links at hln
      rw [hg1, hg2] at hln
      simp only [Option.map_some', Option.some.injEq, Prod.mk.injEq] at hln
      have e1 : g1.css.priority = g2.css.priority := by
        apply atomic_read_inj
        rw [← prio_eq hg1, ← prio_eq hg2, hprio]
      have e2 : g1.css.effective_priority = g2.css.effective_priority := by
        apply atomic_read_inj
        rw [← eff_eq hg1, ← eff_eq hg2, heff n hn]
      rw [hg1, hg2]
      cases g1 with
      | mk p1 f1 n1 c1 =>
        cases g2 with
        | mk p2 f2 n2 c2 =>
          cases c1
          cases c2
          simp only at hln e1 e2
          simp only [Option.some.injEq, cgroup.mk.injEq, oom_cgroup.mk.injEq]
          exact ⟨hln.1, hln.2.1, hln.2.2, e1, e2⟩
    · exact ho n hn
  cases s1
  cases s2
  simp only [State.mk.injEq]
  exact ⟨funext hcg, hfl⟩

/-- The part of C28 that the code meets: on a well-formed hierarchy that
satisfies the invariant, writes of values that fit a 32-bit `int` to two
distinct cgroups leave the same state in either order. -/
theorem priority_writes_commute_fits (s : State) (t : Forest) (a b x y fuel : Nat)
    (hw : WellFormed s t) (hi : Invariant s t) (ha : a ∈ t.ids) (hb : b ∈ t.ids)
    (hab : a ≠ b) (hf : 2 * t.size + 2 ≤ fuel) (hx : Fits x) (hy : Fits y) :
    ∃ s1, (oom_priority_write fuel s a x).bind (fun r => oom_priority_write fuel r.2 b y) =
        some (0, s1) ∧
      (oom_priority_write fuel s b y).bind (fun r => oom_priority_write fuel r.2 a x) =
        some (0, s1) := by
  have hwa : WellFormed (priority_write_forest t s a x) t :=
    wellFormed_congr (links_priority_write_forest t s a x) hw
  have hwb : WellFormed (priority_write_forest t s b y) t :=
    wellFormed_congr (links_priority_write_forest t s b y) hw
  have hia := invariant_priority_write_forest hw hi ha hx
  have hib := invariant_priority_write_forest hw hi hb hy
  have hwab : WellFormed (priority_write_forest t (priority_write_forest t s a x) b y) t :=
    wellFormed_congr (links_priority_write_forest _ _ _ _) hwa
  have hread : ∀ (s0 : State) (c v m : Nat), WellFormed s0 t → c ∈ t.ids →
      oom_priority_read (priority_write_forest t s0 c v) m =
        if m = c then some (atomic_read (atomic_set v)) else oom_priority_read s0 m := by
    intro s0 c v m hw0 hc0
    obtain ⟨ns, hl0⟩ := links_mem hw0 hc0
    rw [priority_read_priority_write_forest]
    by_cases h : m = c
    · subst h
      rw [if_pos rfl, priority_read_set_priority_self v (links_ne_none hl0)]
    · rw [if_neg h, priority_read_set_priority_ne s0 v h]
  have hout : ∀ (s0 : State) (c v m : Nat), c ∈ t.ids → m ∉ t.ids →
      (priority_write_forest t s0 c v).cgroups m = s0.cgroups m := by
    intro s0 c v m hc0 hm
    exact cgroups_priority_write_forest t s0 c v (fun e => hm (e ▸ hc0))
      (fun h => hm (kidsOf_ids_subset t m h))
  have heq : priority_write_forest t (priority_write_forest t s a x) b y =
      priority_write_forest t (priority_write_forest t s b y) a x := by
    refine state_eq_of_invariant hwab ?_ (invariant_priority_write_forest hwa hia hb hy)
      (invariant_priority_write_forest hwb hib ha hx) ?_ ?_ ?_
    · simp only [links_priority_write_forest]
    · intro n
      rw [hread _ b y n hwa hb, hread _ a x n hw ha, hread _ a x n hwb ha,
        hread _ b y n hw hb]
      by_cases h1 : n = a
      · have h2 : ¬ n = b := fun e => hab (h1.symm.trans e)
        simp only [if_pos h1, if_neg h2]
      · simp only [if_neg h1]
    · intro n hn
      rw [hout _ b y n hb hn, hout _ a x n ha hn, hout _ a x n ha hn, hout _ b y n hb hn]
    · simp only [flag_priority_write_forest]
  refine ⟨priority_write_forest t (priority_write_forest t s a x) b y, ?_, ?_⟩
  · rw [oom_priority_write_eq x hw ha hf]
    simp only [Option.some_bind]
    exact oom_priority_write_eq y hwa hb hf
  · rw [oom_priority_write_eq y hw hb hf]
    simp only [Option.some_bind]
    rw [oom_priority_write_eq x hwb ha hf, heq]

theorem priority_writes_commute_fits_witness :
    WellFormed ex_chain ex_chain_tree ∧ Invariant ex_chain ex_chain_tree ∧
    0 ∈ ex_chain_tree.ids ∧ 1 ∈ ex_chain_tree.ids ∧ (0 : Nat) ≠ 1 ∧ Fits 7 ∧ Fits 5 ∧
    ∃ s1, (oom_priority_write 8 ex_chain 0 7).bind (fun r => oom_priority_write 8 r.2 1 5) =
        some (0, s1) ∧
      (oom_priority_write 8 ex_chain 1 5).bind (fun r => oom_priority_write 8 r.2 0 7) =
        some (0, s1) :=
  ⟨by decide, by decide, by decide, by decide, by decide, by decide, by decide,
    priority_writes_commute_fits ex_chain ex_chain_tree 0 1 7 5 8 (by decide) (by decide)
      (by decide) (by decide) (by decide) (by decide) (by decide) (by decide)⟩

/-- C28: writes to distinct cgroups do not commute for every value. On
`ex_pair`, which satisfies the invariant, writing `2^32` to the root and then
`5` to the child leaves the child at effective priority `5`; in the other
order the write to the root finds the child at `5 < 2^32` and overwrites it
with the truncated value `0`. -/
theorem priority_writes_commute_counterexample :
    WellFormed ex_pair ex_pair_tree ∧ Invariant ex_pair ex_pair_tree ∧
    ((oom_priority_write 6 ex_pair 0 4294967296).bind
        (fun r => oom_priority_write 6 r.2 1 5)).bind
        (fun r => oom_effective_priority_read r.2 1) = some 5 ∧
    ((oom_priority_write 6 ex_pair 1 5).bind
        (fun r => oom_priority_write 6 r.2 0 4294967296)).bind
        (fun r => oom_effective_priority_read r.2 1) = some 0 := by
  decide



/-! ## The order of siblings -/

/-- Two hierarchies with the same cgroups and the same parents have the same
strict descendants below a cgroup, whatever the order of the siblings. -/
theorem descendants_subset_of_parents {t t2 : Forest} {cgrp : Nat}
    (hnd : t.ids.Nodup) (hnd2 : t2.ids.Nodup)
    (hpar : ∀ n, t.parentOf n none = t2.parentOf n none)
    (hids : ∀ n, n ∈ t.ids ↔ n ∈ t2.ids) (hc : cgrp ∈ t.ids) :
    ∀ n ∈ (t.kidsOf cgrp).ids, n ∈ (t2.kidsOf cgrp).ids := by
  refine forest_parent_induction _ (t.kidsOf cgrp) (some cgrp) (kidsOf_nodup t hnd) ?_
  intro n hn hind
  obtain ⟨q, hq⟩ := parentOf_isSome (t.kidsOf cgrp) cgrp n hn
  have hq2 : t2.parentOf n none = some q := by
    rw [← hpar, (kidsOf_kidsOf t none cgrp n hnd hc hn).2]; exact hq
  have hn2 : n ∈ t2.ids := (hids n).1 (kidsOf_ids_subset t n hn)
  have hm : n ∈ (t2.kidsOf q).ids := by
    rcases mem_kidsOf_parentOf t2 none n q hnd2 hn2 hq2 with h | h
    · exact absurd h (by simp)
    · exact h
  rcases hind q hq with h | h
  · simp only [Option.some.injEq] at h
    rw [h]; exact hm
  · exact kidsOf_ids_trans hnd2 h hm

/-- The part of C22 that the code meets: for a floor that fits a 32-bit `int`
the result of decrease propagation does not depend on the order of siblings.
Two well-formed hierarchies with the same cgroups, the same oom state in each
and the same parent of each, whatever the order of their child lists, have
the same effective priority at every cgroup after
`decrease_effective_priority(cgrp, floor)`. -/
theorem decrease_order_independent_fits (s s2 : State) (t t2 : Forest)
    (cgrp floor fuel fuel2 : Nat) (hw : WellFormed s t) (hw2 : WellFormed s2 t2)
    (hcss : ∀ n, oom_css_from_cgroup s n = oom_css_from_cgroup s2 n)
    (hpar : ∀ n, t.parentOf n none = t2.parentOf n none)
    (hids : ∀ n, n ∈ t.ids ↔ n ∈ t2.ids) (hc : cgrp ∈ t.ids)
    (hf : 2 * t.size + 2 ≤ fuel) (hf2 : 2 * t2.size + 2 ≤ fuel2) (hv : Fits floor) :
    ∃ r r2, decrease_effective_priority fuel s cgrp floor = some r ∧
      decrease_effective_priority fuel2 s2 cgrp floor = some r2 ∧
      ∀ n, oom_effective_priority_read r n = oom_effective_priority_read r2 n := by
  have hc2 : cgrp ∈ t2.ids := (hids cgrp).1 hc
  obtain ⟨ns, hl⟩ := links_mem hw hc
  obtain ⟨ns2, hl2⟩ := links_mem hw2 hc2
  have hnk : cgrp ∉ (t.kidsOf cgrp).ids := not_mem_kidsOf_self t hw.2
  have hnk2 : cgrp ∉ (t2.kidsOf cgrp).ids := not_mem_kidsOf_self t2 hw2.2
  have hfk : 2 * (t.kidsOf cgrp).size + 2 ≤ fuel := by
    have := kidsOf_size_lt cgrp t; omega
  have hfk2 : 2 * (t2.kidsOf cgrp).size + 2 ≤ fuel2 := by
    have := kidsOf_size_lt cgrp t2; omega
  have hsub := descendants_subset_of_parents hw.2 hw2.2 hpar hids hc
  have hsub2 := descendants_subset_of_parents hw2.2 hw.2 (fun n => (hpar n).symm)
    (fun n => (hids n).symm) hc2
  have hprio : ∀ n, prio s n = prio s2 n := by
    intro n; unfold prio oom_priority_read; rw [hcss]
  have hread : ∀ n, oom_effective_priority_read s n = oom_effective_priority_read s2 n := by
    intro n; unfold oom_effective_priority_read; rw [hcss]
  have hw0 : WellFormed (set_effective_priority s cgrp floor) t :=
    wellFormed_congr (links_set_effective_priority _ _ _) hw
  have hw02 : WellFormed (set_effective_priority s2 cgrp floor) t2 :=
    wellFormed_congr (links_set_effective_priority _ _ _) hw2
  have he : eff (set_effective_priority s cgrp floor) cgrp = floor := by
    rw [eff_set_effective_priority_self floor (links_ne_none hl)]; exact hv
  have he2 : eff (set_effective_priority s2 cgrp floor) cgrp = floor := by
    rw [eff_set_effective_priority_self floor (links_ne_none hl2)]; exact hv
  have hrec := eff_decrease_forest (t.kidsOf cgrp) _ cgrp floor
    (shape_at t none cgrp hw0.1 hc).2 (kidsOf_nodup t hw.2) hnk he.symm
  have hrec2 := eff_decrease_forest (t2.kidsOf cgrp) _ cgrp floor
    (shape_at t2 none cgrp hw02.1 hc2).2 (kidsOf_nodup t2 hw2.2) hnk2 he2.symm
  have hwr : WellFormed (decrease_forest (set_effective_priority s cgrp floor) cgrp floor
      (t.kidsOf cgrp)) t := wellFormed_congr (links_decrease_forest _ _ _ _) hw0
  have hwr2 : WellFormed (decrease_forest (set_effective_priority s2 cgrp floor) cgrp floor
      (t2.kidsOf cgrp)) t2 := wellFormed_congr (links_decrease_forest _ _ _ _) hw02
  have hroot : eff (decrease_forest (set_effective_priority s cgrp floor) cgrp floor
      (t.kidsOf cgrp)) cgrp =
      eff (decrease_forest (set_effective_priority s2 cgrp floor) cgrp floor
        (t2.kidsOf cgrp)) cgrp := by
    rw [eff_congr (cgroups_decrease_forest _ _ _ _ cgrp hnk), he,
      eff_congr (cgroups_decrease_forest _ _ _ _ cgrp hnk2), he2]
  have key : ∀ n ∈ (t.kidsOf cgrp).ids,
      eff (decrease_forest (set_effective_priority s cgrp floor) cgrp floor
        (t.kidsOf cgrp)) n =
      eff (decrease_forest (set_effective_priority s2 cgrp floor) cgrp floor
        (t2.kidsOf cgrp)) n := by
    refine forest_parent_induction _ (t.kidsOf cgrp) (some cgrp) (kidsOf_nodup t hw.2) ?_
    intro n hn hind
    obtain ⟨q, hq, hvq⟩ := hrec n hn
    have hn2 := hsub n hn
    obtain ⟨q2, hq2, hvq2⟩ := hrec2 n hn2
    have hqq : q2 = q := by
      have e1 := (kidsOf_kidsOf t none cgrp n hw.2 hc hn).2
      have e2 := (kidsOf_kidsOf t2 none cgrp n hw2.2 hc2 hn2).2
      rw [hq] at e1
      rw [hq2, ← hpar, e1] at e2
      simp only [Option.some.injEq] at e2
      exact e2.symm
    subst hqq
    rw [hvq, hvq2, prio_set_effective_priority, prio_set_effective_priority, hprio]
    rcases hind q2 hq with h | h
    · simp only [Option.some.injEq] at h
      subst h
      rw [hroot]
    · rw [h]
  refine ⟨_, _, decrease_effective_priority_eq floor hl (shape_at t none cgrp hw.1 hc).2 hnk hfk,
    decrease_effective_priority_eq floor hl2 (shape_at t2 none cgrp hw2.1 hc2).2 hnk2 hfk2, ?_⟩
  intro n
  by_cases h1 : n = cgrp
  · subst h1
    rw [effective_read_mem hwr hc, effective_read_mem hwr2 hc2, hroot]
  · by_cases h2 : n ∈ (t.kidsOf cgrp).ids
    · rw [effective_read_mem hwr (kidsOf_ids_subset t n h2),
        effective_read_mem hwr2 (kidsOf_ids_subset t2 n (hsub n h2)), key n h2]
    · have h3 : n ∉ (t2.kidsOf cgrp).ids := fun h => h2 (hsub2 n h)
      rw [effective_read_congr (cgroups_decrease_forest _ _ _ _ n h2),
        effective_read_congr (cgroups_decrease_forest _ _ _ _ n h3)]
      unfold oom_effective_priority_read oom_css_from_cgroup
      rw [cgroups_set_effective_priority, cgroups_set_effective_priority, if_neg h1, if_neg h1]
      exact hread n

theorem decrease_order_independent_fits_witness :
    WellFormed ex_fan ex_fan_tree ∧ WellFormed ex_fan_swapped ex_fan_tree_swapped ∧
    (∀ n, oom_css_from_cgroup ex_fan n = oom_css_from_cgroup ex_fan_swapped n) ∧
    (∀ n, ex_fan_tree.parentOf n none = ex_fan_tree_swapped.parentOf n none) ∧
    (∀ n, n ∈ ex_fan_tree.ids ↔ n ∈ ex_fan_tree_swapped.ids) ∧ 0 ∈ ex_fan_tree.ids ∧
    Fits 5 ∧
    ∃ r r2, decrease_effective_priority 8 ex_fan 0 5 = some r ∧
      decrease_effective_priority 8 ex_fan_swapped 0 5 = some r2 ∧
      ∀ n, oom_effective_priority_read r n = oom_effective_priority_read r2 n :=
  have h1 : ∀ n, oom_css_from_cgroup ex_fan n = oom_css_from_cgroup ex_fan_swapped n := by
    intro n
    match n with
    | 0 => rfl
    | 1 => rfl
    | 2 => rfl
    | _ + 3 => rfl
  have h2 : ∀ n, ex_fan_tree.parentOf n none = ex_fan_tree_swapped.parentOf n none := by
    intro n
    match n with
    | 0 => rfl
    | 1 => rfl
    | 2 => rfl
    | k + 3 => simp [ex_fan_tree, ex_fan_tree_swapped, Forest.parentOf, Forest.ids]
  have h3 : ∀ n, n ∈ ex_fan_tree.ids ↔ n ∈ ex_fan_tree_swapped.ids := by
    intro n
    simp only [ex_fan_tree, ex_fan_tree_swapped, Forest.ids, List.mem_cons, List.mem_append,
      List.not_mem_nil, or_false, List.nil_append, List.append_nil]
    tauto
  ⟨by decide, by decide, h1, h2, h3, by decide, by decide,
    decrease_order_independent_fits ex_fan ex_fan_swapped ex_fan_tree ex_fan_tree_swapped 0 5 8
      8 (by decide) (by decide) h1 h2 h3 (by decide) (by decide) (by decide) (by decide)⟩

/-- C22: the result of decrease propagation depends on the order of siblings
when the floor does not fit. `ex_fan` and `ex_fan_swapped` have the same
cgroups with the same oom state and the same parents, the two children of the
root in opposite orders. After `decrease_effective_priority(0, 2^32 + 5)` the
child `1` (priority `10`) has effective priority `5` where it is the first
child and `10` where it is the second: the first child is compared with the
floor as passed, every later sibling with the truncated floor stored in the
parent. -/
theorem decrease_order_counterexample :
    WellFormed ex_fan ex_fan_tree ∧ WellFormed ex_fan_swapped ex_fan_tree_swapped ∧
    (oom_css_from_cgroup ex_fan 0 = oom_css_from_cgroup ex_fan_swapped 0 ∧
      oom_css_from_cgroup ex_fan 1 = oom_css_from_cgroup ex_fan_swapped 1 ∧
      oom_css_from_cgroup ex_fan 2 = oom_css_from_cgroup ex_fan_swapped 2) ∧
    (decrease_effective_priority 8 ex_fan 0 4294967301).bind
        (fun r => oom_effective_priority_read r 1) = some 5 ∧
    (decrease_effective_priority 8 ex_fan_swapped 0 4294967301).bind
        (fun r => oom_effective_priority_read r 1) = some 10 := by
  decide

end OomControl
